import Mathlib

/-!
A shallow embedding of Trinity's segment-merge core (`merge.cpp`):
`MergeCandidatesCollection::commit`, `scanner_registry_for`, `merge` and
`consider_tracked_sources`, together with proofs of the specified
properties of that code.

Modelling conventions:
* machine integers are `Nat`; overflow is modelled explicitly where it can
  occur (the source's `uint8_t toAdvanceCnt` in the outer term merge wraps
  modulo 256; no other counter can overflow on inputs the source accepts);
* the fatal `require(...)` assertions are modelled by `Except MergeAbort`;
* the two unbounded `for(;;)` loops are modelled with an explicit fuel that
  `merge` initialises to the total number of items still to be consumed,
  which is an upper bound on the number of iterations, so concrete runs
  always finish their work before the fuel runs out;
* external collaborators (codecs, the index session, the output encoder)
  are modelled by the data the coordinator exchanges with them.
-/

namespace Trinity

/-- One occurrence of a term in a document: a position plus opaque payload
bytes (`term_hit`; `payloadLen` is the length of `payload`). -/
structure term_hit where
  pos : Nat
  payload : List Nat
deriving DecidableEq

/-- One document of a postings list as a codec decoder produces it
(`curDocument`): the document id and the hits that `materialize_hits`
yields for it; `freq` is `hits.length`. -/
structure doc_rec where
  id : Nat
  hits : List term_hit
deriving DecidableEq

instance : Inhabited doc_rec := ⟨⟨0, []⟩⟩

/-- `term_index_ctx`: the document count for a term plus the opaque,
codec-defined chunk descriptor (modelled as a number). -/
structure term_index_ctx where
  documents : Nat
  chunk : Nat
deriving DecidableEq

instance : Inhabited term_index_ctx := ⟨⟨0, 0⟩⟩

/-- The sentinel maximum document id (`MaxDocIDValue`; `docid_t` is a
32-bit unsigned integer). -/
def MaxDocIDValue : Nat := 4294967295

/-- A postings accessor (`Trinity::Codecs::AccessProxy`): its codec
identifier and `new_decoder`, which for a term's `term_index_ctx` yields
the decoder, modelled by the postings it decodes. -/
structure AccessPoint where
  codec : Nat
  decode : term_index_ctx → List doc_rec

instance : Inhabited AccessPoint := ⟨⟨0, fun _ => []⟩⟩

/-- A merge candidate (`merge_candidate`): generation, term iterator
(`none` models a null pointer; the list is the remaining sequence of the
iterator, so `[]` models `done()`), optional postings accessor, and the
documents masked by this generation (`[]` models an absent/empty mask set,
matching the `if (ud)` truthiness test in `commit`). -/
structure merge_candidate where
  gen : Nat
  terms : Option (List (List Nat × term_index_ctx))
  ap : Option AccessPoint
  maskedDocuments : List Nat

instance : Inhabited merge_candidate := ⟨⟨0, none, none, []⟩⟩

/-- `masked_documents_registry::test`: is the document masked by any of the
mask sets the registry was made from? -/
def registryTest (reg : List (List Nat)) (d : Nat) : Bool :=
  reg.any (fun m => m.contains d)

/-- `masked_documents_registry::empty`: the registry was made from no mask
sets. -/
def registryEmpty (reg : List (List Nat)) : Bool := reg.isEmpty

/-- `MergeCandidatesCollection`: the candidates plus the structures built
by `commit` (`map` pairs each sorted candidate with a prefix length into
`all`; `all` is the sequence of non-empty mask sets in sorted order). -/
structure MergeCandidatesCollection where
  candidates : List merge_candidate
  map : List (merge_candidate × Nat)
  all : List (List Nat)

/-- Insertion of a candidate into a generation-descending list, with the
comparator of `commit`'s `std::sort` (`b.gen < a.gen`). `std::sort` leaves
the order of equal generations unspecified; `merge` rejects equal adjacent
generations, so the tie order is unobservable there. -/
def orderedInsertGenDesc (c : merge_candidate) :
    List merge_candidate → List merge_candidate
  | [] => [c]
  | d :: rest =>
      if d.gen < c.gen then c :: d :: rest else d :: orderedInsertGenDesc c rest

/-- Sorting of the candidates by generation descending. -/
def sortByGenDesc : List merge_candidate → List merge_candidate
  | [] => []
  | c :: rest => orderedInsertGenDesc c (sortByGenDesc rest)

/-- The loop body of `commit`: walking the sorted candidates, pair each
with `all.size()` at that point, then push its mask set onto `all` when
that set is non-empty. -/
def buildMaskMaps : List merge_candidate → List (List Nat) →
    List (merge_candidate × Nat) × List (List Nat)
  | [], all => ([], all)
  | c :: rest, all =>
      let entry := (c, all.length)
      let all' := if c.maskedDocuments.isEmpty then all else all ++ [c.maskedDocuments]
      let (m, a) := buildMaskMaps rest all'
      (entry :: m, a)

/-- `MergeCandidatesCollection::commit`. -/
def commit (coll : MergeCandidatesCollection) : MergeCandidatesCollection :=
  let sorted := sortByGenDesc coll.candidates
  let ma := buildMaskMaps sorted []
  { candidates := sorted, map := ma.1, all := ma.2 }

/-- `MergeCandidatesCollection::scanner_registry_for`: the registry made
from the first `map[idx].second` mask sets of `all`. -/
def scanner_registry_for (coll : MergeCandidatesCollection) (idx : Nat) :
    List (List Nat) :=
  coll.all.take (coll.map.getD idx default).2

/-- Modelled from the spec: `terms_cmp` (text.h, not part of this
repository) compares two terms bytewise lexicographically; a strict prefix
compares less than the longer term. -/
def terms_cmp : List Nat → List Nat → Ordering
  | [], [] => .eq
  | [], _ :: _ => .lt
  | _ :: _, [] => .gt
  | a :: as, b :: bs =>
      if a < b then .lt else if b < a then .gt else terms_cmp as bs

/-- A participant of a codec-native bulk merge
(`Trinity::Codecs::IndexSession::merge_participant`): accessor, term
context and the masked-documents registry whose ownership is transferred.
`src` is model bookkeeping naming the collection slot whose registry this
is (the source passes the registry object itself). -/
structure merge_participant where
  ap : AccessPoint
  tctx : term_index_ctx
  maskedDocsReg : List (List Nat)
  src : Nat

/-- A document the merge emits for a term: id, the hits re-emitted for it,
and (model bookkeeping) the collection slot of the candidate whose decoder
supplied the hits. -/
structure out_doc where
  id : Nat
  hits : List term_hit
  src : Nat
deriving DecidableEq

/-- One term the merge appends to the output sink `terms`, together with
the documents written to the output session for that term. -/
structure out_entry where
  term : List Nat
  tctx : term_index_ctx
  docs : List out_doc
deriving DecidableEq

/-- The output index session (`Trinity::Codecs::IndexSession`), abstracted
to what the coordinator observes of it: its codec identifier,
`append_index_chunk` (the returned chunk descriptor), the codec-native
`merge` routine (the documents it writes through the encoder), and
`indexOut.size()`. -/
structure IndexSession where
  codec : Nat
  appendChunk : AccessPoint → term_index_ctx → Nat
  bulkMerge : List merge_participant → List out_doc
  indexOutSize : Nat

/-- The distinct fatal `require(...)` assertions `merge` can abort with. -/
inductive MergeAbort where
  | tooManyCandidates
  | gensNotDescending
  | maxDocIDSentinel
  | tooManyDecoders
deriving DecidableEq

/-- `struct tracked_candidate { uint16_t idx; merge_candidate candidate; }`. -/
structure tracked_candidate where
  idx : Nat
  candidate : merge_candidate

instance : Inhabited tracked_candidate := ⟨⟨0, default⟩⟩

/-- The head loop of `merge` (lines 53–66): checks that generations are
strictly descending and collects into the working set the candidates whose
term iterator exists and is not exhausted and whose accessor exists. -/
def buildWorkingFrom : Nat → Option Nat → List merge_candidate →
    Except MergeAbort (List tracked_candidate)
  | _, _, [] => .ok []
  | i, prevGen, c :: rest => do
      match prevGen with
      | some g => if c.gen < g then pure () else throw .gensNotDescending
      | none => pure ()
      let tail ← buildWorkingFrom (i + 1) (some c.gen) rest
      match c.terms, c.ap with
      | some ts, some _ => if ts.isEmpty then .ok tail else .ok (⟨i, c⟩ :: tail)
      | _, _ => .ok tail

/-- `terms->cur()` for a working-set entry (entries in the working set
always hold a present, non-exhausted iterator). -/
def wcur (t : tracked_candidate) : List Nat × term_index_ctx :=
  (t.candidate.terms.getD []).headD ([], default)

/-- `candidate.ap->codec_identifier()` for a working-set entry. -/
def wcodec (t : tracked_candidate) : Nat := (t.candidate.ap.getD default).codec

/-- The running state of the outer selection scan (lines 91–123):
`selected` term pair, `codec` of the selection setter, the `sameCODEC`
flag, the `toAdvance` buffer and `toAdvanceCnt`. `cnt` models the
source's `uint8_t toAdvanceCnt`, hence the `% 256`. -/
structure sel_state where
  selected : List Nat × term_index_ctx
  codec : Nat
  sameCODEC : Bool
  buf : List Nat
  cnt : Nat

/-- One iteration of the outer selection scan for working-set position `i`. -/
def selStep (ws : List tracked_candidate) (st : sel_state) (i : Nat) : sel_state :=
  let pair := wcur (ws.getD i default)
  match terms_cmp pair.1 st.selected.1 with
  | .lt =>
      { selected := pair, codec := wcodec (ws.getD i default), sameCODEC := true,
        buf := st.buf.set 0 i, cnt := 1 }
  | .eq =>
      let same := if st.sameCODEC ∧ wcodec (ws.getD i default) ≠ st.codec then
        false else st.sameCODEC
      { st with sameCODEC := same, buf := st.buf.set st.cnt i, cnt := (st.cnt + 1) % 256 }
  | .gt => st

/-- The outer selection scan: start from position 0
(`toAdvance[0] = 0; toAdvanceCnt = 1`) and fold positions `1..rem-1`.
The `toAdvance` buffer is a VLA of length `rem` in the source; stale
slots are never read back (only slots written since the last reset are),
so a zero-initialised buffer is observationally equivalent. -/
def outerSelect (ws : List tracked_candidate) : sel_state :=
  (List.range' 1 (ws.length - 1)).foldl (selStep ws)
    { selected := wcur (ws.getD 0 default), codec := wcodec (ws.getD 0 default),
      sameCODEC := true, buf := List.replicate ws.length 0, cnt := 1 }

/-- The single-candidate re-encode loop (lines 167–207): walk the decoder,
assert each document id is not the sentinel, and re-emit every document the
registry does not mask. -/
def reencodeDocs (reg : List (List Nat)) (src : Nat) :
    List doc_rec → Except MergeAbort (List out_doc)
  | [] => .ok []
  | d :: rest =>
      if d.id = MaxDocIDValue then .error .maxDocIDSentinel
      else do
        let tail ← reencodeDocs reg src rest
        if registryTest reg d.id then .ok tail
        else .ok (⟨d.id, d.hits, src⟩ :: tail)

/-- The single-candidate term group (lines 133–224): byte-level chunk
append when the codecs match and the registry is empty, otherwise the
decode/re-encode path; both drop zero-document terms. -/
def singleGroup (coll : MergeCandidatesCollection) (is : IndexSession)
    (outTerm : List Nat) (selected : List Nat × term_index_ctx) (fastPath : Bool)
    (c : tracked_candidate) : Except MergeAbort (Option out_entry) :=
  let maskedDocsReg := scanner_registry_for coll c.idx
  if fastPath && registryEmpty maskedDocsReg then
    if selected.2.documents ≠ 0 then
      let chunk := is.appendChunk (c.candidate.ap.getD default) selected.2
      -- Modelled from the spec (§8, fast-path equivalence):
      -- `append_index_chunk` copies the term's postings bytes verbatim, so
      -- the documents the chunk carries are exactly the decoder's documents.
      let docs := ((c.candidate.ap.getD default).decode selected.2).map
        (fun d => (⟨d.id, d.hits, c.idx⟩ : out_doc))
      .ok (some ⟨outTerm, ⟨selected.2.documents, chunk⟩, docs⟩)
    else .ok none
  else
    if selected.2.documents = 0 then .ok none
    else do
      let docs ← reencodeDocs maskedDocsReg c.idx
        ((c.candidate.ap.getD default).decode selected.2)
      let tctx : term_index_ctx := ⟨docs.length, 0⟩
      if tctx.documents ≠ 0 then .ok (some ⟨outTerm, tctx, docs⟩) else .ok none

/-- The participants gathered by the multi-candidate fast path
(lines 229–246): one per tied candidate whose current term context has a
non-zero document count, each with a freshly made registry. -/
def buildParticipants (coll : MergeCandidatesCollection)
    (ws : List tracked_candidate) (buf : List Nat) (cnt : Nat) :
    List merge_participant :=
  (List.range cnt).filterMap (fun i =>
    let t := ws.getD (buf.getD i 0) default
    if (wcur t).2.documents ≠ 0 then
      some ⟨t.candidate.ap.getD default, (wcur t).2,
        scanner_registry_for coll t.idx, t.idx⟩
    else none)

/-- The multi-candidate fast path (lines 227–259): delegate to the output
session's codec-native merge, then drop the term when `end_term` reports
zero documents. -/
def fastMultiGroup (coll : MergeCandidatesCollection) (is : IndexSession)
    (outTerm : List Nat) (ws : List tracked_candidate) (buf : List Nat)
    (cnt : Nat) : Option out_entry :=
  let mergeParticipants := buildParticipants coll ws buf cnt
  if mergeParticipants.isEmpty then none
  else
    let docs := is.bulkMerge mergeParticipants
    let tctx : term_index_ctx := ⟨docs.length, 0⟩
    if tctx.documents ≠ 0 then some ⟨outTerm, tctx, docs⟩ else none

/-- One decoder of the slow multi-candidate path, paired with its registry
(`decodersV` entries) and, as model bookkeeping, the collection slot it
decodes. `begin()` is implicit: the head of `docs` is the current document. -/
structure inner_dec where
  docs : List doc_rec
  reg : List (List Nat)
  src : Nat

instance : Inhabited inner_dec := ⟨⟨[], [], 0⟩⟩

/-- The decoders gathered by the slow path (lines 264–281): one per tied
candidate with a non-zero document count. The source's `require(reg)`
always holds (`scanner_registry_for` never returns null). -/
def buildDecoders (coll : MergeCandidatesCollection)
    (ws : List tracked_candidate) (buf : List Nat) (cnt : Nat) :
    List inner_dec :=
  (List.range cnt).filterMap (fun i =>
    let t := ws.getD (buf.getD i 0) default
    if (wcur t).2.documents ≠ 0 then
      some ⟨(t.candidate.ap.getD default).decode (wcur t).2,
        scanner_registry_for coll t.idx, t.idx⟩
    else none)

/-- `curDocument` of a decoder of the slow path. -/
def innerCur (d : inner_dec) : doc_rec := d.docs.headD default

/-- The running state of the inner document selection scan (lines 293–309):
lowest current document id, the inner `toAdvance` buffer (a `uint16_t[128]`
in the source) and its count (a `uint16_t`, which cannot wrap because the
slow path requires at most 128 decoders). -/
structure inner_sel where
  lowestDID : Nat
  buf : List Nat
  cnt : Nat

/-- One iteration of the inner selection scan for decoder position `i`. -/
def innerSelStep (decs : List inner_dec) (st : inner_sel) (i : Nat) : inner_sel :=
  let d := (innerCur (decs.getD i default)).id
  if d < st.lowestDID then ⟨d, st.buf.set 0 i, 1⟩
  else if d = st.lowestDID then ⟨st.lowestDID, st.buf.set st.cnt i, st.cnt + 1⟩
  else st

/-- The inner selection scan over all decoders. -/
def innerSelect (decs : List inner_dec) : inner_sel :=
  (List.range' 1 (decs.length - 1)).foldl (innerSelStep decs)
    ⟨(innerCur (decs.getD 0 default)).id, List.replicate 128 0, 1⟩

/-- The inner advancement loop (lines 343–358): pop the tied decoder
positions in descending buffer order, advance each, delete a decoder that
became exhausted and end the inner loop (`goto l10`) when none remain. -/
def innerAdvance (buf : List Nat) : Nat → List inner_dec → Option (List inner_dec)
  | 0, decs => some decs
  | p + 1, decs =>
      let idx := buf.getD p 0
      let d := decs.getD idx default
      let docs' := d.docs.tail
      if docs'.isEmpty then
        let decs' := decs.eraseIdx idx
        if decs'.isEmpty then none else innerAdvance buf p decs'
      else innerAdvance buf p (decs.set idx { d with docs := docs' })

/-- The inner document-level k-way merge loop of the slow path
(lines 291–359): find the lowest current document id, emit the chosen
decoder's document when its registry does not mask it, then advance every
decoder positioned at that id. -/
def innerLoop : Nat → List inner_dec → List out_doc
  | 0, _ => []
  | fuel + 1, decs =>
      let sel := innerSelect decs
      let w := decs.getD (sel.buf.getD 0 0) default
      let emit : Option out_doc :=
        if registryTest w.reg sel.lowestDID then none
        else some ⟨sel.lowestDID, (innerCur w).hits, w.src⟩
      match innerAdvance sel.buf sel.cnt decs with
      | none => emit.toList
      | some decs' => emit.toList ++ innerLoop fuel decs'

/-- An upper bound on the number of iterations of the inner loop: the
total number of documents still held by the decoders. -/
def innerFuel (decs : List inner_dec) : Nat :=
  (decs.map (fun d => d.docs.length)).sum

/-- The slow multi-candidate path (lines 261–367): build one decoder per
participating candidate, assert the 128-decoder capacity of the inner
`toAdvance` buffer, run the inner merge and drop the term when `end_term`
reports zero documents. -/
def slowGroup (coll : MergeCandidatesCollection) (_is : IndexSession)
    (outTerm : List Nat) (ws : List tracked_candidate) (buf : List Nat)
    (cnt : Nat) : Except MergeAbort (Option out_entry) :=
  let decodersV := buildDecoders coll ws buf cnt
  if decodersV.isEmpty then .ok none
  else if 128 < decodersV.length then .error .tooManyDecoders
  else
    let docs := innerLoop (innerFuel decodersV) decodersV
    let tctx : term_index_ctx := ⟨docs.length, 0⟩
    if tctx.documents ≠ 0 then .ok (some ⟨outTerm, tctx, docs⟩) else .ok none

/-- The outer advancement loop (lines 376–389): pop the tied working-set
positions in descending buffer order, advance each term iterator, remove a
candidate that became exhausted and end the merge (`goto l1`) when none
remain. -/
def outerAdvance (buf : List Nat) : Nat → List tracked_candidate →
    Option (List tracked_candidate)
  | 0, ws => some ws
  | p + 1, ws =>
      let idx := buf.getD p 0
      let t := ws.getD idx default
      let ts := (t.candidate.terms.getD []).tail
      if ts.isEmpty then
        let ws' := ws.eraseIdx idx
        if ws'.isEmpty then none else outerAdvance buf p ws'
      else
        outerAdvance buf p
          (ws.set idx { t with candidate := { t.candidate with terms := some ts } })

/-- One iteration of the outer term-merge loop: select the minimum term
group, dispatch it to the single-candidate, fast multi-candidate or slow
multi-candidate path, then advance the tied iterators. When `toAdvanceCnt`
is 0 (it wrapped), the advancement's `--toAdvanceCnt` wraps back to 255 and
the loop body runs 256 times, modelled by `cnt' = 256`. The
flush-frequency branch of the source (lines 371–374) is an empty stub and
contributes nothing. -/
def mergeStep (coll : MergeCandidatesCollection) (is : IndexSession)
    (ws : List tracked_candidate) :
    Except MergeAbort (Option out_entry × Option (List tracked_candidate)) := do
  let st := outerSelect ws
  let outTerm := st.selected.1
  let fastPath := st.sameCODEC && (st.codec == is.codec)
  let entry ←
    if st.cnt = 1 then
      singleGroup coll is outTerm st.selected fastPath
        (ws.getD (st.buf.getD 0 0) default)
    else if fastPath then .ok (fastMultiGroup coll is outTerm ws st.buf st.cnt)
    else slowGroup coll is outTerm ws st.buf st.cnt
  let cnt' := if st.cnt = 0 then 256 else st.cnt
  .ok (entry, outerAdvance st.buf cnt' ws)

/-- The outer term-merge loop (`for(;;)`, lines 89–390). -/
def mergeLoop (coll : MergeCandidatesCollection) (is : IndexSession) :
    Nat → List tracked_candidate → Except MergeAbort (List out_entry)
  | 0, _ => .ok []
  | fuel + 1, ws => do
      let (entry, next) ← mergeStep coll is ws
      match next with
      | none => .ok entry.toList
      | some ws' => do
          let rest ← mergeLoop coll is fuel ws'
          .ok (entry.toList ++ rest)

/-- An upper bound on the number of iterations of the outer loop: the
total number of terms still held by the working set's iterators. -/
def outerFuel (ws : List tracked_candidate) : Nat :=
  (ws.map (fun t => (t.candidate.terms.getD []).length)).sum

/-- `MergeCandidatesCollection::merge`. The caller must have committed
first. `flushFreq` only feeds the empty flush-hint stub. The result is the
sequence of entries appended to the `terms` sink, each with the documents
written to the output session for that term. -/
def merge (coll : MergeCandidatesCollection) (is : IndexSession)
    (flushFreq : Nat) : Except MergeAbort (List out_entry) := do
  let _ := flushFreq
  if coll.candidates.length < 65535 then pure () else throw .tooManyCandidates
  let ws ← buildWorkingFrom 0 none coll.candidates
  if ws.isEmpty then .ok []
  else mergeLoop coll is (outerFuel ws) ws

/-- `MergeCandidatesCollection::IndexSourceRetention`. -/
inductive IndexSourceRetention where
  | RetainAll
  | RetainDocumentIDsUpdates
  | Delete
deriving DecidableEq

/-- The classification loop of `consider_tracked_sources` (lines 406–423),
iterating the ascending-sorted tracked generations with the running
`lastNotCandidateIdx` (its `UINT32_MAX` initial sentinel is modelled as
`none`, for which the `lastNotCandidateIdx < i` test is false). -/
def classifyTracked (candidatesGens : List Nat) :
    Nat → Option Nat → List Nat → List (Nat × IndexSourceRetention)
  | _, _, [] => []
  | i, lastNot, g :: rest =>
      if ¬ candidatesGens.contains g then
        (g, .RetainAll) :: classifyTracked candidatesGens (i + 1) (some i) rest
      else if (match lastNot with | some j => decide (j < i) | none => false) then
        (g, .RetainDocumentIDsUpdates) :: classifyTracked candidatesGens (i + 1) lastNot rest
      else
        (g, .Delete) :: classifyTracked candidatesGens (i + 1) lastNot rest

/-- `MergeCandidatesCollection::consider_tracked_sources`: sort the tracked
generations ascending, collect the candidate generations
(`std::set` membership is list membership), and classify each tracked
generation. -/
def consider_tracked_sources (coll : MergeCandidatesCollection)
    (trackedSources : List Nat) : List (Nat × IndexSourceRetention) :=
  classifyTracked (coll.candidates.map (fun c => c.gen)) 0 none
    (List.insertionSort (· ≤ ·) trackedSources)

/-- The retention classification as the specification states it: a pure
function of the candidate generation set and the tracked list. `RetainAll`
iff the generation is not a candidate; `RetainDocumentIDsUpdates` iff it is
a candidate and some strictly smaller tracked generation is not a
candidate; `Delete` otherwise. -/
def retentionSpec (candidatesGens : List Nat) (trackedSources : List Nat) :
    List (Nat × IndexSourceRetention) :=
  (List.insertionSort (· ≤ ·) trackedSources).map (fun g =>
    (g, if ¬ candidatesGens.contains g then .RetainAll
        else if trackedSources.any (fun g' => decide (g' < g) && ! candidatesGens.contains g') then
          .RetainDocumentIDsUpdates
        else .Delete))

/-! ## Auxiliary and fixture definitions used by the proofs -/

set_option maxRecDepth 100000

def gensOKFrom : Option Nat → List merge_candidate → Prop
  | _, [] => True
  | prev, c :: rest => (∀ g, prev = some g → c.gen < g) ∧ gensOKFrom (some c.gen) rest

instance : ∀ prev cs, Decidable (gensOKFrom prev cs)
  | _, [] => .isTrue trivial
  | prev, c :: rest =>
      have : Decidable (∀ g, prev = some g → c.gen < g) :=
        match prev with
        | none => .isTrue (by intro g hg; cases hg)
        | some g => decidable_of_iff (c.gen < g) (by
            constructor
            · intro h g' hg'; cases hg'; exact h
            · intro h; exact h g rfl)
      have := instDecidableGensOKFrom (some c.gen) rest
      inferInstanceAs (Decidable (_ ∧ _))

/-- The working set `merge` collects in its head loop, as a function of the
candidate list alone (the generation checks passing). -/
def workingSpec : Nat → List merge_candidate → List tracked_candidate
  | _, [] => []
  | i, c :: rest =>
      match c.terms, c.ap with
      | some ts, some _ =>
          if ts.isEmpty then workingSpec (i + 1) rest
          else ⟨i, c⟩ :: workingSpec (i + 1) rest
      | _, _ => workingSpec (i + 1) rest

/-- The classification loop with the `lastNotCandidateIdx` bookkeeping
replaced by the one bit of information it carries: whether a non-candidate
has been seen among the already-processed (older) tracked generations. -/
def classifySpecAux (candidatesGens : List Nat) :
    Bool → List Nat → List (Nat × IndexSourceRetention)
  | _, [] => []
  | seenNC, g :: rest =>
      if ¬ candidatesGens.contains g then
        (g, .RetainAll) :: classifySpecAux candidatesGens true rest
      else if seenNC then
        (g, .RetainDocumentIDsUpdates) :: classifySpecAux candidatesGens seenNC rest
      else
        (g, .Delete) :: classifySpecAux candidatesGens seenNC rest

def fixIS : IndexSession := ⟨1, fun _ _ => 7, fun _ => [], 0⟩

def fixChunkCand : merge_candidate :=
  ⟨1, some [([97], ⟨2, 5⟩)], some ⟨1, fun _ => [⟨4, []⟩, ⟨9, []⟩]⟩, []⟩

def fixChunkColl : MergeCandidatesCollection := commit ⟨[fixChunkCand], [], []⟩

def fixChunkEntry : out_entry := ⟨[97], ⟨2, 7⟩, [⟨4, [], 0⟩, ⟨9, [], 0⟩]⟩

def fixSentCand : merge_candidate :=
  ⟨1, some [([97], ⟨1, 0⟩)], some ⟨3, fun _ => [⟨MaxDocIDValue, []⟩]⟩, []⟩

def fixSentColl : MergeCandidatesCollection := commit ⟨[fixSentCand], [], []⟩

def fixC10cand : merge_candidate :=
  ⟨5, some [([97], ⟨1, 0⟩)], some ⟨2, fun _ => [⟨3, []⟩]⟩, []⟩

def fixC10ws : List tracked_candidate := List.replicate 129 ⟨0, fixC10cand⟩

def fixC10coll : MergeCandidatesCollection := ⟨[], [], []⟩

def fixSlowOld : merge_candidate :=
  ⟨1, some [([97], ⟨1, 0⟩)], some ⟨4, fun _ => [⟨7, []⟩]⟩, []⟩

def fixSlowSent : merge_candidate :=
  ⟨2, some [([97], ⟨1, 0⟩)], some ⟨3, fun _ => [⟨MaxDocIDValue, []⟩]⟩, []⟩

def fixSentTC : tracked_candidate := ⟨0, fixSentCand⟩

def fixMaskOnly : merge_candidate := ⟨9, none, none, [4]⟩

/-- The contract of the codec-native bulk merge (spec section 4.3, fast
path for multi-candidate groups): every document it writes comes from one
of its participants and passes that participant's registry. -/
def SessionRespectsMasks (is : IndexSession) : Prop :=
  ∀ parts d, d ∈ is.bulkMerge parts →
    ∃ p ∈ parts, d.src = p.src ∧ registryTest p.maskedDocsReg d.id = false

/-! ## Declarative views of the selection and advancement loops -/

/-- The tie positions among the first `k` decoders: indices whose current
document id equals `m`, in ascending order. -/
def tiesUpTo (decs : List inner_dec) (k m : Nat) : List Nat :=
  (List.range k).filter (fun i => (innerCur (decs.getD i default)).id == m)

/-- The tie positions of the inner selection scan: indices of the decoders
whose current document id equals `m`, in ascending order. -/
def innerTies (decs : List inner_dec) (m : Nat) : List Nat :=
  tiesUpTo decs decs.length m

/-- Advancing one slow-path decoder (`next()`): `none` when it became
exhausted. -/
def innerNextD (d : inner_dec) : Option inner_dec :=
  if d.docs.tail.isEmpty then none else some { d with docs := d.docs.tail }

/-- Advancing one term iterator of the working set (`next()` on the
candidate's terms iterator): `none` when it became exhausted. -/
def outerNextT (t : tracked_candidate) : Option tracked_candidate :=
  if ((t.candidate.terms.getD []).tail).isEmpty then none
  else some { t with candidate :=
    { t.candidate with terms := some ((t.candidate.terms.getD []).tail) } }

/-- The advancement loops of the source, abstracted over the entry type:
process a list of positions (as popped from a `toAdvance` buffer),
advancing the entry at each position, deleting an entry that became
exhausted and ending the merge (`none`) when no entries remain. -/
def advVals {α : Type} [Inhabited α] (f : α → Option α) :
    List Nat → List α → Option (List α)
  | [], xs => some xs
  | idx :: L, xs =>
      match f (xs.getD idx default) with
      | none =>
          let xs' := xs.eraseIdx idx
          if xs'.isEmpty then none else advVals f L xs'
      | some x' => advVals f L (xs.set idx x')

/-- Declarative advancement: advance the entry at every position in `S`
(positions counted from `i`), dropping the entries that became exhausted. -/
def advSpec {α : Type} (f : α → Option α) (S : List Nat) :
    Nat → List α → List α
  | _, [] => []
  | i, x :: rest =>
      if i ∈ S then
        match f x with
        | none => advSpec f S (i + 1) rest
        | some x' => x' :: advSpec f S (i + 1) rest
      else x :: advSpec f S (i + 1) rest

/-- The loop invariant of the inner selection scan after the decoders at
positions `0..k` have been examined: the buffer capacity is intact, the
running lowest document id is attained in the scanned prefix and bounds it
from below, and the `toAdvance` buffer holds exactly the tie positions of
the scanned prefix. -/
def innerSelInv (decs : List inner_dec) (k : Nat) (st : inner_sel) : Prop :=
  st.buf.length = 128 ∧
  (∃ i, i ≤ k ∧ (innerCur (decs.getD i default)).id = st.lowestDID) ∧
  (∀ i, i ≤ k → st.lowestDID ≤ (innerCur (decs.getD i default)).id) ∧
  st.cnt = (tiesUpTo decs (k + 1) st.lowestDID).length ∧
  (∀ p, p < st.cnt → st.buf.getD p 0 = (tiesUpTo decs (k + 1) st.lowestDID).getD p 0)

/-- A concrete slow-path decoder set: two decoders tied at document id 5,
the lower working-set index holding ids 5 and 9, the higher ids 5 and 7. -/
def fixC1decs : List inner_dec :=
  [⟨[⟨5, []⟩, ⟨9, []⟩], [], 0⟩, ⟨[⟨5, []⟩, ⟨7, []⟩], [], 1⟩]

/-- Strict lexicographic term order, as `terms_cmp` decides it. -/
def termLt (a b : List Nat) : Prop := terms_cmp a b = .lt

/-- The tie positions among the first `k` working-set entries: indices
whose current term equals `T`, in ascending order. -/
def otiesUpTo (ws : List tracked_candidate) (k : Nat) (T : List Nat) :
    List Nat :=
  (List.range k).filter (fun i => (wcur (ws.getD i default)).1 == T)

/-- The tie positions of the outer selection scan: indices of the
working-set entries whose current term equals `T`, in ascending order. -/
def outerTies (ws : List tracked_candidate) (T : List Nat) : List Nat :=
  otiesUpTo ws ws.length T

/-- The loop invariant of the outer selection scan after the working-set
entries at positions `0..k` have been examined: the buffer capacity is
intact, the running selected term is attained in the scanned prefix and is
a minimum of it, `toAdvanceCnt` is the tie count of the prefix reduced
modulo 256 (it is a `uint8_t`), and buffer slot `t % 256` holds the `t`-th
tie position for each of the last 256 ties of the prefix (later ties
overwrite earlier ones that share a slot). -/
def outerSelInv (ws : List tracked_candidate) (k : Nat) (st : sel_state) :
    Prop :=
  st.buf.length = ws.length ∧
  (∃ i, i ≤ k ∧ (wcur (ws.getD i default)).1 = st.selected.1) ∧
  (∀ i, i ≤ k → terms_cmp (wcur (ws.getD i default)).1 st.selected.1 ≠ .lt) ∧
  st.cnt = (otiesUpTo ws (k + 1) st.selected.1).length % 256 ∧
  (∀ t, t < (otiesUpTo ws (k + 1) st.selected.1).length →
    (otiesUpTo ws (k + 1) st.selected.1).length ≤ t + 256 →
    st.buf.getD (t % 256) 0 = (otiesUpTo ws (k + 1) st.selected.1).getD t 0)

/-- The advancement count of an outer iteration: `toAdvanceCnt`, with the
`--toAdvanceCnt` wrap-around of the source when it is 0 (the loop body then
runs 256 times). -/
def outerCnt (ws : List tracked_candidate) : Nat :=
  if (outerSelect ws).cnt = 0 then 256 else (outerSelect ws).cnt

/-- A well-formed working set: each entry's term iterator is non-exhausted
and produces strictly lexicographically ascending terms, as `commit`ed
candidate iterators do. -/
def wsValid (ws : List tracked_candidate) : Prop :=
  ∀ t ∈ ws, (t.candidate.terms.getD []) ≠ [] ∧
    List.Chain' termLt ((t.candidate.terms.getD []).map (fun p => p.1))

instance (a b : List Nat) : Decidable (termLt a b) :=
  inferInstanceAs (Decidable (terms_cmp a b = .lt))

/-- A 257-way tie: 257 candidates, generations descending, all positioned
at the same term. -/
def fixC3tieWS : List tracked_candidate :=
  (List.range 257).map
    (fun i => ⟨i, ⟨300 - i, some [([97], ⟨1, 0⟩)],
      some ⟨1, fun _ => [⟨5, []⟩]⟩, []⟩⟩)

def fixC3candA : merge_candidate :=
  ⟨2, some [([97], ⟨1, 0⟩), ([99], ⟨1, 0⟩)], some ⟨1, fun _ => [⟨1, []⟩]⟩, []⟩

def fixC3candB : merge_candidate :=
  ⟨1, some [([97], ⟨1, 0⟩), ([98], ⟨1, 0⟩)], some ⟨1, fun _ => [⟨2, []⟩]⟩, []⟩

def fixC3coll : MergeCandidatesCollection :=
  commit ⟨[fixC3candA, fixC3candB], [], []⟩

/-- An output session of a different codec, so that tied groups go through
the slow path. -/
def fixC3is : IndexSession := ⟨99, fun _ _ => 7, fun _ => [], 0⟩

def fixC3ws : List tracked_candidate := [⟨0, fixC3candA⟩, ⟨1, fixC3candB⟩]

def fixC3out : List out_entry :=
  [⟨[97], ⟨2, 0⟩, [⟨1, [], 0⟩, ⟨2, [], 1⟩]⟩,
   ⟨[98], ⟨1, 0⟩, [⟨2, [], 1⟩]⟩,
   ⟨[99], ⟨1, 0⟩, [⟨1, [], 0⟩]⟩]

/-! ## Basic lemmas about the emission paths -/

theorem exbind_ok {α β : Type} (a : α) (f : α → Except MergeAbort β) :
    (Except.ok a >>= f) = f a := rfl

theorem exbind_error {α β : Type} (e : MergeAbort) (f : α → Except MergeAbort β) :
    ((Except.error e : Except MergeAbort α) >>= f) = Except.error e := rfl

theorem exthrow_bind {α β : Type} (e : MergeAbort) (f : α → Except MergeAbort β) :
    ((throw e : Except MergeAbort α) >>= f) = Except.error e := rfl

theorem reencodeDocs_ok_mem (reg : List (List Nat)) (src : Nat) :
    ∀ docs out, reencodeDocs reg src docs = .ok out →
      ∀ d ∈ out, d.src = src ∧ registryTest reg d.id = false
  | [], out, h => by
      simp only [reencodeDocs] at h
      cases h
      intro d hd
      simp at hd
  | dr :: rest, out, h => by
      rw [reencodeDocs] at h
      split at h
      · cases h
      · cases hr : reencodeDocs reg src rest with
        | error e => rw [hr, exbind_error] at h; cases h
        | ok tail =>
            rw [hr, exbind_ok] at h
            have ih := reencodeDocs_ok_mem reg src rest tail hr
            split at h
            · cases h
              intro d hd
              exact ih d hd
            · rename_i hm
              cases h
              intro d hd
              rcases List.mem_cons.1 hd with h1 | h2
              · subst h1; simp only [Bool.not_eq_true] at hm; exact ⟨rfl, hm⟩
              · exact ih d h2

theorem singleGroup_ok_some {coll : MergeCandidatesCollection} {is : IndexSession}
    {outTerm : List Nat} {selected : List Nat × term_index_ctx} {fastPath : Bool}
    {c : tracked_candidate} {e : out_entry}
    (h : singleGroup coll is outTerm selected fastPath c = .ok (some e)) :
    e.term = outTerm ∧ 0 < e.tctx.documents ∧
      ∀ d ∈ e.docs, d.src = c.idx ∧
        registryTest (scanner_registry_for coll c.idx) d.id = false := by
  simp only [singleGroup] at h
  split at h
  · rename_i hfast
    split at h
    · rename_i hdoc
      cases h
      refine ⟨rfl, Nat.pos_of_ne_zero hdoc, ?_⟩
      intro d hd
      rcases List.mem_map.1 hd with ⟨dr, -, rfl⟩
      refine ⟨rfl, ?_⟩
      rw [Bool.and_eq_true] at hfast
      have hre := hfast.2
      simp only [registryEmpty, List.isEmpty_iff] at hre
      simp [registryTest, hre]
    · cases h
  · split at h
    · cases h
    · cases hr : reencodeDocs (scanner_registry_for coll c.idx) c.idx
        ((c.candidate.ap.getD default).decode selected.2) with
      | error err => rw [hr, exbind_error] at h; cases h
      | ok docs =>
          rw [hr, exbind_ok] at h
          split at h
          · rename_i hne
            cases h
            exact ⟨rfl, Nat.pos_of_ne_zero hne, reencodeDocs_ok_mem _ _ _ _ hr⟩
          · cases h

theorem fastMultiGroup_some {coll : MergeCandidatesCollection} {is : IndexSession}
    {outTerm : List Nat} {ws : List tracked_candidate} {buf : List Nat} {cnt : Nat}
    {e : out_entry} (h : fastMultiGroup coll is outTerm ws buf cnt = some e) :
    e.term = outTerm ∧ 0 < e.tctx.documents ∧
      e.docs = is.bulkMerge (buildParticipants coll ws buf cnt) := by
  simp only [fastMultiGroup] at h
  split at h
  · cases h
  · split at h
    · rename_i hne
      cases h
      exact ⟨rfl, Nat.pos_of_ne_zero hne, rfl⟩
    · cases h

theorem slowGroup_ok_some {coll : MergeCandidatesCollection} {is : IndexSession}
    {outTerm : List Nat} {ws : List tracked_candidate} {buf : List Nat} {cnt : Nat}
    {e : out_entry} (h : slowGroup coll is outTerm ws buf cnt = .ok (some e)) :
    e.term = outTerm ∧ 0 < e.tctx.documents ∧
      e.docs = innerLoop (innerFuel (buildDecoders coll ws buf cnt))
        (buildDecoders coll ws buf cnt) := by
  simp only [slowGroup] at h
  split at h
  · cases h
  · split at h
    · cases h
    · split at h
      · rename_i hne
        cases h
        exact ⟨rfl, Nat.pos_of_ne_zero hne, rfl⟩
      · cases h

theorem mergeStep_ok {coll : MergeCandidatesCollection} {is : IndexSession}
    {ws : List tracked_candidate} {e : Option out_entry}
    {next : Option (List tracked_candidate)}
    (h : mergeStep coll is ws = .ok (e, next)) :
    (∀ x, e = some x → x.term = (outerSelect ws).selected.1 ∧ 0 < x.tctx.documents) ∧
      next = outerAdvance (outerSelect ws).buf
        (if (outerSelect ws).cnt = 0 then 256 else (outerSelect ws).cnt) ws := by
  simp only [mergeStep] at h
  split at h
  · cases hs : singleGroup coll is (outerSelect ws).selected.1 (outerSelect ws).selected
        ((outerSelect ws).sameCODEC && ((outerSelect ws).codec == is.codec))
        (ws.getD ((outerSelect ws).buf.getD 0 0) default) with
    | error err => rw [hs, exbind_error] at h; cases h
    | ok oe =>
        rw [hs, exbind_ok] at h
        cases h
        refine ⟨?_, rfl⟩
        intro x hx
        subst hx
        obtain ⟨h1, h2, -⟩ := singleGroup_ok_some hs
        exact ⟨h1, h2⟩
  · split at h
    · rw [exbind_ok] at h
      cases h
      refine ⟨?_, rfl⟩
      intro x hx
      obtain ⟨h1, h2, -⟩ := fastMultiGroup_some hx
      exact ⟨h1, h2⟩
    · cases hs : slowGroup coll is (outerSelect ws).selected.1 ws
          (outerSelect ws).buf (outerSelect ws).cnt with
      | error err => rw [hs, exbind_error] at h; cases h
      | ok oe =>
          rw [hs, exbind_ok] at h
          cases h
          refine ⟨?_, rfl⟩
          intro x hx
          subst hx
          obtain ⟨h1, h2, -⟩ := slowGroup_ok_some hs
          exact ⟨h1, h2⟩

theorem mergeLoop_documents_pos {coll : MergeCandidatesCollection} {is : IndexSession} :
    ∀ fuel ws out, mergeLoop coll is fuel ws = .ok out → ∀ e ∈ out, 0 < e.tctx.documents
  | 0, ws, out, h => by
      simp only [mergeLoop] at h
      cases h
      intro e he
      simp at he
  | fuel + 1, ws, out, h => by
      rw [mergeLoop] at h
      cases hs : mergeStep coll is ws with
      | error err => rw [hs, exbind_error] at h; cases h
      | ok p =>
          obtain ⟨entry, next⟩ := p
          rw [hs, exbind_ok] at h
          obtain ⟨hterm, -⟩ := mergeStep_ok hs
          cases next with
          | none =>
              simp only at h
              cases h
              intro e he
              cases entry with
              | none => simp at he
              | some x =>
                  simp only [Option.toList] at he
                  rcases List.mem_singleton.1 he with rfl
                  exact (hterm _ rfl).2
          | some ws' =>
              simp only at h
              cases hr : mergeLoop coll is fuel ws' with
              | error err => rw [hr, exbind_error] at h; cases h
              | ok rest =>
                  rw [hr, exbind_ok] at h
                  cases h
                  intro e he
                  rcases List.mem_append.1 he with h1 | h2
                  · cases entry with
                    | none => simp at h1
                    | some x =>
                        simp only [Option.toList] at h1
                        rcases List.mem_singleton.1 h1 with rfl
                        exact (hterm _ rfl).2
                  · exact mergeLoop_documents_pos fuel ws' rest hr e h2

/-- C5: every `(term, term_index_ctx)` entry `merge` appends to the output
sink has `documents > 0`: zero-document input terms are skipped, and terms
whose re-encoding or bulk merge ends with `end_term` reporting zero
documents are dropped rather than emitted. -/
theorem claim_C5_zero_document_terms_dropped
    (coll : MergeCandidatesCollection) (is : IndexSession) (flushFreq : Nat)
    (out : List out_entry) (h : merge coll is flushFreq = .ok out) :
    ∀ e ∈ out, 0 < e.tctx.documents := by
  simp only [merge] at h
  split at h
  · cases hw : buildWorkingFrom 0 none coll.candidates with
    | error err => rw [hw, exbind_error] at h; cases h
    | ok ws =>
        rw [hw, exbind_ok] at h
        split at h
        · cases h
          intro e he
          simp at he
        · exact mergeLoop_documents_pos _ _ _ h
  · rw [exthrow_bind] at h; cases h

/-- C9: the `flushFreq` argument does not influence the merge output: the
flush-frequency branch of the source is an empty stub, so any two values
give the same result. -/
theorem claim_C9_flush_freq_has_no_effect
    (coll : MergeCandidatesCollection) (is : IndexSession) (f1 f2 : Nat) :
    merge coll is f1 = merge coll is f2 := rfl

/-! ## Head-of-merge checks (C7) -/



theorem expure_bind {α β : Type} (a : α) (f : α → Except MergeAbort β) :
    ((pure a : Except MergeAbort α) >>= f) = f a := rfl

theorem buildWorkingFrom_ok_of_gensOK :
    ∀ cs i prev, gensOKFrom prev cs → ∃ ws, buildWorkingFrom i prev cs = .ok ws
  | [], _, _, _ => ⟨[], rfl⟩
  | c :: rest, i, prev, h => by
      obtain ⟨h1, h2⟩ := h
      obtain ⟨ws, hws⟩ := buildWorkingFrom_ok_of_gensOK rest (i + 1) (some c.gen) h2
      simp only [buildWorkingFrom]
      cases prev with
      | none =>
          simp only [expure_bind, hws, exbind_ok]
          cases hts : c.terms with
          | none => exact ⟨ws, rfl⟩
          | some ts =>
              cases hap : c.ap with
              | none => exact ⟨ws, rfl⟩
              | some ap =>
                  by_cases he : ts.isEmpty
                  · exact ⟨ws, by simp only [if_pos he]⟩
                  · exact ⟨⟨i, c⟩ :: ws, by simp only [if_neg he]⟩
      | some g =>
          dsimp only
          rw [if_pos (h1 g rfl)]
          simp only [expure_bind, hws, exbind_ok]
          cases hts : c.terms with
          | none => exact ⟨ws, rfl⟩
          | some ts =>
              cases hap : c.ap with
              | none => exact ⟨ws, rfl⟩
              | some ap =>
                  by_cases he : ts.isEmpty
                  · exact ⟨ws, by simp only [if_pos he]⟩
                  · exact ⟨⟨i, c⟩ :: ws, by simp only [if_neg he]⟩

theorem buildWorkingFrom_error_of_not_gensOK :
    ∀ cs i prev, ¬ gensOKFrom prev cs →
      buildWorkingFrom i prev cs = .error .gensNotDescending
  | [], _, _, h => absurd trivial h
  | c :: rest, i, prev, h => by
      simp only [buildWorkingFrom]
      cases prev with
      | none =>
          have h2 : ¬ gensOKFrom (some c.gen) rest := by
            intro hg
            refine h ⟨?_, hg⟩
            intro g hg2
            cases hg2
          simp only [expure_bind,
            buildWorkingFrom_error_of_not_gensOK rest (i + 1) (some c.gen) h2,
            exbind_error]
      | some g =>
          dsimp only
          by_cases hlt : c.gen < g
          · rw [if_pos hlt]
            have h2 : ¬ gensOKFrom (some c.gen) rest := by
              intro hg
              refine h ⟨?_, hg⟩
              intro g2 hg2
              cases hg2
              exact hlt
            simp only [expure_bind,
              buildWorkingFrom_error_of_not_gensOK rest (i + 1) (some c.gen) h2,
              exbind_error]
          · rw [if_neg hlt]
            rfl

theorem gensOKFrom_some_iff :
    ∀ cs g, gensOKFrom (some g) cs ↔
      ((∀ c ∈ cs.head?, c.gen < g) ∧ List.Chain' (fun a b => b.gen < a.gen) cs)
  | [], g => by simp [gensOKFrom]
  | c :: rest, g => by
      simp only [gensOKFrom, List.head?_cons, Option.mem_def, Option.some.injEq]
      constructor
      · rintro ⟨h1, h2⟩
        obtain ⟨h3, h4⟩ := (gensOKFrom_some_iff rest c.gen).1 h2
        refine ⟨?_, ?_⟩
        · rintro c2 rfl
          exact h1 g rfl
        · rw [List.chain'_cons']
          refine ⟨?_, h4⟩
          intro y hy
          exact h3 y hy
      · rintro ⟨h1, h2⟩
        rw [List.chain'_cons'] at h2
        refine ⟨?_, (gensOKFrom_some_iff rest c.gen).2 ⟨?_, h2.2⟩⟩
        · rintro g2 rfl
          exact h1 c rfl
        · intro y hy
          exact h2.1 y hy

theorem gensOKFrom_none_iff_chain (cs : List merge_candidate) :
    gensOKFrom none cs ↔ List.Chain' (fun a b => b.gen < a.gen) cs := by
  cases cs with
  | nil => simp [gensOKFrom]
  | cons c rest =>
      simp only [gensOKFrom]
      rw [List.chain'_cons']
      constructor
      · rintro ⟨-, h2⟩
        obtain ⟨h3, h4⟩ := (gensOKFrom_some_iff rest c.gen).1 h2
        exact ⟨h3, h4⟩
      · rintro ⟨h1, h2⟩
        refine ⟨?_, (gensOKFrom_some_iff rest c.gen).2 ⟨h1, h2⟩⟩
        rintro g hg
        cases hg

/-! ## Classification of the abort causes past the head checks -/

theorem reencodeDocs_error (reg : List (List Nat)) (src : Nat) :
    ∀ docs err, reencodeDocs reg src docs = .error err → err = .maxDocIDSentinel
  | [], err, h => by cases h
  | d :: rest, err, h => by
      rw [reencodeDocs] at h
      split at h
      · cases h; rfl
      · cases hr : reencodeDocs reg src rest with
        | error e2 =>
            rw [hr, exbind_error] at h
            cases h
            exact reencodeDocs_error reg src rest _ hr
        | ok tail =>
            rw [hr, exbind_ok] at h
            split at h
            · cases h
            · cases h

theorem singleGroup_error {coll : MergeCandidatesCollection} {is : IndexSession}
    {outTerm : List Nat} {selected : List Nat × term_index_ctx} {fastPath : Bool}
    {c : tracked_candidate} {err : MergeAbort}
    (h : singleGroup coll is outTerm selected fastPath c = .error err) :
    err = .maxDocIDSentinel := by
  simp only [singleGroup] at h
  split at h
  · split at h
    · cases h
    · cases h
  · split at h
    · cases h
    · cases hr : reencodeDocs (scanner_registry_for coll c.idx) c.idx
        ((c.candidate.ap.getD default).decode selected.2) with
      | error e2 =>
          rw [hr, exbind_error] at h
          cases h
          exact reencodeDocs_error _ _ _ _ hr
      | ok docs =>
          rw [hr, exbind_ok] at h
          split at h
          · cases h
          · cases h

theorem slowGroup_error {coll : MergeCandidatesCollection} {is : IndexSession}
    {outTerm : List Nat} {ws : List tracked_candidate} {buf : List Nat} {cnt : Nat}
    {err : MergeAbort} (h : slowGroup coll is outTerm ws buf cnt = .error err) :
    err = .tooManyDecoders := by
  simp only [slowGroup] at h
  split at h
  · cases h
  · split at h
    · cases h; rfl
    · split at h
      · cases h
      · cases h

theorem mergeStep_error {coll : MergeCandidatesCollection} {is : IndexSession}
    {ws : List tracked_candidate} {err : MergeAbort}
    (h : mergeStep coll is ws = .error err) :
    err = .maxDocIDSentinel ∨ err = .tooManyDecoders := by
  simp only [mergeStep] at h
  split at h
  · cases hs : singleGroup coll is (outerSelect ws).selected.1 (outerSelect ws).selected
        ((outerSelect ws).sameCODEC && ((outerSelect ws).codec == is.codec))
        (ws.getD ((outerSelect ws).buf.getD 0 0) default) with
    | error e2 =>
        rw [hs, exbind_error] at h
        cases h
        exact Or.inl (singleGroup_error hs)
    | ok oe => rw [hs, exbind_ok] at h; cases h
  · split at h
    · rw [exbind_ok] at h; cases h
    · cases hs : slowGroup coll is (outerSelect ws).selected.1 ws
          (outerSelect ws).buf (outerSelect ws).cnt with
      | error e2 =>
          rw [hs, exbind_error] at h
          cases h
          exact Or.inr (slowGroup_error hs)
      | ok oe => rw [hs, exbind_ok] at h; cases h

theorem mergeLoop_error {coll : MergeCandidatesCollection} {is : IndexSession} :
    ∀ fuel ws err, mergeLoop coll is fuel ws = .error err →
      err = .maxDocIDSentinel ∨ err = .tooManyDecoders
  | 0, ws, err, h => by cases h
  | fuel + 1, ws, err, h => by
      rw [mergeLoop] at h
      cases hs : mergeStep coll is ws with
      | error e2 =>
          rw [hs, exbind_error] at h
          cases h
          exact mergeStep_error hs
      | ok p =>
          obtain ⟨entry, next⟩ := p
          rw [hs, exbind_ok] at h
          cases next with
          | none => simp only at h; cases h
          | some ws' =>
              simp only at h
              cases hr : mergeLoop coll is fuel ws' with
              | error e2 =>
                  rw [hr, exbind_error] at h
                  cases h
                  exact mergeLoop_error fuel ws' _ hr
              | ok rest => rw [hr, exbind_ok] at h; cases h

/-- C7: `merge` aborts with a fatal assertion unless its preconditions
hold — fewer than 65535 candidates and, after `commit`'s descending sort,
strictly decreasing adjacent generations; under those preconditions the
assertions at the head of `merge` never fire. -/
theorem claim_C7_head_preconditions (coll : MergeCandidatesCollection)
    (is : IndexSession) (flushFreq : Nat) :
    (¬ coll.candidates.length < 65535 →
      merge coll is flushFreq = .error .tooManyCandidates) ∧
    (coll.candidates.length < 65535 →
      ¬ List.Chain' (fun a b => b.gen < a.gen) coll.candidates →
        merge coll is flushFreq = .error .gensNotDescending) ∧
    (coll.candidates.length < 65535 →
      List.Chain' (fun a b => b.gen < a.gen) coll.candidates →
        ∀ err, merge coll is flushFreq = .error err →
          err ≠ .tooManyCandidates ∧ err ≠ .gensNotDescending) := by
  refine ⟨?_, ?_, ?_⟩
  · intro hlen
    simp only [merge, if_neg hlen]
    rfl
  · intro hlen hchain
    rw [← gensOKFrom_none_iff_chain] at hchain
    simp only [merge, if_pos hlen, expure_bind,
      buildWorkingFrom_error_of_not_gensOK coll.candidates 0 none hchain,
      exbind_error]
  · intro hlen hchain err herr
    rw [← gensOKFrom_none_iff_chain] at hchain
    obtain ⟨ws, hws⟩ := buildWorkingFrom_ok_of_gensOK coll.candidates 0 none hchain
    simp only [merge, if_pos hlen, expure_bind, hws, exbind_ok] at herr
    split at herr
    · cases herr
    · rcases mergeLoop_error _ _ _ herr with rfl | rfl
      · constructor <;> decide
      · constructor <;> decide

/-- C10: in the slow (mixed-codec) multi-candidate path, `merge` asserts
that at most 128 decoders are created for one term group: when the group
is not a single candidate, the codecs do not all match the output codec,
and more than 128 tied candidates have a non-zero document count, the step
aborts with a fatal assertion. -/
theorem claim_C10_slow_path_128_decoder_limit (coll : MergeCandidatesCollection)
    (is : IndexSession) (ws : List tracked_candidate)
    (h1 : (outerSelect ws).cnt ≠ 1)
    (h2 : ((outerSelect ws).sameCODEC && ((outerSelect ws).codec == is.codec)) = false)
    (h3 : 128 < (buildDecoders coll ws (outerSelect ws).buf (outerSelect ws).cnt).length) :
    mergeStep coll is ws = .error .tooManyDecoders := by
  have hslow : slowGroup coll is (outerSelect ws).selected.1 ws
      (outerSelect ws).buf (outerSelect ws).cnt = .error .tooManyDecoders := by
    have hne : (buildDecoders coll ws (outerSelect ws).buf (outerSelect ws).cnt).isEmpty ≠ true := by
      intro he
      rw [List.isEmpty_iff] at he
      rw [he] at h3
      simp at h3
    simp only [slowGroup, if_neg hne, if_pos h3]
  simp only [mergeStep, if_neg h1, h2]
  simp only [Bool.false_eq_true, if_neg, not_false_iff, hslow, exbind_error]






theorem claim_C5_witness :
    merge fixChunkColl fixIS 0 = .ok [fixChunkEntry] ∧
      0 < fixChunkEntry.tctx.documents :=
  ⟨rfl, claim_C5_zero_document_terms_dropped fixChunkColl fixIS 0 [fixChunkEntry]
    rfl fixChunkEntry (List.mem_singleton.2 rfl)⟩



theorem claim_C7_witness :
    (merge ⟨List.replicate 65535 fixChunkCand, [], []⟩ fixIS 0 =
      .error .tooManyCandidates) ∧
    (merge ⟨[fixChunkCand, fixChunkCand], [], []⟩ fixIS 0 =
      .error .gensNotDescending) ∧
    (merge fixSentColl fixIS 0 = .error .maxDocIDSentinel ∧
      MergeAbort.maxDocIDSentinel ≠ .tooManyCandidates ∧
      MergeAbort.maxDocIDSentinel ≠ .gensNotDescending) :=
  ⟨(claim_C7_head_preconditions _ fixIS 0).1
      (by rw [List.length_replicate]; omega),
   (claim_C7_head_preconditions _ fixIS 0).2.1
      (by simp) (by simp [fixChunkCand]),
   rfl,
   (claim_C7_head_preconditions fixSentColl fixIS 0).2.2
      (by simp [fixSentColl, commit, sortByGenDesc, orderedInsertGenDesc, buildMaskMaps])
      (by simp [fixSentColl, commit, sortByGenDesc, orderedInsertGenDesc, buildMaskMaps])
      .maxDocIDSentinel rfl⟩




theorem claim_C10_witness :
    128 < (buildDecoders fixC10coll fixC10ws
      (outerSelect fixC10ws).buf (outerSelect fixC10ws).cnt).length ∧
    mergeStep fixC10coll fixIS fixC10ws = .error .tooManyDecoders :=
  ⟨by decide,
   claim_C10_slow_path_128_decoder_limit fixC10coll fixIS fixC10ws
     (by decide) (by decide) (by decide)⟩

/-! ## Characterization of commit's mask-prefix structure -/

theorem buildMaskMaps_snd : ∀ (cs : List merge_candidate) (acc : List (List Nat)),
    (buildMaskMaps cs acc).2 =
      acc ++ (cs.filter (fun c => !c.maskedDocuments.isEmpty)).map
        (fun c => c.maskedDocuments)
  | [], acc => by simp [buildMaskMaps]
  | c :: rest, acc => by
      simp only [buildMaskMaps]
      by_cases hm : c.maskedDocuments.isEmpty
      · rw [if_pos hm]
        have := buildMaskMaps_snd rest acc
        simp only [List.filter_cons, hm]
        simpa using this
      · rw [if_neg hm]
        have := buildMaskMaps_snd rest (acc ++ [c.maskedDocuments])
        simp only [List.filter_cons, Bool.not_eq_true', hm]
        simp only [this, List.append_assoc, List.singleton_append]
        simp [hm]

theorem buildMaskMaps_fst_getD : ∀ (cs : List merge_candidate) (acc : List (List Nat))
    (j : Nat), j < cs.length →
    (buildMaskMaps cs acc).1.getD j default =
      (cs.getD j default,
        acc.length + (((cs.take j).filter (fun c => !c.maskedDocuments.isEmpty)).length))
  | [], _, j, hj => by simp at hj
  | c :: rest, acc, 0, _ => by
      simp only [buildMaskMaps, List.take_zero, List.filter_nil, List.length_nil,
        Nat.add_zero, List.getD_cons_zero]
  | c :: rest, acc, j + 1, hj => by
      simp only [buildMaskMaps]
      by_cases hm : c.maskedDocuments.isEmpty
      · rw [if_pos hm]
        have ih := buildMaskMaps_fst_getD rest acc j (by simpa using hj)
        simp only [List.getD_cons_succ, List.take_succ_cons, List.filter_cons, hm]
        simpa using ih
      · rw [if_neg hm]
        have hm' : c.maskedDocuments.isEmpty = false := by simpa using hm
        have ih := buildMaskMaps_fst_getD rest (acc ++ [c.maskedDocuments]) j
          (by simpa using hj)
        rw [List.getD_cons_succ, ih]
        have hlen : (acc ++ [c.maskedDocuments]).length = acc.length + 1 := by
          rw [List.length_append]
          rfl
        have hfil : (((c :: rest).take (j + 1)).filter
            (fun c => !c.maskedDocuments.isEmpty)).length =
            ((rest.take j).filter (fun c => !c.maskedDocuments.isEmpty)).length + 1 := by
          rw [List.take_succ_cons, List.filter_cons]
          simp [hm']
        rw [hlen, hfil, Prod.mk.injEq]
        exact ⟨rfl, by omega⟩

theorem scanner_registry_char (coll : MergeCandidatesCollection) (j : Nat)
    (hj : j < (commit coll).candidates.length) :
    scanner_registry_for (commit coll) j =
      (((commit coll).candidates.take j).filter
        (fun c => !c.maskedDocuments.isEmpty)).map (fun c => c.maskedDocuments) := by
  have hcand : (commit coll).candidates = sortByGenDesc coll.candidates := rfl
  have hmap : (commit coll).map = (buildMaskMaps (sortByGenDesc coll.candidates) []).1 := rfl
  have hall : (commit coll).all = (buildMaskMaps (sortByGenDesc coll.candidates) []).2 := rfl
  rw [hcand] at hj ⊢
  unfold scanner_registry_for
  rw [hmap, hall, buildMaskMaps_fst_getD _ [] j hj, buildMaskMaps_snd]
  simp only [List.length_nil, Nat.zero_add, List.nil_append]
  have hsplit : (sortByGenDesc coll.candidates).filter (fun c => !c.maskedDocuments.isEmpty) =
      ((sortByGenDesc coll.candidates).take j).filter (fun c => !c.maskedDocuments.isEmpty) ++
      ((sortByGenDesc coll.candidates).drop j).filter (fun c => !c.maskedDocuments.isEmpty) := by
    conv_lhs => rw [← List.take_append_drop j (sortByGenDesc coll.candidates)]
    rw [List.filter_append]
  rw [hsplit, List.map_append, List.take_left' (by rw [List.length_map])]

theorem buildWorkingFrom_eq_of_gensOK :
    ∀ cs i prev, gensOKFrom prev cs →
      buildWorkingFrom i prev cs = .ok (workingSpec i cs)
  | [], _, _, _ => rfl
  | c :: rest, i, prev, h => by
      obtain ⟨h1, h2⟩ := h
      have ih := buildWorkingFrom_eq_of_gensOK rest (i + 1) (some c.gen) h2
      simp only [buildWorkingFrom, workingSpec]
      cases prev with
      | none =>
          simp only [expure_bind, ih, exbind_ok]
          cases hts : c.terms with
          | none => rfl
          | some ts =>
              cases hap : c.ap with
              | none => rfl
              | some ap =>
                  by_cases he : ts.isEmpty
                  · simp only [if_pos he]
                  · simp only [if_neg he]
      | some g =>
          dsimp only
          rw [if_pos (h1 g rfl)]
          simp only [expure_bind, ih, exbind_ok]
          cases hts : c.terms with
          | none => rfl
          | some ts =>
              cases hap : c.ap with
              | none => rfl
              | some ap =>
                  by_cases he : ts.isEmpty
                  · simp only [if_pos he]
                  · simp only [if_neg he]

theorem buildWorkingFrom_ok_inv :
    ∀ cs i prev ws, buildWorkingFrom i prev cs = .ok ws →
      gensOKFrom prev cs ∧ ws = workingSpec i cs := by
  intro cs i prev ws h
  by_cases hg : gensOKFrom prev cs
  · rw [buildWorkingFrom_eq_of_gensOK cs i prev hg] at h
    cases h
    exact ⟨hg, rfl⟩
  · rw [buildWorkingFrom_error_of_not_gensOK cs i prev hg] at h
    cases h

theorem workingSpec_mem :
    ∀ cs i t, t ∈ workingSpec i cs →
      (∃ ts, t.candidate.terms = some ts ∧ ts ≠ []) ∧ t.candidate.ap.isSome = true ∧
        i ≤ t.idx ∧ t.idx < i + cs.length ∧ cs.getD (t.idx - i) default = t.candidate
  | [], i, t, ht => by simp [workingSpec] at ht
  | c :: rest, i, t, ht => by
      have bump : t ∈ workingSpec (i + 1) rest →
          (∃ ts, t.candidate.terms = some ts ∧ ts ≠ []) ∧ t.candidate.ap.isSome = true ∧
            i ≤ t.idx ∧ t.idx < i + (c :: rest).length ∧
            (c :: rest).getD (t.idx - i) default = t.candidate := by
        intro ht2
        obtain ⟨ha, hb, hc, hd, he⟩ := workingSpec_mem rest (i + 1) t ht2
        refine ⟨ha, hb, by omega, by simp only [List.length_cons]; omega, ?_⟩
        have : t.idx - i = (t.idx - (i + 1)) + 1 := by omega
        rw [this, List.getD_cons_succ]
        exact he
      rw [workingSpec] at ht
      cases hts : c.terms with
      | none => rw [hts] at ht; exact bump ht
      | some ts =>
          cases hap : c.ap with
          | none => rw [hts, hap] at ht; exact bump ht
          | some ap =>
              rw [hts, hap] at ht
              dsimp only at ht
              by_cases he : ts.isEmpty
              · rw [if_pos he] at ht; exact bump ht
              · rw [if_neg he] at ht
                rcases List.mem_cons.1 ht with rfl | ht2
                · refine ⟨⟨ts, hts, by simpa using he⟩, by simp [hap], le_refl i, ?_, ?_⟩
                  · simp only [List.length_cons]
                    omega
                  · simp
                · exact bump ht2

theorem buildWorkingFrom_mem {cs : List merge_candidate} {i : Nat} {prev : Option Nat}
    {ws : List tracked_candidate} (h : buildWorkingFrom i prev cs = .ok ws) :
    ∀ t ∈ ws,
      (∃ ts, t.candidate.terms = some ts ∧ ts ≠ []) ∧ t.candidate.ap.isSome = true ∧
        i ≤ t.idx ∧ t.idx < i + cs.length ∧ cs.getD (t.idx - i) default = t.candidate := by
  obtain ⟨-, rfl⟩ := buildWorkingFrom_ok_inv cs i prev ws h
  exact fun t ht => workingSpec_mem cs i t ht

/-- C6: a candidate whose postings accessor is absent, or whose term
iterator is absent or exhausted, is excluded from the term-merge working
set, while its non-empty masked-documents set is still placed by `commit`
into the mask-prefix structure, where the registry of every strictly older
candidate sees it. -/
theorem claim_C6_mask_only_candidates (coll : MergeCandidatesCollection) :
    (∀ ws, buildWorkingFrom 0 none coll.candidates = .ok ws →
      ∀ t ∈ ws, t.candidate.terms ≠ none ∧ t.candidate.terms ≠ some [] ∧
        t.candidate.ap ≠ none) ∧
    (∀ i j, i < j → j < (commit coll).candidates.length →
      ((commit coll).candidates.getD i default).maskedDocuments ≠ [] →
      ((commit coll).candidates.getD i default).maskedDocuments ∈
        scanner_registry_for (commit coll) j) := by
  constructor
  · intro ws hws t ht
    obtain ⟨⟨ts, hts, htne⟩, hap, -⟩ := buildWorkingFrom_mem hws t ht
    refine ⟨?_, ?_, ?_⟩
    · rw [hts]
      intro hc
      cases hc
    · rw [hts]
      intro hc
      cases hc
      exact htne rfl
    · intro hc
      rw [hc] at hap
      cases hap
  · intro i j hij hj hmask
    rw [scanner_registry_char coll j hj]
    set cs := (commit coll).candidates with hcs
    have hilen : i < cs.length := lt_trans hij hj
    have hitake : i < (cs.take j).length := by
      rw [List.length_take]
      omega
    have hmem : cs.getD i default ∈ cs.take j := by
      have h1 : (cs.take j).getD i default = cs.getD i default := by
        rw [List.getD_eq_getElem?_getD, List.getD_eq_getElem?_getD,
          List.getElem?_take_of_lt hij]
      have h2 : (cs.take j).getD i default = (cs.take j)[i] := by
        rw [List.getD_eq_getElem?_getD, List.getElem?_eq_getElem hitake]
        rfl
      rw [← h1, h2]
      exact List.getElem_mem hitake
    refine List.mem_map.2 ⟨cs.getD i default, List.mem_filter.2 ⟨hmem, ?_⟩, rfl⟩
    simp only [Bool.not_eq_true', List.isEmpty_eq_false]
    exact hmask

/-! ## The sentinel document id check (C8) -/

theorem reencodeDocs_error_iff (reg : List (List Nat)) (src : Nat) :
    ∀ docs, reencodeDocs reg src docs = .error .maxDocIDSentinel ↔
      ∃ d ∈ docs, d.id = MaxDocIDValue
  | [] => by simp [reencodeDocs]
  | dr :: rest => by
      rw [reencodeDocs]
      split
      · rename_i hid
        constructor
        · intro _
          exact ⟨dr, List.mem_cons_self dr rest, hid⟩
        · intro _
          rfl
      · rename_i hid
        cases hr : reencodeDocs reg src rest with
        | error e2 =>
            have he2 : e2 = .maxDocIDSentinel := reencodeDocs_error reg src rest e2 hr
            subst he2
            rw [exbind_error]
            constructor
            · intro _
              obtain ⟨d, hd, hdid⟩ := (reencodeDocs_error_iff reg src rest).1 hr
              exact ⟨d, List.mem_cons_of_mem dr hd, hdid⟩
            · intro _
              rfl
        | ok tail =>
            rw [exbind_ok]
            constructor
            · intro h
              split at h
              · cases h
              · cases h
            · rintro ⟨d, hd, hdid⟩
              rcases List.mem_cons.1 hd with rfl | hd2
              · exact absurd hdid hid
              · refine absurd hr ?_
                rw [(reencodeDocs_error_iff reg src rest).2 ⟨d, hd2, hdid⟩]
                intro hc
                cases hc

theorem singleGroup_sentinel_abort {coll : MergeCandidatesCollection}
    {is : IndexSession} {outTerm : List Nat} {selected : List Nat × term_index_ctx}
    {fastPath : Bool} {c : tracked_candidate}
    (hslow : (fastPath && registryEmpty (scanner_registry_for coll c.idx)) = false)
    (hdoc : selected.2.documents ≠ 0)
    (hsent : ∃ d ∈ (c.candidate.ap.getD default).decode selected.2,
      d.id = MaxDocIDValue) :
    singleGroup coll is outTerm selected fastPath c = .error .maxDocIDSentinel := by
  simp only [singleGroup, hslow]
  simp only [Bool.false_eq_true, if_neg, not_false_iff, if_neg hdoc]
  rw [(reencodeDocs_error_iff (scanner_registry_for coll c.idx) c.idx
    ((c.candidate.ap.getD default).decode selected.2)).2 hsent]
  rfl



/-- C8, counterexample: in the slow (mixed-codec) multi-candidate path a
decoder yields the sentinel `MaxDocIDValue` and `merge` does not abort —
the sentinel document is passed through to the output. -/
theorem claim_C8_counterexample :
    (∃ d ∈ (fixSlowSent.ap.getD default).decode ⟨1, 0⟩, d.id = MaxDocIDValue) ∧
    merge (commit ⟨[fixSlowOld, fixSlowSent], [], []⟩) fixIS 0 =
      .ok [⟨[97], ⟨2, 0⟩, [⟨7, [], 1⟩, ⟨MaxDocIDValue, [], 0⟩]⟩] :=
  ⟨⟨⟨MaxDocIDValue, []⟩, List.mem_singleton.2 rfl, rfl⟩, rfl⟩

/-- C8 (amended): the sentinel check lives only in the single-candidate
re-encode path: that path's decode loop aborts with a fatal assertion
exactly when the decoder yields a document id equal to `MaxDocIDValue`,
and `singleGroup` aborts whenever its re-encode branch decodes such a
document. -/
theorem claim_C8_sentinel_single_path_only :
    (∀ reg src docs, reencodeDocs reg src docs = .error .maxDocIDSentinel ↔
      ∃ d ∈ docs, d.id = MaxDocIDValue) ∧
    (∀ (coll : MergeCandidatesCollection) (is : IndexSession) (outTerm : List Nat)
      (selected : List Nat × term_index_ctx) (fastPath : Bool) (c : tracked_candidate),
      (fastPath && registryEmpty (scanner_registry_for coll c.idx)) = false →
      selected.2.documents ≠ 0 →
      (∃ d ∈ (c.candidate.ap.getD default).decode selected.2, d.id = MaxDocIDValue) →
      singleGroup coll is outTerm selected fastPath c = .error .maxDocIDSentinel) :=
  ⟨fun reg src docs => reencodeDocs_error_iff reg src docs,
   fun _ _ _ _ _ _ h1 h2 h3 => singleGroup_sentinel_abort h1 h2 h3⟩


theorem claim_C8_witness :
    (false && registryEmpty (scanner_registry_for fixSentColl fixSentTC.idx)) = false ∧
    (1 : Nat) ≠ 0 ∧
    singleGroup fixSentColl fixIS [97] ([97], ⟨1, 0⟩) false fixSentTC =
      .error .maxDocIDSentinel :=
  ⟨rfl, one_ne_zero,
   claim_C8_sentinel_single_path_only.2 fixSentColl fixIS [97] ([97], ⟨1, 0⟩) false
     fixSentTC rfl one_ne_zero
     ⟨⟨MaxDocIDValue, []⟩, List.mem_singleton.2 rfl, rfl⟩⟩

/-! ## The retention classifier (C4) -/

theorem classifyTracked_eq_aux (candidatesGens : List Nat) :
    ∀ s i lastNot b,
      (match lastNot with | some j => decide (j < i) | none => false) = b →
      (∀ j, lastNot = some j → j < i) →
      classifyTracked candidatesGens i lastNot s = classifySpecAux candidatesGens b s
  | [], _, _, _, _, _ => rfl
  | g :: rest, i, lastNot, b, hb, hinv => by
      rw [classifyTracked.eq_def, classifySpecAux.eq_def]
      dsimp only
      by_cases hc : candidatesGens.contains g = true
      · have hnc : ¬ (¬ candidatesGens.contains g = true) := not_not_intro hc
        rw [if_neg hnc, if_neg hnc, hb]
        cases hbv : b with
        | true =>
            rw [if_pos rfl, if_pos rfl]
            subst hbv
            refine congrArg _ ?_
            cases lastNot with
            | none => cases hb
            | some j =>
                have hji : j < i := hinv j rfl
                exact classifyTracked_eq_aux candidatesGens rest (i + 1) (some j) true
                  (by simp [Nat.lt_succ_of_lt hji]) (fun j2 hj2 => by cases hj2; omega)
        | false =>
            subst hbv
            rw [if_neg Bool.false_ne_true, if_neg Bool.false_ne_true]
            refine congrArg _ ?_
            cases lastNot with
            | none =>
                exact classifyTracked_eq_aux candidatesGens rest (i + 1) none false
                  rfl (fun j2 hj2 => by cases hj2)
            | some j =>
                have hji : j < i := hinv j rfl
                simp only [decide_eq_false_iff_not] at hb
                omega
      · rw [if_pos hc, if_pos hc]
        exact congrArg _ (classifyTracked_eq_aux candidatesGens rest (i + 1) (some i) true
          (by simp) (fun j2 hj2 => by cases hj2; omega))

theorem seenNC_eq_any (candidatesGens pre rest : List Nat) (g : Nat)
    (hsort : List.Sorted (· ≤ ·) (pre ++ g :: rest))
    (hg : candidatesGens.contains g = true) :
    pre.any (fun x => !candidatesGens.contains x) =
      (pre ++ g :: rest).any (fun x => decide (x < g) && !candidatesGens.contains x) := by
  rw [List.Sorted, List.pairwise_append] at hsort
  cases hpa : pre.any (fun x => !candidatesGens.contains x) with
  | true =>
      obtain ⟨x, hx, hxnc⟩ := List.any_eq_true.1 hpa
      symm
      rw [List.any_eq_true]
      refine ⟨x, List.mem_append_left _ hx, ?_⟩
      have hxle : x ≤ g := hsort.2.2 x hx g (List.mem_cons_self g rest)
      have hxne : x ≠ g := by
        intro h
        rw [h, hg] at hxnc
        cases hxnc
      rw [hxnc]
      simp [Nat.lt_of_le_of_ne hxle hxne]
  | false =>
      symm
      rw [List.any_eq_false]
      intro x hx
      rcases List.mem_append.1 hx with hpre | hrest
      · have := List.any_eq_false.1 hpa x hpre
        simp only [Bool.not_eq_true] at this ⊢
        rw [this]
        simp
      · rcases List.mem_cons.1 hrest with rfl | hrest2
        · simp
        · have hge : g ≤ x := List.rel_of_pairwise_cons hsort.2.1 hrest2
          have hdec : decide (x < g) = false := by
            simp only [decide_eq_false_iff_not]
            omega
          rw [hdec]
          simp

theorem classifySpecAux_eq_map (candidatesGens : List Nat) :
    ∀ s pre, List.Sorted (· ≤ ·) (pre ++ s) →
      classifySpecAux candidatesGens (pre.any (fun x => !candidatesGens.contains x)) s =
        s.map (fun g =>
          (g, if ¬ candidatesGens.contains g then .RetainAll
              else if (pre ++ s).any (fun x => decide (x < g) && !candidatesGens.contains x) then
                .RetainDocumentIDsUpdates
              else .Delete))
  | [], pre, _ => rfl
  | g :: rest, pre, hsort => by
      have hsort' : List.Sorted (· ≤ ·) ((pre ++ [g]) ++ rest) := by
        rw [List.append_assoc, List.singleton_append]
        exact hsort
      have hlist : (pre ++ [g]) ++ rest = pre ++ g :: rest := by
        rw [List.append_assoc, List.singleton_append]
      rw [classifySpecAux.eq_def, List.map_cons]
      dsimp only
      by_cases hc : candidatesGens.contains g = true
      · have hnc : ¬ (¬ candidatesGens.contains g = true) := not_not_intro hc
        rw [if_neg hnc, if_neg hnc]
        have hseen := seenNC_eq_any candidatesGens pre rest g hsort hc
        have hkeep : (pre ++ [g]).any (fun x => !candidatesGens.contains x) =
            pre.any (fun x => !candidatesGens.contains x) := by
          rw [List.any_append]
          simp only [List.any_cons, List.any_nil, Bool.or_false, hc, Bool.not_true]
        have ih := classifySpecAux_eq_map candidatesGens rest (pre ++ [g]) hsort'
        rw [hkeep, hlist] at ih
        rw [← hseen]
        cases hseenv : pre.any (fun x => !candidatesGens.contains x) with
        | true =>
            rw [hseenv] at ih
            rw [if_pos rfl, if_pos rfl]
            exact congrArg _ ih
        | false =>
            rw [hseenv] at ih
            rw [if_neg Bool.false_ne_true, if_neg Bool.false_ne_true]
            exact congrArg _ ih
      · rw [if_pos hc, if_pos hc]
        have hcf : candidatesGens.contains g = false := by simpa using hc
        have hnew : (pre ++ [g]).any (fun x => !candidatesGens.contains x) = true := by
          rw [List.any_append]
          simp only [List.any_cons, List.any_nil, Bool.or_false, hcf, Bool.not_false,
            Bool.or_true]
        have ih := classifySpecAux_eq_map candidatesGens rest (pre ++ [g]) hsort'
        rw [hnew, hlist] at ih
        exact congrArg _ ih

theorem insertionSort_any_eq (tr : List Nat) (p : Nat → Bool) :
    (List.insertionSort (· ≤ ·) tr).any p = tr.any p := by
  cases h : tr.any p with
  | true =>
      obtain ⟨x, hx, hpx⟩ := List.any_eq_true.1 h
      rw [List.any_eq_true]
      exact ⟨x, (List.perm_insertionSort (· ≤ ·) tr).mem_iff.2 hx, hpx⟩
  | false =>
      rw [List.any_eq_false]
      intro x hx
      have hxm := (List.perm_insertionSort (· ≤ ·) tr).mem_iff.1 hx
      have := List.any_eq_false.1 h x hxm
      simp only [Bool.not_eq_true] at this ⊢
      exact this

/-- C4: `consider_tracked_sources`, iterating the tracked generations in
ascending sorted order, classifies each tracked generation `g` as
`RetainAll` iff `g` is not a candidate generation, as
`RetainDocumentIDsUpdates` iff `g` is a candidate and some strictly smaller
tracked generation is not a candidate, and as `Delete` otherwise; the
result is a function only of the candidate generation set and the tracked
list. -/
theorem claim_C4_retention_classifier (coll : MergeCandidatesCollection)
    (trackedSources : List Nat) :
    consider_tracked_sources coll trackedSources =
      retentionSpec (coll.candidates.map (fun c => c.gen)) trackedSources := by
  unfold consider_tracked_sources retentionSpec
  set gens := coll.candidates.map (fun c => c.gen) with hgens
  rw [classifyTracked_eq_aux gens (List.insertionSort (· ≤ ·) trackedSources) 0 none false
    rfl (fun j hj => by cases hj)]
  have hmain := classifySpecAux_eq_map gens (List.insertionSort (· ≤ ·) trackedSources) []
    (by simpa using List.sorted_insertionSort (· ≤ ·) trackedSources)
  rw [show (([] : List Nat).any (fun x => !gens.contains x)) = false from rfl] at hmain
  simp only [List.nil_append] at hmain
  rw [hmain]
  refine List.map_congr_left ?_
  intro g hgmem
  simp only [insertionSort_any_eq]

theorem claim_C6_witness :
    ((⟨1, fixChunkCand⟩ : tracked_candidate).candidate.terms ≠ none) ∧
    ([4] ∈ scanner_registry_for (commit ⟨[fixChunkCand, fixMaskOnly], [], []⟩) 1) :=
  ⟨((claim_C6_mask_only_candidates (commit ⟨[fixChunkCand, fixMaskOnly], [], []⟩)).1
      [⟨1, fixChunkCand⟩] rfl ⟨1, fixChunkCand⟩ (List.mem_singleton.2 rfl)).1,
   by
    have h := (claim_C6_mask_only_candidates ⟨[fixChunkCand, fixMaskOnly], [], []⟩).2 0 1
      (by decide) (by decide) (by decide)
    simpa using h⟩


/-! ## Mask respect through the merge (C2) -/

theorem getD_lt_mem {l : List tracked_candidate} {v : Nat} (h : v < l.length) :
    l.getD v default ∈ l := by
  rw [List.getD_eq_getElem?_getD, List.getElem?_eq_getElem h, Option.getD_some]
  exact List.getElem_mem h

theorem getD_lt_mem_dec {l : List inner_dec} {v : Nat} (h : v < l.length) :
    l.getD v default ∈ l := by
  rw [List.getD_eq_getElem?_getD, List.getElem?_eq_getElem h, Option.getD_some]
  exact List.getElem_mem h

theorem buf_getD_lt {buf : List Nat} {n : Nat} (hbv : ∀ v ∈ buf, v < n)
    (h0 : 0 < n) (i : Nat) : buf.getD i 0 < n := by
  by_cases hi : i < buf.length
  · rw [List.getD_eq_getElem?_getD, List.getElem?_eq_getElem hi, Option.getD_some]
    exact hbv _ (List.getElem_mem hi)
  · rw [List.getD_eq_getElem?_getD, List.getElem?_eq_none (Nat.le_of_not_lt hi)]
    exact h0

theorem outerSelect_buf_bound (ws : List tracked_candidate) (hne : ws ≠ []) :
    ∀ v ∈ (outerSelect ws).buf, v < ws.length := by
  have hlen0 : 0 < ws.length := List.length_pos.2 hne
  unfold outerSelect
  have main : ∀ (l : List Nat) (st : sel_state), (∀ v ∈ st.buf, v < ws.length) →
      (∀ i ∈ l, i < ws.length) →
      ∀ v ∈ (l.foldl (selStep ws) st).buf, v < ws.length := by
    intro l
    induction l with
    | nil => intro st h1 _; simpa using h1
    | cons i l ih =>
        intro st h1 h2
        rw [List.foldl_cons]
        refine ih (selStep ws st i) ?_ (fun j hj => h2 j (List.mem_cons_of_mem _ hj))
        intro v hv
        have hi : i < ws.length := h2 i (List.mem_cons_self i l)
        simp only [selStep] at hv
        split at hv
        · rcases List.mem_or_eq_of_mem_set hv with h | rfl
          · exact h1 v h
          · exact hi
        · rcases List.mem_or_eq_of_mem_set hv with h | rfl
          · exact h1 v h
          · exact hi
        · exact h1 v hv
  refine main _ _ ?_ ?_
  · intro v hv
    rw [List.eq_of_mem_replicate hv]
    exact hlen0
  · intro i hi
    rw [List.mem_range'_1] at hi
    omega

theorem innerSelect_buf_bound (decs : List inner_dec) (hne : decs ≠ []) :
    ∀ v ∈ (innerSelect decs).buf, v < decs.length := by
  have hlen0 : 0 < decs.length := List.length_pos.2 hne
  unfold innerSelect
  have main : ∀ (l : List Nat) (st : inner_sel), (∀ v ∈ st.buf, v < decs.length) →
      (∀ i ∈ l, i < decs.length) →
      ∀ v ∈ (l.foldl (innerSelStep decs) st).buf, v < decs.length := by
    intro l
    induction l with
    | nil => intro st h1 _; simpa using h1
    | cons i l ih =>
        intro st h1 h2
        rw [List.foldl_cons]
        refine ih (innerSelStep decs st i) ?_ (fun j hj => h2 j (List.mem_cons_of_mem _ hj))
        intro v hv
        have hi : i < decs.length := h2 i (List.mem_cons_self i l)
        simp only [innerSelStep] at hv
        split at hv
        · rcases List.mem_or_eq_of_mem_set hv with h | rfl
          · exact h1 v h
          · exact hi
        · split at hv
          · rcases List.mem_or_eq_of_mem_set hv with h | rfl
            · exact h1 v h
            · exact hi
          · exact h1 v hv
  refine main _ _ ?_ ?_
  · intro v hv
    rw [List.eq_of_mem_replicate hv]
    exact hlen0
  · intro i hi
    rw [List.mem_range'_1] at hi
    omega

theorem buildParticipants_mem {coll : MergeCandidatesCollection}
    {ws : List tracked_candidate} {buf : List Nat} {cnt : Nat}
    (hbv : ∀ v ∈ buf, v < ws.length) (hne : ws ≠ []) :
    ∀ p ∈ buildParticipants coll ws buf cnt,
      ∃ t ∈ ws, p.src = t.idx ∧ p.maskedDocsReg = scanner_registry_for coll t.idx := by
  intro p hp
  unfold buildParticipants at hp
  rcases List.mem_filterMap.1 hp with ⟨i, -, hcond⟩
  dsimp only at hcond
  split at hcond
  · cases hcond
    exact ⟨ws.getD (buf.getD i 0) default,
      getD_lt_mem (buf_getD_lt hbv (List.length_pos.2 hne) i), rfl, rfl⟩
  · cases hcond

theorem buildDecoders_mem {coll : MergeCandidatesCollection}
    {ws : List tracked_candidate} {buf : List Nat} {cnt : Nat}
    (hbv : ∀ v ∈ buf, v < ws.length) (hne : ws ≠ []) :
    ∀ dec ∈ buildDecoders coll ws buf cnt,
      ∃ t ∈ ws, dec.src = t.idx ∧ dec.reg = scanner_registry_for coll t.idx := by
  intro dec hdec
  unfold buildDecoders at hdec
  rcases List.mem_filterMap.1 hdec with ⟨i, -, hcond⟩
  dsimp only at hcond
  split at hcond
  · cases hcond
    exact ⟨ws.getD (buf.getD i 0) default,
      getD_lt_mem (buf_getD_lt hbv (List.length_pos.2 hne) i), rfl, rfl⟩
  · cases hcond

theorem innerAdvance_mem (buf : List Nat) :
    ∀ p decs decs', decs ≠ [] → innerAdvance buf p decs = some decs' →
      decs' ≠ [] ∧ ∀ dec ∈ decs', ∃ dec0 ∈ decs, dec.src = dec0.src ∧ dec.reg = dec0.reg
  | 0, decs, decs', hne, h => by
      cases h
      exact ⟨hne, fun dec hd => ⟨dec, hd, rfl, rfl⟩⟩
  | p + 1, decs, decs', hne, h => by
      rw [innerAdvance] at h
      split at h
      · dsimp only at h
        split at h
        · cases h
        · rename_i hne2
          have hne2' : decs.eraseIdx (buf.getD p 0) ≠ [] := by
            intro hc
            rw [hc] at hne2
            exact hne2 rfl
          obtain ⟨h1, h2⟩ := innerAdvance_mem buf p _ decs' hne2' h
          refine ⟨h1, fun dec hd => ?_⟩
          obtain ⟨dec0, hd0, hs, hr⟩ := h2 dec hd
          exact ⟨dec0, List.eraseIdx_subset _ _ hd0, hs, hr⟩
      · have hset : (decs.set (buf.getD p 0)
            { decs.getD (buf.getD p 0) default with
                docs := (decs.getD (buf.getD p 0) default).docs.tail }) ≠ [] := by
          intro hc
          have := congrArg List.length hc
          rw [List.length_set] at this
          exact hne (List.length_eq_zero.1 this)
        obtain ⟨h1, h2⟩ := innerAdvance_mem buf p _ decs' hset h
        refine ⟨h1, fun dec hd => ?_⟩
        obtain ⟨dec0, hd0, hs, hr⟩ := h2 dec hd
        by_cases hidx : buf.getD p 0 < decs.length
        · rcases List.mem_or_eq_of_mem_set hd0 with hin | rfl
          · exact ⟨dec0, hin, hs, hr⟩
          · exact ⟨decs.getD (buf.getD p 0) default, getD_lt_mem_dec hidx, hs, hr⟩
        · rw [List.set_eq_of_length_le (Nat.le_of_not_lt hidx)] at hd0
          exact ⟨dec0, hd0, hs, hr⟩

theorem innerLoop_mask (coll : MergeCandidatesCollection) (n : Nat) :
    ∀ fuel decs, decs ≠ [] →
      (∀ dec ∈ decs, dec.src < n ∧ dec.reg = scanner_registry_for coll dec.src) →
      ∀ d ∈ innerLoop fuel decs,
        d.src < n ∧ registryTest (scanner_registry_for coll d.src) d.id = false
  | 0, decs, _, _, d, hd => by simp [innerLoop] at hd
  | fuel + 1, decs, hne, hreg, d, hd => by
      rw [innerLoop] at hd
      have hw : decs.getD ((innerSelect decs).buf.getD 0 0) default ∈ decs :=
        getD_lt_mem_dec (buf_getD_lt (innerSelect_buf_bound decs hne)
          (List.length_pos.2 hne) 0)
      have hwsp := hreg _ hw
      have hemit : ∀ x ∈ (if registryTest
            (decs.getD ((innerSelect decs).buf.getD 0 0) default).reg
            (innerSelect decs).lowestDID then none
          else some (⟨(innerSelect decs).lowestDID,
            (innerCur (decs.getD ((innerSelect decs).buf.getD 0 0) default)).hits,
            (decs.getD ((innerSelect decs).buf.getD 0 0) default).src⟩ : out_doc)).toList,
          x.src < n ∧ registryTest (scanner_registry_for coll x.src) x.id = false := by
        intro x hx
        split at hx
        · simp at hx
        · rename_i hmask
          simp only [Option.toList_some, List.mem_singleton] at hx
          subst hx
          refine ⟨hwsp.1, ?_⟩
          rw [← hwsp.2]
          simpa using hmask
      cases hadv : innerAdvance (innerSelect decs).buf (innerSelect decs).cnt decs with
      | none =>
          rw [hadv] at hd
          exact hemit d hd
      | some decs' =>
          rw [hadv] at hd
          rcases List.mem_append.1 hd with h1 | h2
          · exact hemit d h1
          · obtain ⟨hne', hmem⟩ := innerAdvance_mem _ _ _ _ hne hadv
            refine innerLoop_mask coll n fuel decs' hne' ?_ d h2
            intro dec hdec
            obtain ⟨dec0, hd0, hs, hr⟩ := hmem dec hdec
            obtain ⟨ha, hb⟩ := hreg dec0 hd0
            rw [hs, hr]
            exact ⟨ha, hb⟩

theorem outerAdvance_mem (buf : List Nat) :
    ∀ p ws ws', ws ≠ [] → outerAdvance buf p ws = some ws' →
      ws' ≠ [] ∧ ∀ t ∈ ws', ∃ t0 ∈ ws, t.idx = t0.idx
  | 0, ws, ws', hne, h => by
      cases h
      exact ⟨hne, fun t ht => ⟨t, ht, rfl⟩⟩
  | p + 1, ws, ws', hne, h => by
      rw [outerAdvance] at h
      split at h
      · dsimp only at h
        split at h
        · cases h
        · rename_i hne2
          have hne2' : ws.eraseIdx (buf.getD p 0) ≠ [] := by
            intro hc
            rw [hc] at hne2
            exact hne2 rfl
          obtain ⟨h1, h2⟩ := outerAdvance_mem buf p _ ws' hne2' h
          refine ⟨h1, fun t ht => ?_⟩
          obtain ⟨t0, ht0, hidx⟩ := h2 t ht
          exact ⟨t0, List.eraseIdx_subset _ _ ht0, hidx⟩
      · have hset : (ws.set (buf.getD p 0)
            { ws.getD (buf.getD p 0) default with
                candidate := { (ws.getD (buf.getD p 0) default).candidate with
                  terms := some ((ws.getD (buf.getD p 0) default).candidate.terms.getD []).tail } }) ≠ [] := by
          intro hc
          have := congrArg List.length hc
          rw [List.length_set] at this
          exact hne (List.length_eq_zero.1 this)
        obtain ⟨h1, h2⟩ := outerAdvance_mem buf p _ ws' hset h
        refine ⟨h1, fun t ht => ?_⟩
        obtain ⟨t0, ht0, hidx⟩ := h2 t ht
        by_cases hidx2 : buf.getD p 0 < ws.length
        · rcases List.mem_or_eq_of_mem_set ht0 with hin | rfl
          · exact ⟨t0, hin, hidx⟩
          · exact ⟨ws.getD (buf.getD p 0) default, getD_lt_mem hidx2, hidx⟩
        · rw [List.set_eq_of_length_le (Nat.le_of_not_lt hidx2)] at ht0
          exact ⟨t0, ht0, hidx⟩


theorem mask_mem_scanner_registry (coll : MergeCandidatesCollection) (i j : Nat)
    (hij : i < j) (hj : j < (commit coll).candidates.length)
    (hmask : ((commit coll).candidates.getD i default).maskedDocuments ≠ []) :
    ((commit coll).candidates.getD i default).maskedDocuments ∈
      scanner_registry_for (commit coll) j := by
  rw [scanner_registry_char coll j hj]
  set cs := (commit coll).candidates with hcs
  have hilen : i < cs.length := lt_trans hij hj
  have hitake : i < (cs.take j).length := by
    rw [List.length_take]
    omega
  have hmem : cs.getD i default ∈ cs.take j := by
    have h1 : (cs.take j).getD i default = cs.getD i default := by
      rw [List.getD_eq_getElem?_getD, List.getD_eq_getElem?_getD,
        List.getElem?_take_of_lt hij]
    have h2 : (cs.take j).getD i default = (cs.take j)[i] := by
      rw [List.getD_eq_getElem?_getD, List.getElem?_eq_getElem hitake]
      rfl
    rw [← h1, h2]
    exact List.getElem_mem hitake
  refine List.mem_map.2 ⟨cs.getD i default, List.mem_filter.2 ⟨hmem, ?_⟩, rfl⟩
  simp only [Bool.not_eq_true', List.isEmpty_eq_false]
  exact hmask

theorem registryTest_false_masks {coll : MergeCandidatesCollection} {src did : Nat}
    (hsrc : src < (commit coll).candidates.length)
    (htest : registryTest (scanner_registry_for (commit coll) src) did = false) :
    ∀ j, j < src →
      did ∉ ((commit coll).candidates.getD j default).maskedDocuments := by
  intro j hj
  by_cases hm : ((commit coll).candidates.getD j default).maskedDocuments = []
  · rw [hm]
    exact List.not_mem_nil did
  · intro hdid
    have hmem := mask_mem_scanner_registry coll j src hj hsrc hm
    unfold registryTest at htest
    have hfalse := List.any_eq_false.1 htest _ hmem
    exact hfalse (List.elem_iff.2 hdid)

theorem mergeStep_mask {coll : MergeCandidatesCollection} {is : IndexSession}
    {ws : List tracked_candidate} {e : Option out_entry}
    {next : Option (List tracked_candidate)} {n : Nat}
    (hSess : SessionRespectsMasks is) (hne : ws ≠ [])
    (hws : ∀ t ∈ ws, t.idx < n)
    (h : mergeStep coll is ws = .ok (e, next)) :
    (∀ x, e = some x → ∀ d ∈ x.docs,
      d.src < n ∧ registryTest (scanner_registry_for coll d.src) d.id = false) ∧
    (∀ ws', next = some ws' → ws' ≠ [] ∧ ∀ t ∈ ws', t.idx < n) := by
  have hbv := outerSelect_buf_bound ws hne
  have hnext : next = outerAdvance (outerSelect ws).buf
      (if (outerSelect ws).cnt = 0 then 256 else (outerSelect ws).cnt) ws :=
    (mergeStep_ok h).2
  have hnextOK : ∀ ws', next = some ws' → ws' ≠ [] ∧ ∀ t ∈ ws', t.idx < n := by
    intro ws' hws'
    rw [hnext] at hws'
    obtain ⟨h1, h2⟩ := outerAdvance_mem _ _ _ _ hne hws'
    refine ⟨h1, fun t ht => ?_⟩
    obtain ⟨t0, ht0, hidx⟩ := h2 t ht
    rw [hidx]
    exact hws t0 ht0
  refine ⟨?_, hnextOK⟩
  simp only [mergeStep] at h
  split at h
  · cases hs : singleGroup coll is (outerSelect ws).selected.1 (outerSelect ws).selected
        ((outerSelect ws).sameCODEC && ((outerSelect ws).codec == is.codec))
        (ws.getD ((outerSelect ws).buf.getD 0 0) default) with
    | error err => rw [hs, exbind_error] at h; cases h
    | ok oe =>
        rw [hs, exbind_ok] at h
        cases h
        intro x hx
        subst hx
        obtain ⟨-, -, hdocs⟩ := singleGroup_ok_some hs
        intro d hd
        obtain ⟨hsrc, htest⟩ := hdocs d hd
        have hcmem : ws.getD ((outerSelect ws).buf.getD 0 0) default ∈ ws :=
          getD_lt_mem (buf_getD_lt hbv (List.length_pos.2 hne) 0)
        rw [hsrc]
        exact ⟨hws _ hcmem, htest⟩
  · split at h
    · rw [exbind_ok] at h
      cases h
      intro x hx
      obtain ⟨-, -, hdocs⟩ := fastMultiGroup_some hx
      intro d hd
      rw [hdocs] at hd
      obtain ⟨p, hp, hsrc, htest⟩ := hSess _ d hd
      obtain ⟨t, ht, hps, hpr⟩ := buildParticipants_mem hbv hne p hp
      rw [hsrc, hps]
      refine ⟨hws t ht, ?_⟩
      rw [← hpr]
      exact htest
    · cases hs : slowGroup coll is (outerSelect ws).selected.1 ws
          (outerSelect ws).buf (outerSelect ws).cnt with
      | error err => rw [hs, exbind_error] at h; cases h
      | ok oe =>
          rw [hs, exbind_ok] at h
          cases h
          intro x hx
          subst hx
          obtain ⟨-, -, hdocs⟩ := slowGroup_ok_some hs
          intro d hd
          rw [hdocs] at hd
          have hDne : buildDecoders coll ws (outerSelect ws).buf (outerSelect ws).cnt ≠ [] := by
            intro hD
            rw [slowGroup, hD] at hs
            cases hs
          refine innerLoop_mask coll n _ _ hDne ?_ d hd
          intro dec hdec
          obtain ⟨t, ht, hdsrc, hdreg⟩ := buildDecoders_mem hbv hne dec hdec
          rw [hdsrc, hdreg]
          exact ⟨hws t ht, rfl⟩

theorem mergeLoop_mask {coll : MergeCandidatesCollection} {is : IndexSession} {n : Nat}
    (hSess : SessionRespectsMasks is) :
    ∀ fuel ws out, ws ≠ [] → (∀ t ∈ ws, t.idx < n) →
      mergeLoop coll is fuel ws = .ok out →
      ∀ e ∈ out, ∀ d ∈ e.docs,
        d.src < n ∧ registryTest (scanner_registry_for coll d.src) d.id = false
  | 0, ws, out, _, _, h => by
      cases h
      intro e he
      simp at he
  | fuel + 1, ws, out, hne, hws, h => by
      rw [mergeLoop] at h
      cases hs : mergeStep coll is ws with
      | error err => rw [hs, exbind_error] at h; cases h
      | ok p =>
          obtain ⟨entry, next⟩ := p
          rw [hs, exbind_ok] at h
          obtain ⟨hdocs, hnext⟩ := mergeStep_mask hSess hne hws hs
          cases next with
          | none =>
              simp only at h
              cases h
              intro e he
              cases entry with
              | none => simp at he
              | some x =>
                  simp only [Option.toList] at he
                  rcases List.mem_singleton.1 he with rfl
                  exact hdocs _ rfl
          | some ws' =>
              simp only at h
              cases hr : mergeLoop coll is fuel ws' with
              | error err => rw [hr, exbind_error] at h; cases h
              | ok rest =>
                  rw [hr, exbind_ok] at h
                  cases h
                  intro e he
                  rcases List.mem_append.1 he with h1 | h2
                  · cases entry with
                    | none => simp at h1
                    | some x =>
                        simp only [Option.toList] at h1
                        rcases List.mem_singleton.1 h1 with rfl
                        exact hdocs _ rfl
                  · obtain ⟨hne', hws'⟩ := hnext ws' rfl
                    exact mergeLoop_mask hSess fuel ws' rest hne' hws' hr e h2

theorem merge_mask {coll : MergeCandidatesCollection} {is : IndexSession}
    {flushFreq : Nat} {out : List out_entry}
    (hSess : SessionRespectsMasks is) (h : merge coll is flushFreq = .ok out) :
    ∀ e ∈ out, ∀ d ∈ e.docs,
      d.src < coll.candidates.length ∧
      registryTest (scanner_registry_for coll d.src) d.id = false := by
  simp only [merge] at h
  split at h
  · cases hw : buildWorkingFrom 0 none coll.candidates with
    | error err => rw [hw, exbind_error] at h; cases h
    | ok ws =>
        rw [hw, exbind_ok] at h
        split at h
        · cases h
          intro e he
          simp at he
        · rename_i hne
          have hne' : ws ≠ [] := by
            intro hc
            rw [hc] at hne
            exact hne rfl
          refine mergeLoop_mask hSess _ ws out hne' ?_ h
          intro t ht
          have := (buildWorkingFrom_mem hw t ht).2.2.2.1
          omega
  · rw [exthrow_bind] at h
    cases h

theorem merge_ok_chain {coll : MergeCandidatesCollection} {is : IndexSession}
    {flushFreq : Nat} {out : List out_entry}
    (h : merge coll is flushFreq = .ok out) :
    List.Chain' (fun a b => b.gen < a.gen) coll.candidates := by
  simp only [merge] at h
  split at h
  · cases hw : buildWorkingFrom 0 none coll.candidates with
    | error err => rw [hw, exbind_error] at h; cases h
    | ok ws =>
        exact (gensOKFrom_none_iff_chain coll.candidates).1
          (buildWorkingFrom_ok_inv _ _ _ _ hw).1
  · rw [exthrow_bind] at h
    cases h

/-- C2: masking is strictly newer: after `commit`, the registry for the
candidate at position `i` is built from exactly the non-empty mask sets of
the strictly newer candidates at positions `0..i-1`, never from candidate
`i`'s own mask; and (when the codec-native bulk merge honors the
registries it is handed) every document `merge` emits is absent from the
mask set of every candidate strictly newer than the candidate that
supplied it. -/
theorem claim_C2_strictly_newer_masking (coll : MergeCandidatesCollection)
    (is : IndexSession) (flushFreq : Nat) :
    (∀ j, j < (commit coll).candidates.length →
      scanner_registry_for (commit coll) j =
        (((commit coll).candidates.take j).filter
          (fun c => !c.maskedDocuments.isEmpty)).map (fun c => c.maskedDocuments)) ∧
    (SessionRespectsMasks is →
      ∀ out, merge (commit coll) is flushFreq = .ok out →
        ∀ e ∈ out, ∀ d ∈ e.docs,
          d.src < (commit coll).candidates.length ∧
          ∀ c' ∈ (commit coll).candidates,
            ((commit coll).candidates.getD d.src default).gen < c'.gen →
              d.id ∉ c'.maskedDocuments) := by
  constructor
  · intro j hj
    exact scanner_registry_char coll j hj
  · intro hSess out hok e he d hd
    obtain ⟨hsrc, htest⟩ := merge_mask hSess hok e he d hd
    refine ⟨hsrc, ?_⟩
    intro c' hc' hgen
    have hchain := merge_ok_chain hok
    haveI : IsTrans merge_candidate (fun a b => b.gen < a.gen) :=
      ⟨fun _ _ _ h1 h2 => Nat.lt_trans h2 h1⟩
    have hpw := List.chain'_iff_pairwise.1 hchain
    obtain ⟨j, hjlen, hcj⟩ := List.getElem_of_mem hc'
    have hjd : (commit coll).candidates.getD j default = c' := by
      rw [List.getD_eq_getElem?_getD, List.getElem?_eq_getElem hjlen,
        Option.getD_some, hcj]
    have hgens : ∀ a b, a < (commit coll).candidates.length →
        b < (commit coll).candidates.length → a < b →
        ((commit coll).candidates.getD b default).gen <
          ((commit coll).candidates.getD a default).gen := by
      intro a b ha hb hab
      have hpair := List.pairwise_iff_getElem.1 hpw a b ha hb hab
      rw [List.getD_eq_getElem?_getD, List.getElem?_eq_getElem hb, Option.getD_some,
        List.getD_eq_getElem?_getD, List.getElem?_eq_getElem ha, Option.getD_some]
      exact hpair
    have hj_lt : j < d.src := by
      by_contra hge
      rcases Nat.lt_or_ge d.src j with hlt | hge2
      · have hgj := hgens d.src j hsrc hjlen hlt
        rw [hjd] at hgj
        omega
      · have hjs : j = d.src := by omega
        rw [← hjd, hjs] at hgen
        omega
    have := registryTest_false_masks hsrc htest j hj_lt
    rw [hjd] at this
    exact this

theorem claim_C2_witness :
    merge (commit ⟨[fixChunkCand, fixMaskOnly], [], []⟩) fixIS 0 =
      .ok [⟨[97], ⟨1, 0⟩, [⟨9, [], 1⟩]⟩] ∧
    (9 : Nat) ∉ fixMaskOnly.maskedDocuments :=
  ⟨rfl,
   ((claim_C2_strictly_newer_masking ⟨[fixChunkCand, fixMaskOnly], [], []⟩ fixIS 0).2
      (fun parts d hd => absurd hd (List.not_mem_nil d))
      [⟨[97], ⟨1, 0⟩, [⟨9, [], 1⟩]⟩] rfl _ (List.mem_singleton.2 rfl)
      ⟨9, [], 1⟩ (List.mem_singleton.2 rfl)).2 fixMaskOnly
      (by
        rw [show (commit ⟨[fixChunkCand, fixMaskOnly], [], []⟩).candidates =
          [fixMaskOnly, fixChunkCand] from rfl]
        exact List.mem_cons_self _ _)
      (by decide)⟩


/-! ## The generic advancement loop: equivalence with its declarative form -/

theorem advSpec_nil {α : Type} (f : α → Option α) (S : List Nat) (i : Nat) :
    advSpec f S i [] = [] := rfl

theorem advSpec_cons {α : Type} (f : α → Option α) (S : List Nat) (i : Nat)
    (x : α) (rest : List α) :
    advSpec f S i (x :: rest) =
      if i ∈ S then
        match f x with
        | none => advSpec f S (i + 1) rest
        | some x' => x' :: advSpec f S (i + 1) rest
      else x :: advSpec f S (i + 1) rest := rfl

theorem advSpec_cons_pos_none {α : Type} (f : α → Option α) (S : List Nat)
    (i : Nat) (x : α) (rest : List α) (hm : i ∈ S) (hf : f x = none) :
    advSpec f S i (x :: rest) = advSpec f S (i + 1) rest := by
  rw [advSpec_cons, if_pos hm, hf]

theorem advSpec_cons_pos_some {α : Type} (f : α → Option α) (S : List Nat)
    (i : Nat) (x : α) (rest : List α) (x' : α) (hm : i ∈ S)
    (hf : f x = some x') :
    advSpec f S i (x :: rest) = x' :: advSpec f S (i + 1) rest := by
  rw [advSpec_cons, if_pos hm, hf]

theorem advSpec_cons_neg {α : Type} (f : α → Option α) (S : List Nat)
    (i : Nat) (x : α) (rest : List α) (hm : i ∉ S) :
    advSpec f S i (x :: rest) = x :: advSpec f S (i + 1) rest := by
  rw [advSpec_cons, if_neg hm]

theorem advVals_cons_none {α : Type} [Inhabited α] (f : α → Option α)
    (idx : Nat) (L : List Nat) (xs : List α)
    (h : f (xs.getD idx default) = none) :
    advVals f (idx :: L) xs =
      if (xs.eraseIdx idx).isEmpty then none
      else advVals f L (xs.eraseIdx idx) := by
  have e : advVals f (idx :: L) xs =
      (match f (xs.getD idx default) with
       | none =>
           if (xs.eraseIdx idx).isEmpty then none
           else advVals f L (xs.eraseIdx idx)
       | some x' => advVals f L (xs.set idx x')) := rfl
  rw [e, h]

theorem advVals_cons_some {α : Type} [Inhabited α] (f : α → Option α)
    (idx : Nat) (L : List Nat) (xs : List α) (x' : α)
    (h : f (xs.getD idx default) = some x') :
    advVals f (idx :: L) xs = advVals f L (xs.set idx x') := by
  have e : advVals f (idx :: L) xs =
      (match f (xs.getD idx default) with
       | none =>
           if (xs.eraseIdx idx).isEmpty then none
           else advVals f L (xs.eraseIdx idx)
       | some x' => advVals f L (xs.set idx x')) := rfl
  rw [e, h]

theorem advSpec_append {α : Type} (f : α → Option α) (S : List Nat) :
    ∀ (A B : List α) (i : Nat),
      advSpec f S i (A ++ B) = advSpec f S i A ++ advSpec f S (i + A.length) B
  | [], B, i => by simp [advSpec_nil]
  | a :: A, B, i => by
      rw [List.cons_append, show i + (a :: A).length = (i + 1) + A.length from by
        simp only [List.length_cons]; omega]
      by_cases h : i ∈ S
      · cases hfa : f a with
        | none =>
            rw [advSpec_cons_pos_none f S i a (A ++ B) h hfa,
              advSpec_cons_pos_none f S i a A h hfa,
              advSpec_append f S A B (i + 1)]
        | some x' =>
            rw [advSpec_cons_pos_some f S i a (A ++ B) x' h hfa,
              advSpec_cons_pos_some f S i a A x' h hfa,
              advSpec_append f S A B (i + 1), List.cons_append]
      · rw [advSpec_cons_neg f S i a (A ++ B) h, advSpec_cons_neg f S i a A h,
          advSpec_append f S A B (i + 1), List.cons_append]

theorem advSpec_congr_mem {α : Type} (f : α → Option α) (S S' : List Nat) :
    ∀ (A : List α) (i : Nat),
      (∀ j, i ≤ j → j < i + A.length → ((j ∈ S) ↔ (j ∈ S'))) →
      advSpec f S i A = advSpec f S' i A
  | [], _, _ => rfl
  | a :: A, i, h => by
      have hi : (i ∈ S) ↔ (i ∈ S') :=
        h i (Nat.le_refl i) (by simp only [List.length_cons]; omega)
      have hrec := advSpec_congr_mem f S S' A (i + 1)
        (fun j hj1 hj2 => h j (by omega)
          (by simp only [List.length_cons]; omega))
      by_cases hm : i ∈ S
      · have hm' := hi.1 hm
        cases hfa : f a with
        | none =>
            rw [advSpec_cons_pos_none f S i a A hm hfa,
              advSpec_cons_pos_none f S' i a A hm' hfa, hrec]
        | some x' =>
            rw [advSpec_cons_pos_some f S i a A x' hm hfa,
              advSpec_cons_pos_some f S' i a A x' hm' hfa, hrec]
      · rw [advSpec_cons_neg f S i a A hm,
          advSpec_cons_neg f S' i a A (fun hc => hm (hi.2 hc)), hrec]

theorem advSpec_not_mem {α : Type} (f : α → Option α) (S : List Nat) :
    ∀ (A : List α) (i : Nat),
      (∀ j, i ≤ j → j < i + A.length → j ∉ S) →
      advSpec f S i A = A
  | [], _, _ => rfl
  | a :: A, i, h => by
      rw [advSpec_cons_neg f S i a A
        (h i (Nat.le_refl i) (by simp only [List.length_cons]; omega)),
        advSpec_not_mem f S A (i + 1)
          (fun j hj1 hj2 => h j (by omega)
            (by simp only [List.length_cons]; omega))]

theorem advSpec_length_le {α : Type} (f : α → Option α) (S : List Nat) :
    ∀ (A : List α) (i : Nat), (advSpec f S i A).length ≤ A.length
  | [], _ => Nat.le_refl 0
  | a :: A, i => by
      by_cases hm : i ∈ S
      · cases hfa : f a with
        | none =>
            rw [advSpec_cons_pos_none f S i a A hm hfa]
            exact Nat.le_trans (advSpec_length_le f S A (i + 1))
              (by simp only [List.length_cons]; omega)
        | some x' =>
            rw [advSpec_cons_pos_some f S i a A x' hm hfa]
            simp only [List.length_cons]
            exact Nat.succ_le_succ (advSpec_length_le f S A (i + 1))
      · rw [advSpec_cons_neg f S i a A hm]
        simp only [List.length_cons]
        exact Nat.succ_le_succ (advSpec_length_le f S A (i + 1))

theorem advSpec_forall {α : Type} (f : α → Option α) (S : List Nat)
    (P : α → Prop) :
    ∀ (A : List α) (i : Nat),
      (∀ j (hj : j < A.length), (i + j) ∈ S →
        ∀ y, f (A.get ⟨j, hj⟩) = some y → P y) →
      (∀ j (hj : j < A.length), (i + j) ∉ S → P (A.get ⟨j, hj⟩)) →
      ∀ x, x ∈ advSpec f S i A → P x
  | [], _, _, _, x, hx => absurd hx (List.not_mem_nil x)
  | a :: A, i, h1, h2, x, hx => by
      have h1' : ∀ j (hj : j < A.length), ((i + 1) + j) ∈ S →
          ∀ y, f (A.get ⟨j, hj⟩) = some y → P y :=
        fun j hj hm y hfy =>
          h1 (j + 1) (by simp only [List.length_cons]; omega)
            (by rw [show i + (j + 1) = (i + 1) + j from by omega]; exact hm) y hfy
      have h2' : ∀ j (hj : j < A.length), ((i + 1) + j) ∉ S →
          P (A.get ⟨j, hj⟩) :=
        fun j hj hm =>
          h2 (j + 1) (by simp only [List.length_cons]; omega)
            (by rw [show i + (j + 1) = (i + 1) + j from by omega]; exact hm)
      by_cases hm : i ∈ S
      · cases hfa : f a with
        | none =>
            rw [advSpec_cons_pos_none f S i a A hm hfa] at hx
            exact advSpec_forall f S P A (i + 1) h1' h2' x hx
        | some x' =>
            rw [advSpec_cons_pos_some f S i a A x' hm hfa] at hx
            rcases List.mem_cons.1 hx with rfl | hx2
            · exact h1 0 (by simp only [List.length_cons]; omega)
                (by simpa using hm) _ hfa
            · exact advSpec_forall f S P A (i + 1) h1' h2' x hx2
      · rw [advSpec_cons_neg f S i a A hm] at hx
        rcases List.mem_cons.1 hx with rfl | hx2
        · exact h2 0 (by simp only [List.length_cons]; omega) (by simpa using hm)
        · exact advSpec_forall f S P A (i + 1) h1' h2' x hx2

theorem advVals_eq_advSpec {α : Type} [Inhabited α] (f : α → Option α) :
    ∀ (L : List Nat) (xs : List α), List.Pairwise (· > ·) L →
      (∀ v ∈ L, v < xs.length) → xs ≠ [] →
      advVals f L xs =
        if (advSpec f L 0 xs).isEmpty then none else some (advSpec f L 0 xs)
  | [], xs, _, _, hne => by
      rw [show advVals f [] xs = some xs from rfl,
        advSpec_not_mem f [] xs 0 (fun j _ _ hj => absurd hj (List.not_mem_nil j)),
        if_neg (fun hc => hne (List.isEmpty_iff.1 hc))]
  | idx :: L, xs, hpw, hv, hne => by
      have hidx : idx < xs.length := hv idx (List.mem_cons_self idx L)
      have hL : ∀ v ∈ L, v < idx := fun v hvm => List.rel_of_pairwise_cons hpw hvm
      have hnotL : idx ∉ L := fun hc => absurd (hL idx hc) (Nat.lt_irrefl idx)
      have hxs : xs = xs.take idx ++ xs[idx] :: xs.drop (idx + 1) := by
        conv_lhs => rw [← List.take_append_drop idx xs]
        rw [List.drop_eq_getElem_cons hidx]
      have hlenA : (xs.take idx).length = idx := by
        rw [List.length_take]
        exact Nat.min_eq_left (Nat.le_of_lt hidx)
      have he1 : advSpec f L 0 (xs.take idx) = advSpec f (idx :: L) 0 (xs.take idx) :=
        advSpec_congr_mem f L (idx :: L) (xs.take idx) 0
          (fun j hj1 hj2 => by
            rw [Nat.zero_add, hlenA] at hj2
            constructor
            · exact fun hjm => List.mem_cons_of_mem idx hjm
            · intro hjm
              rcases List.mem_cons.1 hjm with rfl | hjm2
              · exact absurd hj2 (Nat.lt_irrefl j)
              · exact hjm2)
      cases hfd : f xs[idx] with
      | none =>
          have hfd' : f (xs.getD idx default) = none := by
            rw [List.getD_eq_getElem xs default hidx]; exact hfd
          rw [advVals_cons_none f idx L xs hfd']
          have herase : xs.eraseIdx idx = xs.take idx ++ xs.drop (idx + 1) :=
            List.eraseIdx_eq_take_drop_succ xs idx
          by_cases hemp : (xs.eraseIdx idx).isEmpty
          · rw [if_pos hemp]
            have h2 : xs.take idx = [] ∧ xs.drop (idx + 1) = [] := by
              rw [herase] at hemp
              exact List.append_eq_nil.1 (List.isEmpty_iff.1 hemp)
            have hidx0 : idx = 0 := by
              rw [h2.1] at hlenA
              simpa using hlenA.symm
            have hLnil : L = [] := by
              cases L with
              | nil => rfl
              | cons v L' =>
                  exact absurd (hL v (List.mem_cons_self v L')) (by omega)
            subst hidx0
            subst hLnil
            have hxs1 : xs = [xs[0]] := by
              conv_lhs => rw [hxs]
              rw [h2.1, h2.2, List.nil_append]
            have hspec : advSpec f [0] 0 xs = [] := by
              conv_lhs => rw [hxs1]
              rw [advSpec_cons_pos_none f [0] 0 (xs[0]) [] (List.mem_singleton.2 rfl) hfd,
                advSpec_nil]
            rw [hspec]
            simp
          · rw [if_neg hemp]
            have hne' : xs.eraseIdx idx ≠ [] := fun hc => hemp (by rw [hc]; rfl)
            rw [advVals_eq_advSpec f L (xs.eraseIdx idx) (List.Pairwise.of_cons hpw)
              (fun v hvm => by
                rw [herase, List.length_append, hlenA]
                have h1 := hL v hvm
                omega)
              hne']
            have hkey : advSpec f L 0 (xs.eraseIdx idx) = advSpec f (idx :: L) 0 xs := by
              rw [herase]
              conv_rhs => rw [hxs]
              rw [advSpec_append, advSpec_append]
              simp only [Nat.zero_add, hlenA]
              have he2 : advSpec f L idx (xs.drop (idx + 1)) =
                  advSpec f (idx :: L) idx (xs[idx] :: xs.drop (idx + 1)) := by
                rw [advSpec_cons_pos_none f (idx :: L) idx (xs[idx]) (xs.drop (idx + 1))
                  (List.mem_cons_self idx L) hfd]
                rw [advSpec_not_mem f L (xs.drop (idx + 1)) idx
                  (fun j hj1 hj2 hc => absurd (hL j hc) (by omega)),
                  advSpec_not_mem f (idx :: L) (xs.drop (idx + 1)) (idx + 1)
                  (fun j hj1 hj2 hc => by
                    rcases List.mem_cons.1 hc with rfl | hc2
                    · omega
                    · exact absurd (hL j hc2) (by omega))]
              rw [he1, he2]
            rw [hkey]
      | some x' =>
          have hfd' : f (xs.getD idx default) = some x' := by
            rw [List.getD_eq_getElem xs default hidx]; exact hfd
          rw [advVals_cons_some f idx L xs x' hfd']
          have hset : xs.set idx x' = xs.take idx ++ x' :: xs.drop (idx + 1) :=
            List.set_eq_take_cons_drop x' hidx
          rw [advVals_eq_advSpec f L (xs.set idx x') (List.Pairwise.of_cons hpw)
            (fun v hvm => by
              rw [List.length_set]
              exact Nat.lt_trans (hL v hvm) hidx)
            (by
              rw [hset]
              simp)]
          have hkey : advSpec f L 0 (xs.set idx x') = advSpec f (idx :: L) 0 xs := by
            rw [hset]
            conv_rhs => rw [hxs]
            rw [advSpec_append, advSpec_append]
            simp only [Nat.zero_add, hlenA]
            have he2 : advSpec f L idx (x' :: xs.drop (idx + 1)) =
                advSpec f (idx :: L) idx (xs[idx] :: xs.drop (idx + 1)) := by
              rw [advSpec_cons_neg f L idx x' (xs.drop (idx + 1)) hnotL,
                advSpec_cons_pos_some f (idx :: L) idx (xs[idx]) (xs.drop (idx + 1)) x'
                  (List.mem_cons_self idx L) hfd]
              rw [advSpec_not_mem f L (xs.drop (idx + 1)) (idx + 1)
                  (fun j hj1 hj2 hc => absurd (hL j hc) (by omega)),
                advSpec_not_mem f (idx :: L) (xs.drop (idx + 1)) (idx + 1)
                  (fun j hj1 hj2 hc => by
                    rcases List.mem_cons.1 hc with rfl | hc2
                    · omega
                    · exact absurd (hL j hc2) (by omega))]
            rw [he1, he2]
          rw [hkey]

theorem range_map_getD : ∀ (l : List Nat),
    (List.range l.length).map (fun i => l.getD i 0) = l
  | [] => rfl
  | a :: l => by
      rw [List.length_cons, List.range_succ_eq_map, List.map_cons, List.map_map]
      refine congrArg (a :: ·) ?_
      have hmc : List.map ((fun i => (a :: l).getD i 0) ∘ Nat.succ) (List.range l.length) =
          List.map (fun i => l.getD i 0) (List.range l.length) :=
        List.map_congr_left (fun i _ => by
          simp only [Function.comp_apply, List.getD_cons_succ])
      rw [hmc, range_map_getD l]

theorem range_reverse_map_getD_eq (buf l : List Nat)
    (h : ∀ p, p < l.length → buf.getD p 0 = l.getD p 0) :
    (List.range l.length).reverse.map (fun q => buf.getD q 0) = l.reverse := by
  have h2 : (List.range l.length).map (fun q => buf.getD q 0) =
      (List.range l.length).map (fun i => l.getD i 0) :=
    List.map_congr_left (fun q hq => h q (List.mem_range.1 hq))
  rw [List.map_reverse, h2, range_map_getD]

theorem innerAdvance_eq_advVals (buf : List Nat) :
    ∀ (p : Nat) (decs : List inner_dec),
      innerAdvance buf p decs =
        advVals innerNextD ((List.range p).reverse.map (fun q => buf.getD q 0)) decs
  | 0, decs => rfl
  | p + 1, decs => by
      have hr : (List.range (p + 1)).reverse.map (fun q => buf.getD q 0) =
          buf.getD p 0 :: (List.range p).reverse.map (fun q => buf.getD q 0) := by
        rw [List.range_succ, List.reverse_append, List.reverse_cons, List.reverse_nil,
          List.nil_append, List.singleton_append, List.map_cons]
      rw [hr]
      have eL : innerAdvance buf (p + 1) decs =
          (if ((decs.getD (buf.getD p 0) default).docs.tail).isEmpty then
            (if (decs.eraseIdx (buf.getD p 0)).isEmpty then none
             else innerAdvance buf p (decs.eraseIdx (buf.getD p 0)))
           else innerAdvance buf p (decs.set (buf.getD p 0)
             { decs.getD (buf.getD p 0) default with
               docs := (decs.getD (buf.getD p 0) default).docs.tail })) := rfl
      rw [eL]
      by_cases h : ((decs.getD (buf.getD p 0) default).docs.tail).isEmpty
      · rw [if_pos h, advVals_cons_none innerNextD (buf.getD p 0) _ decs
          (by rw [innerNextD, if_pos h])]
        by_cases h2 : (decs.eraseIdx (buf.getD p 0)).isEmpty
        · rw [if_pos h2, if_pos h2]
        · rw [if_neg h2, if_neg h2]
          exact innerAdvance_eq_advVals buf p _
      · rw [if_neg h, advVals_cons_some innerNextD (buf.getD p 0) _ decs
          { decs.getD (buf.getD p 0) default with
            docs := (decs.getD (buf.getD p 0) default).docs.tail }
          (by rw [innerNextD, if_neg h])]
        exact innerAdvance_eq_advVals buf p _

theorem outerAdvance_eq_advVals (buf : List Nat) :
    ∀ (p : Nat) (ws : List tracked_candidate),
      outerAdvance buf p ws =
        advVals outerNextT ((List.range p).reverse.map (fun q => buf.getD q 0)) ws
  | 0, ws => rfl
  | p + 1, ws => by
      have hr : (List.range (p + 1)).reverse.map (fun q => buf.getD q 0) =
          buf.getD p 0 :: (List.range p).reverse.map (fun q => buf.getD q 0) := by
        rw [List.range_succ, List.reverse_append, List.reverse_cons, List.reverse_nil,
          List.nil_append, List.singleton_append, List.map_cons]
      rw [hr]
      have eL : outerAdvance buf (p + 1) ws =
          (if ((((ws.getD (buf.getD p 0) default).candidate.terms.getD []).tail).isEmpty) then
            (if (ws.eraseIdx (buf.getD p 0)).isEmpty then none
             else outerAdvance buf p (ws.eraseIdx (buf.getD p 0)))
           else outerAdvance buf p (ws.set (buf.getD p 0)
             { ws.getD (buf.getD p 0) default with
               candidate := { (ws.getD (buf.getD p 0) default).candidate with
                 terms := some (((ws.getD (buf.getD p 0) default).candidate.terms.getD []).tail) } })) := rfl
      rw [eL]
      by_cases h : ((((ws.getD (buf.getD p 0) default).candidate.terms.getD []).tail).isEmpty)
      · rw [if_pos h, advVals_cons_none outerNextT (buf.getD p 0) _ ws
          (by rw [outerNextT, if_pos h])]
        by_cases h2 : (ws.eraseIdx (buf.getD p 0)).isEmpty
        · rw [if_pos h2, if_pos h2]
        · rw [if_neg h2, if_neg h2]
          exact outerAdvance_eq_advVals buf p _
      · rw [if_neg h, advVals_cons_some outerNextT (buf.getD p 0) _ ws
          { ws.getD (buf.getD p 0) default with
            candidate := { (ws.getD (buf.getD p 0) default).candidate with
              terms := some (((ws.getD (buf.getD p 0) default).candidate.terms.getD []).tail) } }
          (by rw [outerNextT, if_neg h])]
        exact outerAdvance_eq_advVals buf p _

/-! ## C1: characterizing the inner selection scan -/

theorem getD_set_self_nat (l : List Nat) (i v : Nat) (h : i < l.length) :
    (l.set i v).getD i 0 = v := by
  rw [List.getD_eq_getElem?_getD, List.getElem?_set_self h, Option.getD_some]

theorem getD_set_ne_nat (l : List Nat) (i j v : Nat) (h : i ≠ j) :
    (l.set i v).getD j 0 = l.getD j 0 := by
  rw [List.getD_eq_getElem?_getD, List.getElem?_set_ne h, ← List.getD_eq_getElem?_getD]

theorem tiesUpTo_zero (decs : List inner_dec) (m : Nat) :
    tiesUpTo decs 0 m = [] := rfl

theorem tiesUpTo_succ_pos (decs : List inner_dec) (k m : Nat)
    (h : (innerCur (decs.getD k default)).id = m) :
    tiesUpTo decs (k + 1) m = tiesUpTo decs k m ++ [k] := by
  simp only [tiesUpTo]
  rw [List.range_succ, List.filter_append]
  simp only [List.filter_cons, List.filter_nil]
  rw [if_pos (show ((innerCur (decs.getD k default)).id == m) = true from
    beq_iff_eq.mpr h)]

theorem tiesUpTo_succ_neg (decs : List inner_dec) (k m : Nat)
    (h : (innerCur (decs.getD k default)).id ≠ m) :
    tiesUpTo decs (k + 1) m = tiesUpTo decs k m := by
  simp only [tiesUpTo]
  rw [List.range_succ, List.filter_append]
  simp only [List.filter_cons, List.filter_nil]
  rw [if_neg (fun hc => h (beq_iff_eq.mp hc)), List.append_nil]

theorem tiesUpTo_eq_nil (decs : List inner_dec) (k m : Nat)
    (h : ∀ i, i < k → (innerCur (decs.getD i default)).id ≠ m) :
    tiesUpTo decs k m = [] := by
  simp only [tiesUpTo]
  rw [List.filter_eq_nil_iff]
  intro a ha hc
  exact h a (List.mem_range.1 ha) (beq_iff_eq.mp hc)

theorem tiesUpTo_length_le (decs : List inner_dec) (k m : Nat) :
    (tiesUpTo decs k m).length ≤ k := by
  simp only [tiesUpTo]
  have := List.length_filter_le
    (fun i => (innerCur (decs.getD i default)).id == m) (List.range k)
  rwa [List.length_range] at this

theorem innerTies_pairwise (decs : List inner_dec) (m : Nat) :
    List.Pairwise (· < ·) (innerTies decs m) := by
  simp only [innerTies, tiesUpTo]
  exact (List.pairwise_lt_range _).filter _

theorem innerTies_mem_lt (decs : List inner_dec) (m : Nat) :
    ∀ x ∈ innerTies decs m, x < decs.length := by
  intro x hx
  simp only [innerTies, tiesUpTo] at hx
  exact List.mem_range.1 (List.mem_of_mem_filter hx)

theorem innerTies_mem_iff (decs : List inner_dec) (m i : Nat) :
    i ∈ innerTies decs m ↔
      i < decs.length ∧ (innerCur (decs.getD i default)).id = m := by
  simp only [innerTies, tiesUpTo, List.mem_filter, List.mem_range, beq_iff_eq]

theorem innerSel_inv (decs : List inner_dec) (hlen : decs.length ≤ 128) :
    ∀ k, k + 1 ≤ decs.length →
      innerSelInv decs k ((List.range' 1 k).foldl (innerSelStep decs)
        ⟨(innerCur (decs.getD 0 default)).id, List.replicate 128 0, 1⟩)
  | 0, _ => by
      show innerSelInv decs 0
        ⟨(innerCur (decs.getD 0 default)).id, List.replicate 128 0, 1⟩
      refine ⟨by simp, ⟨0, Nat.le_refl 0, rfl⟩, ?_, ?_, ?_⟩
      · intro i hi
        have h0 : i = 0 := Nat.le_zero.1 hi
        subst h0
        exact Nat.le_refl _
      · show (1 : Nat) = _
        rw [tiesUpTo_succ_pos decs 0 _ rfl, tiesUpTo_zero, List.nil_append]
        rfl
      · intro p hp
        have hp0 : p = 0 := by
          have h1 : p < 1 := hp
          omega
        subst hp0
        rw [tiesUpTo_succ_pos decs 0 _ rfl, tiesUpTo_zero, List.nil_append]
        rfl
  | k + 1, hk => by
      rw [List.range'_1_concat, List.foldl_concat, Nat.add_comm 1 k]
      obtain ⟨hbl, ⟨iw, hiw, hiwid⟩, hmin, hcnt, hbuf⟩ :=
        innerSel_inv decs hlen k (by omega)
      generalize hG : (List.range' 1 k).foldl (innerSelStep decs)
        ⟨(innerCur (decs.getD 0 default)).id, List.replicate 128 0, 1⟩ = st
        at hbl hiwid hmin hcnt hbuf ⊢
      have hcntle : st.cnt ≤ k + 1 := by
        rw [hcnt]
        exact tiesUpTo_length_le decs (k + 1) _
      have hcntlt : st.cnt < 128 := by omega
      simp only [innerSelStep]
      by_cases h1 : (innerCur (decs.getD (k + 1) default)).id < st.lowestDID
      · rw [if_pos h1]
        have hninprev : ∀ i, i < k + 1 →
            (innerCur (decs.getD i default)).id ≠
              (innerCur (decs.getD (k + 1) default)).id := by
          intro i hi hc
          have := hmin i (by omega)
          omega
        refine ⟨?_, ⟨k + 1, Nat.le_refl _, rfl⟩, ?_, ?_, ?_⟩
        · show (st.buf.set 0 (k + 1)).length = 128
          rw [List.length_set]
          exact hbl
        · intro i hi
          show (innerCur (decs.getD (k + 1) default)).id ≤ _
          by_cases hik : i ≤ k
          · exact Nat.le_trans (Nat.le_of_lt h1) (hmin i hik)
          · have hie : i = k + 1 := by omega
            subst hie
            exact Nat.le_refl _
        · show (1 : Nat) = _
          rw [tiesUpTo_succ_pos decs (k + 1) _ rfl,
            tiesUpTo_eq_nil decs (k + 1) _ hninprev, List.nil_append]
          rfl
        · intro p hp
          have hp0 : p = 0 := by
            have h2 : p < 1 := hp
            omega
          subst hp0
          show (st.buf.set 0 (k + 1)).getD 0 0 = _
          rw [tiesUpTo_succ_pos decs (k + 1) _ rfl,
            tiesUpTo_eq_nil decs (k + 1) _ hninprev, List.nil_append,
            getD_set_self_nat st.buf 0 (k + 1) (by rw [hbl]; omega)]
          rfl
      · rw [if_neg h1]
        by_cases h2 : (innerCur (decs.getD (k + 1) default)).id = st.lowestDID
        · rw [if_pos h2]
          refine ⟨?_, ⟨iw, Nat.le_trans hiw (by omega), hiwid⟩, ?_, ?_, ?_⟩
          · show (st.buf.set st.cnt (k + 1)).length = 128
            rw [List.length_set]
            exact hbl
          · intro i hi
            show st.lowestDID ≤ _
            by_cases hik : i ≤ k
            · exact hmin i hik
            · have hie : i = k + 1 := by omega
              subst hie
              exact Nat.le_of_eq h2.symm
          · show st.cnt + 1 = _
            rw [tiesUpTo_succ_pos decs (k + 1) _ h2, List.length_append, ← hcnt]
            rfl
          · intro p hp
            have hp' : p < st.cnt + 1 := hp
            show (st.buf.set st.cnt (k + 1)).getD p 0 = _
            rw [tiesUpTo_succ_pos decs (k + 1) _ h2]
            by_cases hpc : p < st.cnt
            · rw [getD_set_ne_nat st.buf st.cnt p (k + 1) (by omega),
                List.getD_append _ _ _ _ (by rw [← hcnt]; exact hpc)]
              exact hbuf p hpc
            · have hpe : p = st.cnt := by omega
              rw [hpe, getD_set_self_nat st.buf st.cnt (k + 1) (by rw [hbl]; exact hcntlt),
                List.getD_append_right _ _ _ _ (Nat.le_of_eq hcnt.symm),
                show st.cnt - (tiesUpTo decs (k + 1) st.lowestDID).length = 0 from by
                  rw [← hcnt]; omega]
              rfl
        · rw [if_neg h2]
          have hties : tiesUpTo decs (k + 1 + 1) st.lowestDID =
              tiesUpTo decs (k + 1) st.lowestDID :=
            tiesUpTo_succ_neg decs (k + 1) _ h2
          refine ⟨hbl, ⟨iw, Nat.le_trans hiw (by omega), hiwid⟩, ?_, ?_, ?_⟩
          · intro i hi
            by_cases hik : i ≤ k
            · exact hmin i hik
            · have hie : i = k + 1 := by omega
              subst hie
              exact Nat.le_of_not_lt h1
          · rw [hties]
            exact hcnt
          · intro p hp
            rw [hties]
            exact hbuf p hp

theorem innerSelect_char (decs : List inner_dec) (hne : decs ≠ [])
    (hlen : decs.length ≤ 128) :
    (innerSelect decs).buf.length = 128 ∧
    (∃ i, i < decs.length ∧
      (innerCur (decs.getD i default)).id = (innerSelect decs).lowestDID) ∧
    (∀ i, i < decs.length →
      (innerSelect decs).lowestDID ≤ (innerCur (decs.getD i default)).id) ∧
    (innerSelect decs).cnt = (innerTies decs (innerSelect decs).lowestDID).length ∧
    (∀ p, p < (innerSelect decs).cnt →
      (innerSelect decs).buf.getD p 0 =
        (innerTies decs (innerSelect decs).lowestDID).getD p 0) := by
  have hlen1 : 0 < decs.length := List.length_pos.2 hne
  have h := innerSel_inv decs hlen (decs.length - 1) (by omega)
  obtain ⟨hbl, ⟨i, hi, hid⟩, hmin, hcnt, hbuf⟩ := h
  rw [show decs.length - 1 + 1 = decs.length from by omega] at hcnt hbuf
  exact ⟨hbl, ⟨i, by omega, hid⟩, fun j hj => hmin j (by omega), hcnt, hbuf⟩

theorem innerAdvance_char (decs : List inner_dec) (hne : decs ≠ [])
    (hlen : decs.length ≤ 128) :
    innerAdvance (innerSelect decs).buf (innerSelect decs).cnt decs =
      (if (advSpec innerNextD (innerTies decs (innerSelect decs).lowestDID)
            0 decs).isEmpty
       then none
       else some (advSpec innerNextD
         (innerTies decs (innerSelect decs).lowestDID) 0 decs)) := by
  obtain ⟨hbl, hex, hmin, hcnt, hbuf⟩ := innerSelect_char decs hne hlen
  rw [innerAdvance_eq_advVals]
  have hlist : (List.range (innerSelect decs).cnt).reverse.map
      (fun q => (innerSelect decs).buf.getD q 0) =
      (innerTies decs (innerSelect decs).lowestDID).reverse := by
    rw [hcnt]
    exact range_reverse_map_getD_eq _ _
      (fun p hp => hbuf p (by rw [hcnt]; exact hp))
  rw [hlist]
  have hrev : advSpec innerNextD
      (innerTies decs (innerSelect decs).lowestDID).reverse 0 decs =
      advSpec innerNextD (innerTies decs (innerSelect decs).lowestDID) 0 decs :=
    advSpec_congr_mem _ _ _ decs 0 (fun j _ _ => List.mem_reverse)
  rw [advVals_eq_advSpec innerNextD _ decs
    (List.pairwise_reverse.2 (innerTies_pairwise decs _))
    (fun v hv => innerTies_mem_lt decs _ v (List.mem_reverse.1 hv))
    hne, hrev]

theorem innerLoop_succ_none (fuel : Nat) (decs : List inner_dec)
    (h : innerAdvance (innerSelect decs).buf (innerSelect decs).cnt decs = none) :
    innerLoop (fuel + 1) decs =
      (if registryTest (decs.getD ((innerSelect decs).buf.getD 0 0) default).reg
          (innerSelect decs).lowestDID then []
       else [⟨(innerSelect decs).lowestDID,
         (innerCur (decs.getD ((innerSelect decs).buf.getD 0 0) default)).hits,
         (decs.getD ((innerSelect decs).buf.getD 0 0) default).src⟩]) := by
  have e : innerLoop (fuel + 1) decs =
      (match innerAdvance (innerSelect decs).buf (innerSelect decs).cnt decs with
       | none =>
           (if registryTest
               (decs.getD ((innerSelect decs).buf.getD 0 0) default).reg
               (innerSelect decs).lowestDID then none
            else some ⟨(innerSelect decs).lowestDID,
              (innerCur (decs.getD ((innerSelect decs).buf.getD 0 0) default)).hits,
              (decs.getD ((innerSelect decs).buf.getD 0 0) default).src⟩).toList
       | some decs' =>
           (if registryTest
               (decs.getD ((innerSelect decs).buf.getD 0 0) default).reg
               (innerSelect decs).lowestDID then none
            else some ⟨(innerSelect decs).lowestDID,
              (innerCur (decs.getD ((innerSelect decs).buf.getD 0 0) default)).hits,
              (decs.getD ((innerSelect decs).buf.getD 0 0) default).src⟩).toList ++
            innerLoop fuel decs') := rfl
  rw [e, h]
  by_cases hreg : registryTest
      (decs.getD ((innerSelect decs).buf.getD 0 0) default).reg
      (innerSelect decs).lowestDID
  · rw [if_pos hreg, if_pos hreg]
    rfl
  · rw [if_neg hreg, if_neg hreg]
    rfl

theorem innerLoop_succ_some (fuel : Nat) (decs decs' : List inner_dec)
    (h : innerAdvance (innerSelect decs).buf (innerSelect decs).cnt decs =
      some decs') :
    innerLoop (fuel + 1) decs =
      (if registryTest (decs.getD ((innerSelect decs).buf.getD 0 0) default).reg
          (innerSelect decs).lowestDID then []
       else [⟨(innerSelect decs).lowestDID,
         (innerCur (decs.getD ((innerSelect decs).buf.getD 0 0) default)).hits,
         (decs.getD ((innerSelect decs).buf.getD 0 0) default).src⟩]) ++
      innerLoop fuel decs' := by
  have e : innerLoop (fuel + 1) decs =
      (match innerAdvance (innerSelect decs).buf (innerSelect decs).cnt decs with
       | none =>
           (if registryTest
               (decs.getD ((innerSelect decs).buf.getD 0 0) default).reg
               (innerSelect decs).lowestDID then none
            else some ⟨(innerSelect decs).lowestDID,
              (innerCur (decs.getD ((innerSelect decs).buf.getD 0 0) default)).hits,
              (decs.getD ((innerSelect decs).buf.getD 0 0) default).src⟩).toList
       | some ds =>
           (if registryTest
               (decs.getD ((innerSelect decs).buf.getD 0 0) default).reg
               (innerSelect decs).lowestDID then none
            else some ⟨(innerSelect decs).lowestDID,
              (innerCur (decs.getD ((innerSelect decs).buf.getD 0 0) default)).hits,
              (decs.getD ((innerSelect decs).buf.getD 0 0) default).src⟩).toList ++
            innerLoop fuel ds) := rfl
  rw [e, h]
  by_cases hreg : registryTest
      (decs.getD ((innerSelect decs).buf.getD 0 0) default).reg
      (innerSelect decs).lowestDID
  · rw [if_pos hreg, if_pos hreg]
    rfl
  · rw [if_neg hreg, if_neg hreg]
    rfl

theorem innerAdvSpec_valid (decs : List inner_dec)
    (hval : ∀ d ∈ decs, d.docs ≠ [] ∧
      List.Chain' (· < ·) (d.docs.map (fun r => r.id)))
    (hmin : ∀ i, i < decs.length →
      (innerSelect decs).lowestDID ≤ (innerCur (decs.getD i default)).id) :
    ∀ x ∈ advSpec innerNextD (innerTies decs (innerSelect decs).lowestDID) 0 decs,
      (x.docs ≠ [] ∧ List.Chain' (· < ·) (x.docs.map (fun r => r.id))) ∧
      (innerSelect decs).lowestDID < (innerCur x).id := by
  refine advSpec_forall innerNextD (innerTies decs (innerSelect decs).lowestDID)
    (fun x => (x.docs ≠ [] ∧ List.Chain' (· < ·) (x.docs.map (fun r => r.id))) ∧
      (innerSelect decs).lowestDID < (innerCur x).id) decs 0 ?_ ?_
  · intro j hj hjm y hfy
    have hget : decs.getD j default = decs.get ⟨j, hj⟩ := by
      rw [List.getD_eq_getElem decs default hj]
      rfl
    have hmem : decs.get ⟨j, hj⟩ ∈ decs := List.get_mem decs j hj
    obtain ⟨hdne, hdch⟩ := hval _ hmem
    have htne : ¬ ((decs.get ⟨j, hj⟩).docs.tail.isEmpty = true) := by
      intro hc
      rw [innerNextD, if_pos hc] at hfy
      exact Option.noConfusion hfy
    have hy : y = { decs.get ⟨j, hj⟩ with
        docs := (decs.get ⟨j, hj⟩).docs.tail } := by
      rw [innerNextD, if_neg htne] at hfy
      exact (Option.some.inj hfy).symm
    subst hy
    have hjm' : j ∈ innerTies decs (innerSelect decs).lowestDID := by
      simpa using hjm
    have hjid : (innerCur (decs.getD j default)).id = (innerSelect decs).lowestDID :=
      ((innerTies_mem_iff decs _ j).1 hjm').2
    rw [hget] at hjid
    cases hdocs : (decs.get ⟨j, hj⟩).docs with
    | nil => exact absurd hdocs hdne
    | cons r0 ds =>
        cases hds : ds with
        | nil =>
            exfalso
            subst hds
            rw [hdocs] at htne
            exact htne rfl
        | cons r1 rest =>
            subst hds
            constructor
            · constructor
              · exact List.cons_ne_nil r1 rest
              · have hch2 := hdch
                rw [hdocs] at hch2
                simp only [List.map_cons] at hch2
                exact (List.chain'_cons.1 hch2).2
            · have hm0 : (innerSelect decs).lowestDID = r0.id := by
                simp only [innerCur] at hjid
                rw [hdocs] at hjid
                exact hjid.symm
              have hch2 := hdch
              rw [hdocs] at hch2
              simp only [List.map_cons] at hch2
              have hlt : r0.id < r1.id := (List.chain'_cons.1 hch2).1
              rw [hm0]
              exact hlt
  · intro j hj hjm
    have hget : decs.getD j default = decs.get ⟨j, hj⟩ := by
      rw [List.getD_eq_getElem decs default hj]
      rfl
    have hmem : decs.get ⟨j, hj⟩ ∈ decs := List.get_mem decs j hj
    refine ⟨hval _ hmem, ?_⟩
    have h1 := hmin j hj
    have hne2 : (innerCur (decs.getD j default)).id ≠
        (innerSelect decs).lowestDID := by
      intro hc
      exact hjm (by simpa using (innerTies_mem_iff decs _ j).2 ⟨hj, hc⟩)
    rw [hget] at h1 hne2
    exact Nat.lt_of_le_of_ne h1 (Ne.symm hne2)

theorem innerLoop_sorted :
    ∀ (fuel : Nat) (decs : List inner_dec), decs ≠ [] → decs.length ≤ 128 →
      (∀ d ∈ decs, d.docs ≠ [] ∧
        List.Chain' (· < ·) (d.docs.map (fun r => r.id))) →
      List.Chain' (· < ·) ((innerLoop fuel decs).map (fun o => o.id)) ∧
      (∀ x ∈ innerLoop fuel decs, (innerSelect decs).lowestDID ≤ x.id)
  | 0, decs, _, _, _ =>
      ⟨List.chain'_nil, fun x hx => absurd hx (List.not_mem_nil x)⟩
  | fuel + 1, decs, hne, hlen, hval => by
      obtain ⟨hbl, hex, hmin, hcnt, hbuf⟩ := innerSelect_char decs hne hlen
      have hadv := innerAdvance_char decs hne hlen
      by_cases hemp : (advSpec innerNextD
          (innerTies decs (innerSelect decs).lowestDID) 0 decs).isEmpty
      · have hnone : innerAdvance (innerSelect decs).buf (innerSelect decs).cnt
            decs = none := by
          rw [hadv, if_pos hemp]
        rw [innerLoop_succ_none fuel decs hnone]
        constructor
        · by_cases hreg : registryTest
              (decs.getD ((innerSelect decs).buf.getD 0 0) default).reg
              (innerSelect decs).lowestDID
          · rw [if_pos hreg]
            exact List.chain'_nil
          · rw [if_neg hreg]
            exact List.chain'_singleton _
        · intro x hx
          by_cases hreg : registryTest
              (decs.getD ((innerSelect decs).buf.getD 0 0) default).reg
              (innerSelect decs).lowestDID
          · rw [if_pos hreg] at hx
            exact absurd hx (List.not_mem_nil x)
          · rw [if_neg hreg] at hx
            have hx1 := List.mem_singleton.1 hx
            subst hx1
            exact Nat.le_refl _
      · have hsome : innerAdvance (innerSelect decs).buf (innerSelect decs).cnt
            decs = some (advSpec innerNextD
              (innerTies decs (innerSelect decs).lowestDID) 0 decs) := by
          rw [hadv, if_neg hemp]
        rw [innerLoop_succ_some fuel decs _ hsome]
        have hP := innerAdvSpec_valid decs hval hmin
        have hne' : advSpec innerNextD
            (innerTies decs (innerSelect decs).lowestDID) 0 decs ≠ [] :=
          fun hc => hemp (by rw [hc]; rfl)
        have hlen' : (advSpec innerNextD
            (innerTies decs (innerSelect decs).lowestDID) 0 decs).length ≤ 128 :=
          Nat.le_trans (advSpec_length_le _ _ decs 0) hlen
        generalize hG : advSpec innerNextD
            (innerTies decs (innerSelect decs).lowestDID) 0 decs = ds
          at hP hne' hlen' ⊢
        have hval' : ∀ d ∈ ds, d.docs ≠ [] ∧
            List.Chain' (· < ·) (d.docs.map (fun r => r.id)) :=
          fun d hd => (hP d hd).1
        obtain ⟨ihchain, ihlb⟩ := innerLoop_sorted fuel ds hne' hlen' hval'
        obtain ⟨hbl2, ⟨i2, hi2, hid2⟩, hmin2, hcnt2, hbuf2⟩ :=
          innerSelect_char ds hne' hlen'
        have hmem2 : ds.getD i2 default ∈ ds := by
          rw [List.getD_eq_getElem ds default hi2]
          exact List.getElem_mem _
        have hmm : (innerSelect decs).lowestDID < (innerSelect ds).lowestDID := by
          rw [← hid2]
          exact (hP _ hmem2).2
        constructor
        · rw [List.map_append, List.chain'_append]
          refine ⟨?_, ihchain, ?_⟩
          · by_cases hreg : registryTest
                (decs.getD ((innerSelect decs).buf.getD 0 0) default).reg
                (innerSelect decs).lowestDID
            · rw [if_pos hreg]
              exact List.chain'_nil
            · rw [if_neg hreg]
              exact List.chain'_singleton _
          · intro a ha b hb
            by_cases hreg : registryTest
                (decs.getD ((innerSelect decs).buf.getD 0 0) default).reg
                (innerSelect decs).lowestDID
            · rw [if_pos hreg] at ha
              simp at ha
            · rw [if_neg hreg] at ha
              have ha2 : (innerSelect decs).lowestDID = a := by simpa using ha
              subst ha2
              have hbmem : b ∈ (innerLoop fuel ds).map (fun o => o.id) :=
                List.mem_of_mem_head? hb
              obtain ⟨o, ho, rfl⟩ := List.mem_map.1 hbmem
              exact Nat.lt_of_lt_of_le hmm (ihlb o ho)
        · intro x hx
          rcases List.mem_append.1 hx with hx1 | hx2
          · by_cases hreg : registryTest
                (decs.getD ((innerSelect decs).buf.getD 0 0) default).reg
                (innerSelect decs).lowestDID
            · rw [if_pos hreg] at hx1
              exact absurd hx1 (List.not_mem_nil x)
            · rw [if_neg hreg] at hx1
              have hx3 := List.mem_singleton.1 hx1
              subst hx3
              exact Nat.le_refl _
          · exact Nat.le_trans (Nat.le_of_lt hmm) (ihlb x hx2)

/-- C1: the inner document-level merge of the slow multi-candidate path.
For decoders over the selected term (all non-empty, within the 128-decoder
capacity, each producing strictly ascending document ids, as codec decoders
do): (1) the selection scan finds the lowest current document id across the
decoders; (2) `innerTies` is exactly the set of working positions whose
decoder sits at that id; (3) the first tie position is the lowest such
working-set index (the newest generation); (4) one iteration of the loop
emits — unless its registry masks the id — exactly one document carrying
that id with the hits and source of the lowest-index tied decoder, then
advances every tied decoder, dropping the exhausted ones; (5) the emitted
document ids are strictly ascending, hence each id appears at most once. -/
theorem claim_C1_inner_doc_merge (decs : List inner_dec) (fuel : Nat)
    (hne : decs ≠ []) (hlen : decs.length ≤ 128)
    (hval : ∀ d ∈ decs, d.docs ≠ [] ∧
      List.Chain' (· < ·) (d.docs.map (fun r => r.id))) :
    (∀ i, i < decs.length →
      (innerSelect decs).lowestDID ≤ (innerCur (decs.getD i default)).id) ∧
    (∀ i, i ∈ innerTies decs (innerSelect decs).lowestDID ↔
      (i < decs.length ∧
        (innerCur (decs.getD i default)).id = (innerSelect decs).lowestDID)) ∧
    (∀ i ∈ innerTies decs (innerSelect decs).lowestDID,
      (innerTies decs (innerSelect decs).lowestDID).getD 0 0 ≤ i) ∧
    (innerLoop (fuel + 1) decs =
      (if registryTest
          (decs.getD ((innerTies decs (innerSelect decs).lowestDID).getD 0 0)
            default).reg (innerSelect decs).lowestDID then []
       else [⟨(innerSelect decs).lowestDID,
         (innerCur (decs.getD
           ((innerTies decs (innerSelect decs).lowestDID).getD 0 0)
           default)).hits,
         (decs.getD ((innerTies decs (innerSelect decs).lowestDID).getD 0 0)
           default).src⟩]) ++
      (if (advSpec innerNextD (innerTies decs (innerSelect decs).lowestDID)
            0 decs).isEmpty then []
       else innerLoop fuel
         (advSpec innerNextD (innerTies decs (innerSelect decs).lowestDID)
           0 decs))) ∧
    List.Chain' (· < ·) ((innerLoop fuel decs).map (fun o => o.id)) := by
  obtain ⟨hbl, hex, hmin, hcnt, hbuf⟩ := innerSelect_char decs hne hlen
  have hadv := innerAdvance_char decs hne hlen
  have htne : innerTies decs (innerSelect decs).lowestDID ≠ [] := by
    obtain ⟨i, hi, hid⟩ := hex
    intro hc
    have hmem : i ∈ innerTies decs (innerSelect decs).lowestDID :=
      (innerTies_mem_iff decs _ i).2 ⟨hi, hid⟩
    rw [hc] at hmem
    exact absurd hmem (List.not_mem_nil i)
  have hcnt0 : 0 < (innerSelect decs).cnt := by
    rw [hcnt]
    exact List.length_pos.2 htne
  have hb0 : (innerSelect decs).buf.getD 0 0 =
      (innerTies decs (innerSelect decs).lowestDID).getD 0 0 := hbuf 0 hcnt0
  refine ⟨hmin, fun i => innerTies_mem_iff decs _ i, ?_, ?_,
    (innerLoop_sorted fuel decs hne hlen hval).1⟩
  · intro i hi
    have hpw := innerTies_pairwise decs (innerSelect decs).lowestDID
    cases hties : innerTies decs (innerSelect decs).lowestDID with
    | nil =>
        rw [hties] at hi
        exact absurd hi (List.not_mem_nil i)
    | cons h t =>
        rw [hties] at hi hpw
        rcases List.mem_cons.1 hi with rfl | hi2
        · exact Nat.le_refl _
        · exact Nat.le_of_lt (List.rel_of_pairwise_cons hpw hi2)
  · by_cases hemp : (advSpec innerNextD
        (innerTies decs (innerSelect decs).lowestDID) 0 decs).isEmpty
    · have hnone : innerAdvance (innerSelect decs).buf (innerSelect decs).cnt
          decs = none := by
        rw [hadv, if_pos hemp]
      rw [innerLoop_succ_none fuel decs hnone, hb0, if_pos hemp,
        List.append_nil]
    · have hsome : innerAdvance (innerSelect decs).buf (innerSelect decs).cnt
          decs = some (advSpec innerNextD
            (innerTies decs (innerSelect decs).lowestDID) 0 decs) := by
        rw [hadv, if_neg hemp]
      rw [innerLoop_succ_some fuel decs _ hsome, hb0, if_neg hemp]

/-- C1 witness: on two decoders tied at document id 5, the inner merge
emits 5 once with the hits and source of the lower working-set index, then
7 and 9, in strictly ascending order. -/
theorem claim_C1_witness :
    innerLoop 3 fixC1decs = [⟨5, [], 0⟩, ⟨7, [], 1⟩, ⟨9, [], 0⟩] ∧
    List.Chain' (· < ·) ((innerLoop 3 fixC1decs).map (fun o => o.id)) :=
  ⟨by decide,
    (claim_C1_inner_doc_merge fixC1decs 3 (List.cons_ne_nil _ _) (by decide)
      (by
        intro d hd
        simp only [fixC1decs, List.mem_cons, List.not_mem_nil, or_false] at hd
        rcases hd with rfl | rfl
        · refine ⟨List.cons_ne_nil _ _, ?_⟩
          show List.Chain' (· < ·) [5, 9]
          exact List.chain'_cons.2 ⟨by omega, List.chain'_singleton _⟩
        · refine ⟨List.cons_ne_nil _ _, ?_⟩
          show List.Chain' (· < ·) [5, 7]
          exact List.chain'_cons.2 ⟨by omega, List.chain'_singleton _⟩)).2.2.2.2⟩

/-! ## C3: the order decided by `terms_cmp` -/

theorem terms_cmp_self : ∀ a : List Nat, terms_cmp a a = .eq
  | [] => rfl
  | x :: xs => by
      simp only [terms_cmp]
      rw [if_neg (Nat.lt_irrefl x), if_neg (Nat.lt_irrefl x)]
      exact terms_cmp_self xs

theorem terms_cmp_eq_iff : ∀ a b : List Nat, terms_cmp a b = .eq ↔ a = b
  | [], [] => by simp [terms_cmp]
  | [], _ :: _ => by simp [terms_cmp]
  | _ :: _, [] => by simp [terms_cmp]
  | x :: xs, y :: ys => by
      simp only [terms_cmp]
      by_cases hxy : x < y
      · rw [if_pos hxy]
        constructor
        · intro hc
          cases hc
        · intro hc
          injection hc with h1 h2
          omega
      · rw [if_neg hxy]
        by_cases hyx : y < x
        · rw [if_pos hyx]
          constructor
          · intro hc
            cases hc
          · intro hc
            injection hc with h1 h2
            omega
        · rw [if_neg hyx]
          have hxe : x = y := by omega
          subst hxe
          constructor
          · intro hc
            rw [(terms_cmp_eq_iff xs ys).1 hc]
          · intro hc
            injection hc with h1 h2
            exact (terms_cmp_eq_iff xs ys).2 h2

theorem terms_cmp_gt_iff : ∀ a b : List Nat,
    terms_cmp a b = .gt ↔ terms_cmp b a = .lt
  | [], [] => by simp [terms_cmp]
  | [], _ :: _ => by simp [terms_cmp]
  | _ :: _, [] => by simp [terms_cmp]
  | x :: xs, y :: ys => by
      simp only [terms_cmp]
      by_cases hxy : x < y
      · rw [if_pos hxy, if_neg (show ¬ y < x by omega), if_pos hxy]
        decide
      · by_cases hyx : y < x
        · rw [if_neg hxy, if_pos hyx, if_pos hyx]
          decide
        · rw [if_neg hxy, if_neg hyx, if_neg hyx, if_neg hxy]
          exact terms_cmp_gt_iff xs ys

theorem terms_cmp_lt_trans : ∀ a b c : List Nat,
    terms_cmp a b = .lt → terms_cmp b c = .lt → terms_cmp a c = .lt
  | a, b, [] => fun h1 h2 => by
      cases b with
      | nil => simp [terms_cmp] at h2
      | cons y ys => simp [terms_cmp] at h2
  | [], b, _ :: _ => fun _ _ => rfl
  | x :: xs, b, z :: cs => fun h1 h2 => by
      cases b with
      | nil => simp [terms_cmp] at h1
      | cons y ys =>
          simp only [terms_cmp] at h1 h2 ⊢
          by_cases hxy : x < y
          · by_cases hyz : y < z
            · rw [if_pos (show x < z by omega)]
            · rw [if_neg hyz] at h2
              by_cases hzy : z < y
              · rw [if_pos hzy] at h2
                cases h2
              · rw [if_pos (show x < z by omega)]
          · rw [if_neg hxy] at h1
            by_cases hyx : y < x
            · rw [if_pos hyx] at h1
              cases h1
            · rw [if_neg hyx] at h1
              by_cases hyz : y < z
              · rw [if_pos (show x < z by omega)]
              · rw [if_neg hyz] at h2
                by_cases hzy : z < y
                · rw [if_pos hzy] at h2
                  cases h2
                · rw [if_neg hzy] at h2
                  rw [if_neg (show ¬ x < z by omega),
                    if_neg (show ¬ z < x by omega)]
                  exact terms_cmp_lt_trans xs ys cs h1 h2

theorem terms_cmp_cases (a b : List Nat) :
    terms_cmp a b = .lt ∨ terms_cmp a b = .eq ∨ terms_cmp a b = .gt := by
  cases terms_cmp a b with
  | lt => exact Or.inl rfl
  | eq => exact Or.inr (Or.inl rfl)
  | gt => exact Or.inr (Or.inr rfl)

/-- From `T < m` and `m ≤ x` (as `terms_cmp` facts) conclude `T < x`. -/
theorem termLt_of_lt_of_not_lt {T m x : List Nat} (h1 : termLt T m)
    (h2 : terms_cmp x m ≠ .lt) : termLt T x := by
  rcases terms_cmp_cases x m with hc | hc | hc
  · exact absurd hc h2
  · rw [(terms_cmp_eq_iff x m).1 hc]
    exact h1
  · exact terms_cmp_lt_trans T m x h1 ((terms_cmp_gt_iff x m).1 hc)

/-! ## C3: the tie positions of the outer selection scan -/

theorem otiesUpTo_zero (ws : List tracked_candidate) (T : List Nat) :
    otiesUpTo ws 0 T = [] := rfl

theorem otiesUpTo_succ_pos (ws : List tracked_candidate) (k : Nat)
    (T : List Nat) (h : (wcur (ws.getD k default)).1 = T) :
    otiesUpTo ws (k + 1) T = otiesUpTo ws k T ++ [k] := by
  simp only [otiesUpTo]
  rw [List.range_succ, List.filter_append]
  simp only [List.filter_cons, List.filter_nil]
  rw [if_pos (show ((wcur (ws.getD k default)).1 == T) = true from
    beq_iff_eq.mpr h)]

theorem otiesUpTo_succ_neg (ws : List tracked_candidate) (k : Nat)
    (T : List Nat) (h : (wcur (ws.getD k default)).1 ≠ T) :
    otiesUpTo ws (k + 1) T = otiesUpTo ws k T := by
  simp only [otiesUpTo]
  rw [List.range_succ, List.filter_append]
  simp only [List.filter_cons, List.filter_nil]
  rw [if_neg (fun hc => h (beq_iff_eq.mp hc)), List.append_nil]

theorem otiesUpTo_eq_nil (ws : List tracked_candidate) (k : Nat)
    (T : List Nat) (h : ∀ i, i < k → (wcur (ws.getD i default)).1 ≠ T) :
    otiesUpTo ws k T = [] := by
  simp only [otiesUpTo]
  rw [List.filter_eq_nil_iff]
  intro a ha hc
  exact h a (List.mem_range.1 ha) (beq_iff_eq.mp hc)

theorem otiesUpTo_length_le (ws : List tracked_candidate) (k : Nat)
    (T : List Nat) : (otiesUpTo ws k T).length ≤ k := by
  simp only [otiesUpTo]
  have := List.length_filter_le
    (fun i => (wcur (ws.getD i default)).1 == T) (List.range k)
  rwa [List.length_range] at this

theorem outerTies_pairwise (ws : List tracked_candidate) (T : List Nat) :
    List.Pairwise (· < ·) (outerTies ws T) := by
  simp only [outerTies, otiesUpTo]
  exact (List.pairwise_lt_range _).filter _

theorem outerTies_mem_lt (ws : List tracked_candidate) (T : List Nat) :
    ∀ x ∈ outerTies ws T, x < ws.length := by
  intro x hx
  simp only [outerTies, otiesUpTo] at hx
  exact List.mem_range.1 (List.mem_of_mem_filter hx)

theorem outerTies_mem_iff (ws : List tracked_candidate) (T : List Nat)
    (i : Nat) :
    i ∈ outerTies ws T ↔
      i < ws.length ∧ (wcur (ws.getD i default)).1 = T := by
  simp only [outerTies, otiesUpTo, List.mem_filter, List.mem_range, beq_iff_eq]

/-! ## C3: the outer selection scan -/

theorem selStep_lt (ws : List tracked_candidate) (st : sel_state) (i : Nat)
    (h : terms_cmp (wcur (ws.getD i default)).1 st.selected.1 = .lt) :
    selStep ws st i =
      { selected := wcur (ws.getD i default),
        codec := wcodec (ws.getD i default), sameCODEC := true,
        buf := st.buf.set 0 i, cnt := 1 } := by
  have e : selStep ws st i =
      (match terms_cmp (wcur (ws.getD i default)).1 st.selected.1 with
       | .lt =>
           { selected := wcur (ws.getD i default),
             codec := wcodec (ws.getD i default), sameCODEC := true,
             buf := st.buf.set 0 i, cnt := 1 }
       | .eq =>
           { st with
             sameCODEC :=
               if st.sameCODEC ∧ wcodec (ws.getD i default) ≠ st.codec then
                 false
               else st.sameCODEC,
             buf := st.buf.set st.cnt i, cnt := (st.cnt + 1) % 256 }
       | .gt => st) := rfl
  rw [e, h]

theorem selStep_eq (ws : List tracked_candidate) (st : sel_state) (i : Nat)
    (h : terms_cmp (wcur (ws.getD i default)).1 st.selected.1 = .eq) :
    selStep ws st i =
      { st with
        sameCODEC :=
          if st.sameCODEC ∧ wcodec (ws.getD i default) ≠ st.codec then false
          else st.sameCODEC,
        buf := st.buf.set st.cnt i, cnt := (st.cnt + 1) % 256 } := by
  have e : selStep ws st i =
      (match terms_cmp (wcur (ws.getD i default)).1 st.selected.1 with
       | .lt =>
           { selected := wcur (ws.getD i default),
             codec := wcodec (ws.getD i default), sameCODEC := true,
             buf := st.buf.set 0 i, cnt := 1 }
       | .eq =>
           { st with
             sameCODEC :=
               if st.sameCODEC ∧ wcodec (ws.getD i default) ≠ st.codec then
                 false
               else st.sameCODEC,
             buf := st.buf.set st.cnt i, cnt := (st.cnt + 1) % 256 }
       | .gt => st) := rfl
  rw [e, h]

theorem selStep_gt (ws : List tracked_candidate) (st : sel_state) (i : Nat)
    (h : terms_cmp (wcur (ws.getD i default)).1 st.selected.1 = .gt) :
    selStep ws st i = st := by
  have e : selStep ws st i =
      (match terms_cmp (wcur (ws.getD i default)).1 st.selected.1 with
       | .lt =>
           { selected := wcur (ws.getD i default),
             codec := wcodec (ws.getD i default), sameCODEC := true,
             buf := st.buf.set 0 i, cnt := 1 }
       | .eq =>
           { st with
             sameCODEC :=
               if st.sameCODEC ∧ wcodec (ws.getD i default) ≠ st.codec then
                 false
               else st.sameCODEC,
             buf := st.buf.set st.cnt i, cnt := (st.cnt + 1) % 256 }
       | .gt => st) := rfl
  rw [e, h]

theorem outerSel_inv (ws : List tracked_candidate) :
    ∀ k, k + 1 ≤ ws.length →
      outerSelInv ws k ((List.range' 1 k).foldl (selStep ws)
        { selected := wcur (ws.getD 0 default),
          codec := wcodec (ws.getD 0 default), sameCODEC := true,
          buf := List.replicate ws.length 0, cnt := 1 })
  | 0, hk => by
      show outerSelInv ws 0
        { selected := wcur (ws.getD 0 default),
          codec := wcodec (ws.getD 0 default), sameCODEC := true,
          buf := List.replicate ws.length 0, cnt := 1 }
      refine ⟨by simp, ⟨0, Nat.le_refl 0, rfl⟩, ?_, ?_, ?_⟩
      · intro i hi
        have h0 : i = 0 := Nat.le_zero.1 hi
        subst h0
        show terms_cmp (wcur (ws.getD 0 default)).1
          (wcur (ws.getD 0 default)).1 ≠ .lt
        rw [terms_cmp_self]
        intro hc
        cases hc
      · show (1 : Nat) = _
        rw [otiesUpTo_succ_pos ws 0 _ rfl, otiesUpTo_zero, List.nil_append]
        rfl
      · intro t ht1 ht2
        rw [otiesUpTo_succ_pos ws 0 _ rfl, otiesUpTo_zero, List.nil_append] at ht1 ⊢
        have ht0 : t = 0 := by
          simp only [List.length_cons, List.length_nil] at ht1
          omega
        subst ht0
        show (List.replicate ws.length 0).getD (0 % 256) 0 = [0].getD 0 0
        simp
  | k + 1, hk => by
      rw [List.range'_1_concat, List.foldl_concat, Nat.add_comm 1 k]
      obtain ⟨hbl, ⟨iw, hiw, hiwid⟩, hmin, hcnt, hbuf⟩ :=
        outerSel_inv ws k (by omega)
      generalize hG : (List.range' 1 k).foldl (selStep ws)
        { selected := wcur (ws.getD 0 default),
          codec := wcodec (ws.getD 0 default), sameCODEC := true,
          buf := List.replicate ws.length 0, cnt := 1 } = st
        at hbl hiwid hmin hcnt hbuf ⊢
      have hglen : (otiesUpTo ws (k + 1) st.selected.1).length ≤ k + 1 :=
        otiesUpTo_length_le ws (k + 1) _
      rcases terms_cmp_cases (wcur (ws.getD (k + 1) default)).1 st.selected.1
        with hcmp | hcmp | hcmp
      · -- a strictly smaller term: reset the selection
        rw [selStep_lt ws st (k + 1) hcmp]
        have hninprev : ∀ i, i < k + 1 →
            (wcur (ws.getD i default)).1 ≠
              (wcur (ws.getD (k + 1) default)).1 := by
          intro i hi hc
          have h2 := hmin i (by omega)
          rw [← hc] at hcmp
          exact h2 hcmp
        refine ⟨?_, ⟨k + 1, Nat.le_refl _, rfl⟩, ?_, ?_, ?_⟩
        · show (st.buf.set 0 (k + 1)).length = ws.length
          rw [List.length_set]
          exact hbl
        · intro i hi
          show terms_cmp (wcur (ws.getD i default)).1
            (wcur (ws.getD (k + 1) default)).1 ≠ .lt
          by_cases hik : i ≤ k
          · intro hc
            exact hmin i hik (terms_cmp_lt_trans _ _ _ hc hcmp)
          · have hie : i = k + 1 := by omega
            subst hie
            rw [terms_cmp_self]
            intro hc
            cases hc
        · show (1 : Nat) = _
          rw [otiesUpTo_succ_pos ws (k + 1) _ rfl,
            otiesUpTo_eq_nil ws (k + 1) _ hninprev, List.nil_append]
          rfl
        · intro t ht1 ht2
          rw [otiesUpTo_succ_pos ws (k + 1) _ rfl,
            otiesUpTo_eq_nil ws (k + 1) _ hninprev, List.nil_append] at ht1 ⊢
          have ht0 : t = 0 := by
            simp only [List.length_cons, List.length_nil] at ht1
            omega
          subst ht0
          rw [Nat.zero_mod]
          show (st.buf.set 0 (k + 1)).getD 0 0 = [k + 1].getD 0 0
          rw [getD_set_self_nat st.buf 0 (k + 1) (by rw [hbl]; omega)]
          rfl
      · -- the same term: extend the tie group
        rw [selStep_eq ws st (k + 1) hcmp]
        have hpe : (wcur (ws.getD (k + 1) default)).1 = st.selected.1 :=
          (terms_cmp_eq_iff _ _).1 hcmp
        have hties : otiesUpTo ws (k + 1 + 1) st.selected.1 =
            otiesUpTo ws (k + 1) st.selected.1 ++ [k + 1] :=
          otiesUpTo_succ_pos ws (k + 1) _ hpe
        refine ⟨?_, ⟨iw, Nat.le_trans hiw (by omega), hiwid⟩, ?_, ?_, ?_⟩
        · show (st.buf.set st.cnt (k + 1)).length = ws.length
          rw [List.length_set]
          exact hbl
        · intro i hi
          show terms_cmp (wcur (ws.getD i default)).1 st.selected.1 ≠ .lt
          by_cases hik : i ≤ k
          · exact hmin i hik
          · have hie : i = k + 1 := by omega
            subst hie
            intro hc
            rw [hcmp] at hc
            cases hc
        · show (st.cnt + 1) % 256 = _
          rw [hties, List.length_append, hcnt]
          simp only [List.length_cons, List.length_nil]
          omega
        · intro t ht1 ht2
          rw [hties, List.length_append] at ht1 ht2
          simp only [List.length_cons, List.length_nil] at ht1 ht2
          show (st.buf.set st.cnt (k + 1)).getD (t % 256) 0 = _
          rw [hties]
          by_cases htg : t < (otiesUpTo ws (k + 1) st.selected.1).length
          · -- an older tie: its slot is untouched
            have hne2 : st.cnt ≠ t % 256 := by
              rw [hcnt]
              omega
            rw [getD_set_ne_nat st.buf st.cnt (t % 256) (k + 1) hne2,
              List.getD_append _ _ _ _ htg]
            exact hbuf t htg (by omega)
          · -- the new tie: slot `g % 256` now holds position `k + 1`
            have hte : t = (otiesUpTo ws (k + 1) st.selected.1).length := by
              omega
            have hlt2 : st.cnt < st.buf.length := by
              rw [hcnt, hbl]
              have h256 := Nat.mod_le
                (otiesUpTo ws (k + 1) st.selected.1).length 256
              omega
            have hsc : st.cnt = t % 256 := by rw [hcnt, hte]
            rw [← hsc, getD_set_self_nat st.buf st.cnt (k + 1) hlt2,
              List.getD_append_right _ _ _ _ (by omega),
              show t - (otiesUpTo ws (k + 1) st.selected.1).length = 0 from by
                omega]
            rfl
      · -- a strictly larger term: nothing changes
        rw [selStep_gt ws st (k + 1) hcmp]
        have hne2 : (wcur (ws.getD (k + 1) default)).1 ≠ st.selected.1 := by
          intro hc
          rw [hc, terms_cmp_self] at hcmp
          cases hcmp
        have hties : otiesUpTo ws (k + 1 + 1) st.selected.1 =
            otiesUpTo ws (k + 1) st.selected.1 :=
          otiesUpTo_succ_neg ws (k + 1) _ hne2
        refine ⟨hbl, ⟨iw, Nat.le_trans hiw (by omega), hiwid⟩, ?_, ?_, ?_⟩
        · intro i hi
          by_cases hik : i ≤ k
          · exact hmin i hik
          · have hie : i = k + 1 := by omega
            subst hie
            intro hc
            rw [hcmp] at hc
            cases hc
        · rw [hties]
          exact hcnt
        · intro t ht1 ht2
          rw [hties] at ht1 ht2 ⊢
          exact hbuf t ht1 ht2

/-! ## C3: more facts about the declarative advancement -/

theorem advSpec_mem_of_not_mem {α : Type} (f : α → Option α) (S : List Nat) :
    ∀ (A : List α) (i j : Nat) (hj : j < A.length), (i + j) ∉ S →
      A.get ⟨j, hj⟩ ∈ advSpec f S i A
  | [], _, j, hj, _ => absurd hj (by simp)
  | x :: A, i, 0, hj, hm => by
      have hm' : i ∉ S := by simpa using hm
      rw [advSpec_cons_neg f S i x A hm']
      exact List.mem_cons_self _ _
  | x :: A, i, j + 1, hj, hm => by
      have hm' : ((i + 1) + j) ∉ S := by
        intro hc
        exact hm (by rw [show i + (j + 1) = i + 1 + j from by omega]; exact hc)
      have hj' : j < A.length := by
        simp only [List.length_cons] at hj
        omega
      have hrec := advSpec_mem_of_not_mem f S A (i + 1) j hj' hm'
      by_cases hmem : i ∈ S
      · cases hfa : f x with
        | none =>
            rw [advSpec_cons_pos_none f S i x A hmem hfa]
            exact hrec
        | some x' =>
            rw [advSpec_cons_pos_some f S i x A x' hmem hfa]
            exact List.mem_cons_of_mem x' hrec
      · rw [advSpec_cons_neg f S i x A hmem]
        exact List.mem_cons_of_mem x hrec

theorem advSpec_countP {α : Type} [Inhabited α] (f : α → Option α)
    (S : List Nat) (Q : α → Bool) :
    ∀ (A : List α) (i : Nat),
      (∀ j (hj : j < A.length), (i + j) ∈ S →
        ∀ y, f (A.get ⟨j, hj⟩) = some y → Q y = false) →
      (advSpec f S i A).countP Q =
        (List.range A.length).countP
          (fun j => !(decide ((i + j) ∈ S)) && Q (A.getD j default))
  | [], _, _ => rfl
  | x :: A, i, h => by
      have h' : ∀ j (hj : j < A.length), ((i + 1) + j) ∈ S →
          ∀ y, f (A.get ⟨j, hj⟩) = some y → Q y = false :=
        fun j hj hm y hfy =>
          h (j + 1) (by simp only [List.length_cons]; omega)
            (by rw [show i + (j + 1) = i + 1 + j from by omega]; exact hm) y hfy
      have hrec := advSpec_countP f S Q A (i + 1) h'
      have hR : (List.range (A.length + 1)).countP
            (fun j => !(decide ((i + j) ∈ S)) && Q ((x :: A).getD j default)) =
          (List.range A.length).countP
            (fun j => !(decide (((i + 1) + j) ∈ S)) && Q (A.getD j default)) +
          (if !(decide (i ∈ S)) && Q x then 1 else 0) := by
        rw [List.range_succ_eq_map, List.countP_cons, List.countP_map]
        have hshift : (List.range A.length).countP
            ((fun j => !(decide ((i + j) ∈ S)) && Q ((x :: A).getD j default)) ∘
              Nat.succ) =
            (List.range A.length).countP
              (fun j => !(decide (((i + 1) + j) ∈ S)) && Q (A.getD j default)) := by
          refine List.countP_congr ?_
          intro j hj
          simp only [Function.comp_apply, List.getD_cons_succ]
          rw [show i + j.succ = i + 1 + j from by omega]
        rw [hshift]
        congr 1
      rw [List.length_cons, hR]
      by_cases hm : i ∈ S
      · have hmd : (!(decide (i ∈ S))) = false := by simp [hm]
        rw [show (if !(decide (i ∈ S)) && Q x then 1 else 0) = 0 from by
          rw [hmd, Bool.false_and]; rfl]
        cases hfa : f x with
        | none =>
            rw [advSpec_cons_pos_none f S i x A hm hfa, hrec]
            omega
        | some x' =>
            rw [advSpec_cons_pos_some f S i x A x' hm hfa, List.countP_cons,
              hrec]
            have hQ : Q x' = false := h 0 (by simp) (by simpa using hm) x' hfa
            rw [show (if Q x' = true then 1 else 0) = 0 from by rw [hQ]; rfl]
      · have hmd : (!(decide (i ∈ S))) = true := by simp [hm]
        rw [advSpec_cons_neg f S i x A hm, List.countP_cons, hrec, hmd,
          Bool.true_and]

theorem filter_range_getD_length {α : Type} [Inhabited α] (p : α → Bool) :
    ∀ l : List α,
      ((List.range l.length).filter (fun i => p (l.getD i default))).length =
        l.countP p
  | [] => rfl
  | x :: l => by
      simp only [List.length_cons, List.range_succ_eq_map, List.filter_cons,
        List.getD_cons_zero, List.countP_cons]
      have hmap : (List.map Nat.succ (List.range l.length)).filter
          (fun i => p ((x :: l).getD i default)) =
          List.map Nat.succ ((List.range l.length).filter
            (fun i => p (l.getD i default))) := by
        rw [List.filter_map]
        refine congrArg _ (List.filter_congr ?_)
        intro j hj
        simp only [Function.comp_apply, List.getD_cons_succ]
      by_cases hp : p x
      · rw [if_pos hp, if_pos hp]
        simp only [List.length_cons, hmap, List.length_map]
        rw [filter_range_getD_length p l]
      · rw [if_neg hp, if_neg hp]
        rw [hmap, List.length_map, filter_range_getD_length p l]
        omega

theorem take_filter_not_mem {l S : List Nat} {n : Nat}
    (hd1 : ∀ x ∈ l.take n, x ∉ S) (hd2 : ∀ x ∈ l.drop n, x ∈ S) :
    l.filter (fun j => !(decide (j ∈ S))) = l.take n := by
  conv_lhs => rw [← List.take_append_drop n l]
  rw [List.filter_append,
    List.filter_eq_self.2 (fun a ha => by simp [hd1 a ha]),
    List.filter_eq_nil_iff.2 (fun a ha hc => by
      simp only [Bool.not_eq_true', decide_eq_false_iff_not] at hc
      exact hc (hd2 a ha)),
    List.append_nil]

theorem getD_drop_nat (l : List Nat) (n p : Nat) :
    (l.drop n).getD p 0 = l.getD (n + p) 0 := by
  rw [List.getD_eq_getElem?_getD, List.getElem?_drop,
    ← List.getD_eq_getElem?_getD]

/-! ## C3: characterizing the outer selection and advancement -/

theorem outerSelect_char (ws : List tracked_candidate) (hne : ws ≠ []) :
    (outerSelect ws).buf.length = ws.length ∧
    (∃ i, i < ws.length ∧
      (wcur (ws.getD i default)).1 = (outerSelect ws).selected.1) ∧
    (∀ i, i < ws.length →
      terms_cmp (wcur (ws.getD i default)).1 (outerSelect ws).selected.1 ≠
        .lt) ∧
    (outerSelect ws).cnt =
      (outerTies ws (outerSelect ws).selected.1).length % 256 ∧
    (∀ t, t < (outerTies ws (outerSelect ws).selected.1).length →
      (outerTies ws (outerSelect ws).selected.1).length ≤ t + 256 →
      (outerSelect ws).buf.getD (t % 256) 0 =
        (outerTies ws (outerSelect ws).selected.1).getD t 0) := by
  have hlen1 : 0 < ws.length := List.length_pos.2 hne
  have h := outerSel_inv ws (ws.length - 1) (by omega)
  obtain ⟨hbl, ⟨i, hi, hid⟩, hmin, hcnt, hbuf⟩ := h
  rw [show ws.length - 1 + 1 = ws.length from by omega] at hcnt hbuf
  exact ⟨hbl, ⟨i, by omega, hid⟩, fun j hj => hmin j (by omega), hcnt, hbuf⟩

theorem outerTies_ne_nil (ws : List tracked_candidate) (hne : ws ≠ []) :
    outerTies ws (outerSelect ws).selected.1 ≠ [] := by
  obtain ⟨-, ⟨i, hi, hid⟩, -, -, -⟩ := outerSelect_char ws hne
  intro hc
  have hmem : i ∈ outerTies ws (outerSelect ws).selected.1 :=
    (outerTies_mem_iff ws _ i).2 ⟨hi, hid⟩
  rw [hc] at hmem
  exact absurd hmem (List.not_mem_nil i)

theorem outerCnt_le (ws : List tracked_candidate) (hne : ws ≠ []) :
    outerCnt ws ≤ (outerTies ws (outerSelect ws).selected.1).length ∧
    0 < outerCnt ws ∧ outerCnt ws ≤ 256 := by
  obtain ⟨-, -, -, hcnt, -⟩ := outerSelect_char ws hne
  have hg1 : 0 < (outerTies ws (outerSelect ws).selected.1).length :=
    List.length_pos.2 (outerTies_ne_nil ws hne)
  simp only [outerCnt]
  by_cases h0 : (outerSelect ws).cnt = 0
  · rw [if_pos h0]
    rw [h0] at hcnt
    omega
  · rw [if_neg h0]
    rw [hcnt] at h0 ⊢
    have := Nat.mod_le (outerTies ws (outerSelect ws).selected.1).length 256
    have := Nat.mod_lt (outerTies ws (outerSelect ws).selected.1).length
      (show 0 < 256 by omega)
    omega

theorem outerSelect_read (ws : List tracked_candidate) (hne : ws ≠ []) :
    ∀ p, p < outerCnt ws →
      (outerSelect ws).buf.getD p 0 =
        (outerTies ws (outerSelect ws).selected.1).getD
          (p + ((outerTies ws (outerSelect ws).selected.1).length -
            outerCnt ws)) 0 := by
  intro p hp
  obtain ⟨hbl, hex, hmin, hcnt, hslots⟩ := outerSelect_char ws hne
  obtain ⟨hcle, hcpos, hc256⟩ := outerCnt_le ws hne
  have hcnt' : outerCnt ws = 256 ∨
      outerCnt ws = (outerTies ws (outerSelect ws).selected.1).length % 256 := by
    simp only [outerCnt]
    by_cases h0 : (outerSelect ws).cnt = 0
    · rw [if_pos h0]
      exact Or.inl rfl
    · rw [if_neg h0, hcnt]
      exact Or.inr rfl
  have hzero : (outerSelect ws).cnt = 0 →
      (outerTies ws (outerSelect ws).selected.1).length % 256 = 0 := by
    intro h0
    rw [h0] at hcnt
    omega
  have hmod : (p + ((outerTies ws (outerSelect ws).selected.1).length -
      outerCnt ws)) % 256 = p := by
    simp only [outerCnt] at hp hcle ⊢
    by_cases h0 : (outerSelect ws).cnt = 0
    · rw [if_pos h0] at hp hcle ⊢
      have hz := hzero h0
      omega
    · rw [if_neg h0] at hp hcle ⊢
      rw [hcnt] at hp hcle ⊢
      omega
  have h1 := hslots (p + ((outerTies ws (outerSelect ws).selected.1).length -
      outerCnt ws)) (by omega) (by omega)
  rw [hmod] at h1
  exact h1

theorem outerAdvance_char (ws : List tracked_candidate) (hne : ws ≠ []) :
    outerAdvance (outerSelect ws).buf (outerCnt ws) ws =
      (if (advSpec outerNextT
            ((outerTies ws (outerSelect ws).selected.1).drop
              ((outerTies ws (outerSelect ws).selected.1).length -
                outerCnt ws)) 0 ws).isEmpty
       then none
       else some (advSpec outerNextT
         ((outerTies ws (outerSelect ws).selected.1).drop
           ((outerTies ws (outerSelect ws).selected.1).length -
             outerCnt ws)) 0 ws)) := by
  obtain ⟨hcle, hcpos, hc256⟩ := outerCnt_le ws hne
  have hSlen : ((outerTies ws (outerSelect ws).selected.1).drop
      ((outerTies ws (outerSelect ws).selected.1).length -
        outerCnt ws)).length = outerCnt ws := by
    rw [List.length_drop]
    omega
  rw [outerAdvance_eq_advVals]
  have hbufS : ∀ p, p < ((outerTies ws (outerSelect ws).selected.1).drop
      ((outerTies ws (outerSelect ws).selected.1).length -
        outerCnt ws)).length →
      (outerSelect ws).buf.getD p 0 =
        ((outerTies ws (outerSelect ws).selected.1).drop
          ((outerTies ws (outerSelect ws).selected.1).length -
            outerCnt ws)).getD p 0 := by
    intro p hp
    rw [getD_drop_nat, Nat.add_comm]
    exact outerSelect_read ws hne p (hSlen ▸ hp)
  have hlist := range_reverse_map_getD_eq ((outerSelect ws).buf)
    ((outerTies ws (outerSelect ws).selected.1).drop
      ((outerTies ws (outerSelect ws).selected.1).length - outerCnt ws))
    hbufS
  rw [hSlen] at hlist
  rw [hlist]
  have hpairS : List.Pairwise (· < ·)
      ((outerTies ws (outerSelect ws).selected.1).drop
        ((outerTies ws (outerSelect ws).selected.1).length -
          outerCnt ws)) :=
    List.Pairwise.sublist (List.drop_sublist _ _) (outerTies_pairwise ws _)
  have hrev : advSpec outerNextT
      ((outerTies ws (outerSelect ws).selected.1).drop
        ((outerTies ws (outerSelect ws).selected.1).length -
          outerCnt ws)).reverse 0 ws =
      advSpec outerNextT
        ((outerTies ws (outerSelect ws).selected.1).drop
          ((outerTies ws (outerSelect ws).selected.1).length -
            outerCnt ws)) 0 ws :=
    advSpec_congr_mem _ _ _ ws 0 (fun j _ _ => List.mem_reverse)
  rw [advVals_eq_advSpec outerNextT _ ws
    (List.pairwise_reverse.2 hpairS)
    (fun v hv => outerTies_mem_lt ws _ v
      (List.drop_subset _ _ (List.mem_reverse.1 hv)))
    hne, hrev]

/-! ## C3: advancing one working-set entry -/

theorem outerNextT_adv {t y : tracked_candidate}
    (hv : (t.candidate.terms.getD []) ≠ [] ∧
      List.Chain' termLt ((t.candidate.terms.getD []).map (fun p => p.1)))
    (hfy : outerNextT t = some y) :
    ((y.candidate.terms.getD []) ≠ [] ∧
      List.Chain' termLt ((y.candidate.terms.getD []).map (fun p => p.1))) ∧
    termLt (wcur t).1 (wcur y).1 := by
  have htne : ¬ (((t.candidate.terms.getD []).tail).isEmpty = true) := by
    intro hc
    rw [outerNextT, if_pos hc] at hfy
    exact Option.noConfusion hfy
  have hy : y = { t with candidate := { t.candidate with
      terms := some ((t.candidate.terms.getD []).tail) } } := by
    rw [outerNextT, if_neg htne] at hfy
    exact (Option.some.inj hfy).symm
  subst hy
  obtain ⟨htne2, hch⟩ := hv
  cases hts : t.candidate.terms.getD [] with
  | nil => exact absurd hts htne2
  | cons p0 ps =>
      cases hps : ps with
      | nil =>
          exfalso
          subst hps
          rw [hts] at htne
          exact htne rfl
      | cons p1 rest =>
          subst hps
          have hch2 := hch
          rw [hts] at hch2
          simp only [List.map_cons] at hch2
          have hlt : termLt p0.1 p1.1 := (List.chain'_cons.1 hch2).1
          constructor
          · constructor
            · exact List.cons_ne_nil p1 rest
            · exact (List.chain'_cons.1 hch2).2
          · have hw1 : (wcur t).1 = p0.1 := by
              simp only [wcur]
              rw [hts]
              rfl
            rw [hw1]
            exact hlt

theorem getD_mem_of_lt {α : Type} [Inhabited α] {l : List α} {v : Nat}
    (h : v < l.length) : l.getD v default ∈ l := by
  rw [List.getD_eq_getElem l default h]
  exact List.getElem_mem _

theorem mem_getD_pos {α : Type} [Inhabited α] {l : List α} {x : α}
    (h : x ∈ l) : ∃ i, i < l.length ∧ l.getD i default = x := by
  obtain ⟨i, hi, hx⟩ := List.getElem_of_mem h
  exact ⟨i, hi, by rw [List.getD_eq_getElem l default hi]; exact hx⟩

theorem head_not_mem_drop {l : List Nat} {n : Nat}
    (hpw : List.Pairwise (· < ·) l) (hn : 0 < n) : l.getD 0 0 ∉ l.drop n := by
  cases l with
  | nil => simp
  | cons a t =>
      intro hc
      have hsub : a ∈ t := by
        have hss : (a :: t).drop n ⊆ t := by
          cases n with
          | zero => omega
          | succ m =>
              rw [List.drop_succ_cons]
              exact List.drop_subset m t
        exact hss hc
      exact Nat.lt_irrefl a (List.rel_of_pairwise_cons hpw hsub)

/-! ## C3: the working set after one advancement -/

theorem outerAdv_facts (ws : List tracked_candidate) (hne : ws ≠ [])
    (hval : wsValid ws) (n : Nat) :
    ∀ x ∈ advSpec outerNextT
        ((outerTies ws (outerSelect ws).selected.1).drop n) 0 ws,
      ((x.candidate.terms.getD []) ≠ [] ∧
        List.Chain' termLt ((x.candidate.terms.getD []).map (fun p => p.1))) ∧
      terms_cmp (wcur x).1 (outerSelect ws).selected.1 ≠ .lt := by
  obtain ⟨hbl, hex, hmin, hcnt, hslots⟩ := outerSelect_char ws hne
  refine advSpec_forall outerNextT _ _ ws 0 ?_ ?_
  · intro j hj hjm y hfy
    have hget : ws.getD j default = ws.get ⟨j, hj⟩ := by
      rw [List.getD_eq_getElem ws default hj]
      rfl
    obtain ⟨hvy, hlt⟩ := outerNextT_adv (hval _ (List.get_mem ws j hj)) hfy
    refine ⟨hvy, ?_⟩
    have hjm' : j ∈ outerTies ws (outerSelect ws).selected.1 :=
      List.drop_subset _ _ (by simpa using hjm)
    have hjT : (wcur (ws.get ⟨j, hj⟩)).1 = (outerSelect ws).selected.1 := by
      rw [← hget]
      exact ((outerTies_mem_iff ws _ j).1 hjm').2
    rw [hjT] at hlt
    have hgt : terms_cmp (wcur y).1 (outerSelect ws).selected.1 = .gt :=
      (terms_cmp_gt_iff _ _).2 hlt
    intro hc
    rw [hc] at hgt
    cases hgt
  · intro j hj hjm
    have hget : ws.getD j default = ws.get ⟨j, hj⟩ := by
      rw [List.getD_eq_getElem ws default hj]
      rfl
    refine ⟨hval _ (List.get_mem ws j hj), ?_⟩
    have hm := hmin j hj
    rw [hget] at hm
    exact hm

theorem outerAdv_all_gone (ws : List tracked_candidate) (_hne : ws ≠ [])
    (hval : wsValid ws)
    (hn : (outerTies ws (outerSelect ws).selected.1).length - outerCnt ws = 0) :
    ∀ x ∈ advSpec outerNextT
        ((outerTies ws (outerSelect ws).selected.1).drop
          ((outerTies ws (outerSelect ws).selected.1).length - outerCnt ws))
        0 ws,
      (wcur x).1 ≠ (outerSelect ws).selected.1 := by
  refine advSpec_forall outerNextT _ _ ws 0 ?_ ?_
  · intro j hj hjm y hfy
    have hget : ws.getD j default = ws.get ⟨j, hj⟩ := by
      rw [List.getD_eq_getElem ws default hj]
      rfl
    obtain ⟨-, hlt⟩ := outerNextT_adv (hval _ (List.get_mem ws j hj)) hfy
    have hjm' : j ∈ outerTies ws (outerSelect ws).selected.1 :=
      List.drop_subset _ _ (by simpa using hjm)
    have hjT : (wcur (ws.get ⟨j, hj⟩)).1 = (outerSelect ws).selected.1 := by
      rw [← hget]
      exact ((outerTies_mem_iff ws _ j).1 hjm').2
    rw [hjT] at hlt
    intro hc
    simp only [termLt] at hlt
    rw [hc, terms_cmp_self] at hlt
    cases hlt
  · intro j hj hjm
    have hget : ws.getD j default = ws.get ⟨j, hj⟩ := by
      rw [List.getD_eq_getElem ws default hj]
      rfl
    rw [hn, List.drop_zero] at hjm
    intro hc
    refine hjm ?_
    have hmem : j ∈ outerTies ws (outerSelect ws).selected.1 :=
      (outerTies_mem_iff ws _ j).2 ⟨hj, by rw [hget]; exact hc⟩
    simpa using hmem

theorem outerAdv_tie_count (ws : List tracked_candidate) (hne : ws ≠ [])
    (hval : wsValid ws) :
    (advSpec outerNextT
        ((outerTies ws (outerSelect ws).selected.1).drop
          ((outerTies ws (outerSelect ws).selected.1).length - outerCnt ws))
        0 ws).countP
      (fun t => (wcur t).1 == (outerSelect ws).selected.1) =
    (outerTies ws (outerSelect ws).selected.1).length - outerCnt ws := by
  obtain ⟨hcle, hcpos, hc256⟩ := outerCnt_le ws hne
  have hQf : ∀ j (hj : j < ws.length),
      (0 + j) ∈ (outerTies ws (outerSelect ws).selected.1).drop
        ((outerTies ws (outerSelect ws).selected.1).length - outerCnt ws) →
      ∀ y, outerNextT (ws.get ⟨j, hj⟩) = some y →
        ((wcur y).1 == (outerSelect ws).selected.1) = false := by
    intro j hj hjm y hfy
    have hget : ws.getD j default = ws.get ⟨j, hj⟩ := by
      rw [List.getD_eq_getElem ws default hj]
      rfl
    obtain ⟨-, hlt⟩ := outerNextT_adv (hval _ (List.get_mem ws j hj)) hfy
    have hjm' : j ∈ outerTies ws (outerSelect ws).selected.1 :=
      List.drop_subset _ _ (by simpa using hjm)
    have hjT : (wcur (ws.get ⟨j, hj⟩)).1 = (outerSelect ws).selected.1 := by
      rw [← hget]
      exact ((outerTies_mem_iff ws _ j).1 hjm').2
    rw [hjT] at hlt
    rw [beq_eq_false_iff_ne]
    intro hc
    simp only [termLt] at hlt
    rw [hc, terms_cmp_self] at hlt
    cases hlt
  rw [advSpec_countP outerNextT _ _ ws 0 hQf]
  simp only [Nat.zero_add]
  rw [List.countP_eq_length_filter]
  have hff : List.filter
      (fun j => !(decide (j ∈ (outerTies ws (outerSelect ws).selected.1).drop
        ((outerTies ws (outerSelect ws).selected.1).length - outerCnt ws))))
      (List.filter
        (fun j => (wcur (ws.getD j default)).1 == (outerSelect ws).selected.1)
        (List.range ws.length)) =
      List.filter
        (fun j => (!(decide (j ∈ (outerTies ws (outerSelect ws).selected.1).drop
          ((outerTies ws (outerSelect ws).selected.1).length - outerCnt ws)))) &&
          ((wcur (ws.getD j default)).1 == (outerSelect ws).selected.1))
        (List.range ws.length) := List.filter_filter _ _
  rw [← hff]
  show ((outerTies ws (outerSelect ws).selected.1).filter
      (fun j => !(decide (j ∈ (outerTies ws (outerSelect ws).selected.1).drop
        ((outerTies ws (outerSelect ws).selected.1).length -
          outerCnt ws))))).length =
    (outerTies ws (outerSelect ws).selected.1).length - outerCnt ws
  have hpw := outerTies_pairwise ws (outerSelect ws).selected.1
  have hpw2 : List.Pairwise (· < ·)
      ((outerTies ws (outerSelect ws).selected.1).take
        ((outerTies ws (outerSelect ws).selected.1).length - outerCnt ws) ++
       (outerTies ws (outerSelect ws).selected.1).drop
        ((outerTies ws (outerSelect ws).selected.1).length - outerCnt ws)) := by
    rw [List.take_append_drop]
    exact hpw
  rw [take_filter_not_mem
    (fun x hx hx2 => Nat.lt_irrefl x
      ((List.pairwise_append.1 hpw2).2.2 x hx x hx2))
    (fun x hx => hx)]
  rw [List.length_take]
  omega


theorem outerTies_length_countP (ws : List tracked_candidate)
    (T : List Nat) :
    (outerTies ws T).length =
      ws.countP (fun t => (wcur t).1 == T) := by
  simp only [outerTies, otiesUpTo]
  exact filter_range_getD_length (fun t => (wcur t).1 == T) ws

/-! ## C3: the dispatch of an iteration whose wrapped count is zero -/

theorem mergeStep_cnt_zero {coll : MergeCandidatesCollection}
    {is : IndexSession} {ws : List tracked_candidate} {e : Option out_entry}
    {next : Option (List tracked_candidate)}
    (h : mergeStep coll is ws = .ok (e, next))
    (h0 : (outerSelect ws).cnt = 0) : e = none := by
  simp only [mergeStep] at h
  rw [h0] at h
  rw [if_neg (by omega : ¬ (0 : Nat) = 1)] at h
  split at h
  · rw [show fastMultiGroup coll is (outerSelect ws).selected.1 ws
        (outerSelect ws).buf 0 = none from rfl] at h
    rw [exbind_ok] at h
    cases h
    rfl
  · rw [show slowGroup coll is (outerSelect ws).selected.1 ws
        (outerSelect ws).buf 0 = .ok none from rfl] at h
    rw [exbind_ok] at h
    cases h
    rfl

/-! ## C3: the output terms of the merge loop are strictly ascending -/

theorem mergeLoop_sorted (coll : MergeCandidatesCollection) (is : IndexSession) :
    ∀ fuel ws out, ws ≠ [] → wsValid ws →
      mergeLoop coll is fuel ws = .ok out →
      List.Chain' termLt (out.map (fun e => e.term)) ∧
      (∀ e ∈ out, terms_cmp e.term (outerSelect ws).selected.1 ≠ .lt) ∧
      ((outerTies ws (outerSelect ws).selected.1).length % 256 = 0 →
        ∀ e ∈ out, termLt (outerSelect ws).selected.1 e.term)
  | 0, ws, out, _, _, h => by
      simp only [mergeLoop] at h
      cases h
      exact ⟨List.chain'_nil,
        fun e he => absurd he (List.not_mem_nil e),
        fun _ e he => absurd he (List.not_mem_nil e)⟩
  | fuel + 1, ws, out, hne, hval, h => by
      rw [mergeLoop] at h
      cases hs : mergeStep coll is ws with
      | error err => rw [hs, exbind_error] at h; cases h
      | ok p =>
          obtain ⟨entry, next⟩ := p
          rw [hs, exbind_ok] at h
          obtain ⟨hterm, hnext⟩ := mergeStep_ok hs
          rw [show (if (outerSelect ws).cnt = 0 then 256
            else (outerSelect ws).cnt) = outerCnt ws from rfl,
            outerAdvance_char ws hne] at hnext
          obtain ⟨hcle, hcpos, hc256⟩ := outerCnt_le ws hne
          obtain ⟨hbl, hex, hmin, hcnt, hslots⟩ := outerSelect_char ws hne
          cases next with
          | none =>
              simp only at h
              cases h
              refine ⟨?_, ?_, ?_⟩
              · cases entry with
                | none => exact List.chain'_nil
                | some x => exact List.chain'_singleton _
              · intro e he
                cases entry with
                | none => simp at he
                | some x =>
                    simp only [Option.toList] at he
                    rcases List.mem_singleton.1 he with rfl
                    rw [(hterm _ rfl).1, terms_cmp_self]
                    intro hc
                    cases hc
              · intro h0 e he
                have he0 : entry = none :=
                  mergeStep_cnt_zero hs (by rw [hcnt, h0])
                subst he0
                simp at he
          | some ws' =>
              simp only at h
              by_cases hemp : (advSpec outerNextT
                  ((outerTies ws (outerSelect ws).selected.1).drop
                    ((outerTies ws (outerSelect ws).selected.1).length -
                      outerCnt ws)) 0 ws).isEmpty
              · rw [if_pos hemp] at hnext
                cases hnext
              · rw [if_neg hemp] at hnext
                have hws' : ws' = advSpec outerNextT
                    ((outerTies ws (outerSelect ws).selected.1).drop
                      ((outerTies ws (outerSelect ws).selected.1).length -
                        outerCnt ws)) 0 ws := Option.some.inj hnext
                subst hws'
                have htie_count := outerAdv_tie_count ws hne hval
                have hP := outerAdv_facts ws hne hval
                  ((outerTies ws (outerSelect ws).selected.1).length -
                    outerCnt ws)
                have hgone := outerAdv_all_gone ws hne hval
                have hsurv0 : ∀ (hn : 0 <
                    (outerTies ws (outerSelect ws).selected.1).length -
                      outerCnt ws)
                    (hpos_lt : (outerTies ws
                      (outerSelect ws).selected.1).getD 0 0 < ws.length),
                    ws.get ⟨(outerTies ws (outerSelect ws).selected.1).getD 0 0,
                      hpos_lt⟩ ∈ advSpec outerNextT
                      ((outerTies ws (outerSelect ws).selected.1).drop
                        ((outerTies ws (outerSelect ws).selected.1).length -
                          outerCnt ws)) 0 ws := by
                  intro hn hpos_lt
                  have hnm := head_not_mem_drop
                    (outerTies_pairwise ws (outerSelect ws).selected.1) hn
                  exact advSpec_mem_of_not_mem outerNextT _ ws 0 _ hpos_lt
                    (by simpa using hnm)
                generalize hWS : advSpec outerNextT
                    ((outerTies ws (outerSelect ws).selected.1).drop
                      ((outerTies ws (outerSelect ws).selected.1).length -
                        outerCnt ws)) 0 ws = W
                  at htie_count hP hgone hemp hsurv0 h
                have hWne : W ≠ [] := fun hc => hemp (by rw [hc]; rfl)
                have hval' : wsValid W := fun x hx => (hP x hx).1
                have hub : ∀ x ∈ W,
                    terms_cmp (wcur x).1 (outerSelect ws).selected.1 ≠ .lt :=
                  fun x hx => (hP x hx).2
                cases hr : mergeLoop coll is fuel W with
                | error err => rw [hr, exbind_error] at h; cases h
                | ok rest =>
                    rw [hr, exbind_ok] at h
                    cases h
                    obtain ⟨ihchain, ihlb, ihcond⟩ :=
                      mergeLoop_sorted coll is fuel W rest hWne hval' hr
                    obtain ⟨hbl2, ⟨i2, hi2, hid2⟩, hmin2, -, -⟩ :=
                      outerSelect_char W hWne
                    by_cases hn : 0 <
                        (outerTies ws (outerSelect ws).selected.1).length -
                          outerCnt ws
                    · -- untied candidates remain at the selected term
                      have hg1 : 0 <
                          (outerTies ws (outerSelect ws).selected.1).length :=
                        List.length_pos.2 (outerTies_ne_nil ws hne)
                      have hpos_mem : (outerTies ws
                          (outerSelect ws).selected.1).getD 0 0 ∈
                          outerTies ws (outerSelect ws).selected.1 :=
                        getD_mem_of_lt hg1
                      have hpos_lt : (outerTies ws
                          (outerSelect ws).selected.1).getD 0 0 < ws.length :=
                        outerTies_mem_lt ws _ _ hpos_mem
                      have hposT : (wcur (ws.getD ((outerTies ws
                          (outerSelect ws).selected.1).getD 0 0) default)).1 =
                          (outerSelect ws).selected.1 :=
                        ((outerTies_mem_iff ws _ _).1 hpos_mem).2
                      have hsurv := hsurv0 hn hpos_lt
                      have hsurvT : (wcur (ws.get ⟨(outerTies ws
                          (outerSelect ws).selected.1).getD 0 0,
                          hpos_lt⟩)).1 = (outerSelect ws).selected.1 := by
                        have hget : ws.getD ((outerTies ws
                            (outerSelect ws).selected.1).getD 0 0) default =
                            ws.get ⟨_, hpos_lt⟩ := by
                          rw [List.getD_eq_getElem ws default hpos_lt]
                          rfl
                        rw [← hget]
                        exact hposT
                      have h1 : terms_cmp (outerSelect W).selected.1
                          (outerSelect ws).selected.1 ≠ .lt := by
                        have hmem2 : W.getD i2 default ∈ W := getD_mem_of_lt hi2
                        have hx := hub _ hmem2
                        rw [hid2] at hx
                        exact hx
                      have h2 : terms_cmp (outerSelect ws).selected.1
                          (outerSelect W).selected.1 ≠ .lt := by
                        obtain ⟨isv, hisv, hgv⟩ := mem_getD_pos hsurv
                        have hx := hmin2 isv hisv
                        rw [hgv, hsurvT] at hx
                        exact hx
                      have hTT : (outerSelect W).selected.1 =
                          (outerSelect ws).selected.1 := by
                        rcases terms_cmp_cases (outerSelect W).selected.1
                          (outerSelect ws).selected.1 with hc | hc | hc
                        · exact absurd hc h1
                        · exact (terms_cmp_eq_iff _ _).1 hc
                        · exact absurd ((terms_cmp_gt_iff _ _).1 hc) h2
                      have hmod0 : ((outerTies ws
                          (outerSelect ws).selected.1).length -
                          outerCnt ws) % 256 = 0 := by
                        have hdisj : outerCnt ws = 256 ∧
                            (outerTies ws
                              (outerSelect ws).selected.1).length % 256 = 0 ∨
                            outerCnt ws = (outerTies ws
                              (outerSelect ws).selected.1).length % 256 := by
                          simp only [outerCnt]
                          by_cases h0 : (outerSelect ws).cnt = 0
                          · rw [if_pos h0]
                            refine Or.inl ⟨rfl, ?_⟩
                            rw [h0] at hcnt
                            omega
                          · rw [if_neg h0]
                            right
                            rw [← hcnt]
                        omega
                      have hcntW : (outerTies W
                          (outerSelect W).selected.1).length % 256 = 0 := by
                        rw [hTT, outerTies_length_countP, htie_count]
                        exact hmod0
                      refine ⟨?_, ?_, ?_⟩
                      · rw [List.map_append, List.chain'_append]
                        refine ⟨?_, ihchain, ?_⟩
                        · cases entry with
                          | none => exact List.chain'_nil
                          | some x => exact List.chain'_singleton _
                        · intro a ha b hb
                          cases entry with
                          | none => simp at ha
                          | some x =>
                              simp only [Option.toList, List.map_cons,
                                List.map_nil] at ha
                              have ha2 : x.term = a := by simpa using ha
                              subst ha2
                              have hbmem : b ∈ rest.map (fun e => e.term) :=
                                List.mem_of_mem_head? hb
                              obtain ⟨o, ho, rfl⟩ := List.mem_map.1 hbmem
                              have hTlt := ihcond hcntW o ho
                              rw [hTT] at hTlt
                              rw [(hterm _ rfl).1]
                              exact hTlt
                      · intro e he
                        rcases List.mem_append.1 he with h1e | h2e
                        · cases entry with
                          | none => simp at h1e
                          | some x =>
                              simp only [Option.toList] at h1e
                              rcases List.mem_singleton.1 h1e with rfl
                              rw [(hterm _ rfl).1, terms_cmp_self]
                              intro hc
                              cases hc
                        · have hx := ihlb e h2e
                          rw [hTT] at hx
                          exact hx
                      · intro h0 e he
                        have he0 : entry = none :=
                          mergeStep_cnt_zero hs (by rw [hcnt, h0])
                        subst he0
                        simp only [Option.toList, List.nil_append] at he
                        have hx := ihcond hcntW e he
                        rw [hTT] at hx
                        exact hx
                    · -- every tied candidate advanced past the term
                      have hn0 : (outerTies ws
                          (outerSelect ws).selected.1).length -
                          outerCnt ws = 0 := by omega
                      have hgone2 := hgone hn0
                      have hTT : termLt (outerSelect ws).selected.1
                          (outerSelect W).selected.1 := by
                        have hmem2 : W.getD i2 default ∈ W := getD_mem_of_lt hi2
                        have hxa := hub _ hmem2
                        rw [hid2] at hxa
                        have hxb := hgone2 _ hmem2
                        rw [hid2] at hxb
                        rcases terms_cmp_cases (outerSelect W).selected.1
                          (outerSelect ws).selected.1 with hc | hc | hc
                        · exact absurd hc hxa
                        · exact absurd ((terms_cmp_eq_iff _ _).1 hc) hxb
                        · exact (terms_cmp_gt_iff _ _).1 hc
                      refine ⟨?_, ?_, ?_⟩
                      · rw [List.map_append, List.chain'_append]
                        refine ⟨?_, ihchain, ?_⟩
                        · cases entry with
                          | none => exact List.chain'_nil
                          | some x => exact List.chain'_singleton _
                        · intro a ha b hb
                          cases entry with
                          | none => simp at ha
                          | some x =>
                              simp only [Option.toList, List.map_cons,
                                List.map_nil] at ha
                              have ha2 : x.term = a := by simpa using ha
                              subst ha2
                              have hbmem : b ∈ rest.map (fun e => e.term) :=
                                List.mem_of_mem_head? hb
                              obtain ⟨o, ho, rfl⟩ := List.mem_map.1 hbmem
                              rw [(hterm _ rfl).1]
                              exact termLt_of_lt_of_not_lt hTT (ihlb o ho)
                      · intro e he
                        rcases List.mem_append.1 he with h1e | h2e
                        · cases entry with
                          | none => simp at h1e
                          | some x =>
                              simp only [Option.toList] at h1e
                              rcases List.mem_singleton.1 h1e with rfl
                              rw [(hterm _ rfl).1, terms_cmp_self]
                              intro hc
                              cases hc
                        · have hTe := termLt_of_lt_of_not_lt hTT (ihlb e h2e)
                          have hgt := (terms_cmp_gt_iff _ _).2 hTe
                          intro hc
                          rw [hc] at hgt
                          cases hgt
                      · intro h0 e he
                        have he0 : entry = none :=
                          mergeStep_cnt_zero hs (by rw [hcnt, h0])
                        subst he0
                        simp only [Option.toList, List.nil_append] at he
                        exact termLt_of_lt_of_not_lt hTT (ihlb e he)

/-! ## C3: the claim -/

/-- C3 (amended): each outer iteration selects the minimum current term
across the working set, `toAdvanceCnt` is the number of candidates tied at
that term reduced modulo 256 (it is a `uint8_t`), and the iteration
advances the wrapped count's worth of tied candidates — the most recently
scanned ones — which is all of them exactly when the tie involves fewer
than 257 candidates; iterations whose wrapped count is 0 emit nothing; and
for every candidate set whose term iterators each produce terms in strict
lexicographic ascending order, the sequence of terms appended by `merge`
to the output sink is strictly lexicographically ascending. -/
theorem claim_C3_lex_order_of_output_terms :
    (∀ ws : List tracked_candidate, ws ≠ [] →
      (∃ i, i < ws.length ∧
        (wcur (ws.getD i default)).1 = (outerSelect ws).selected.1) ∧
      (∀ i, i < ws.length →
        terms_cmp (wcur (ws.getD i default)).1
          (outerSelect ws).selected.1 ≠ .lt) ∧
      (outerSelect ws).cnt =
        (outerTies ws (outerSelect ws).selected.1).length % 256 ∧
      outerAdvance (outerSelect ws).buf (outerCnt ws) ws =
        (if (advSpec outerNextT
              ((outerTies ws (outerSelect ws).selected.1).drop
                ((outerTies ws (outerSelect ws).selected.1).length -
                  outerCnt ws)) 0 ws).isEmpty
         then none
         else some (advSpec outerNextT
           ((outerTies ws (outerSelect ws).selected.1).drop
             ((outerTies ws (outerSelect ws).selected.1).length -
               outerCnt ws)) 0 ws))) ∧
    (∀ (coll : MergeCandidatesCollection) (is : IndexSession)
        (flushFreq : Nat) (out : List out_entry),
      (∀ c ∈ coll.candidates, ∀ ts, c.terms = some ts →
        List.Chain' termLt (ts.map (fun p => p.1))) →
      merge coll is flushFreq = .ok out →
      List.Chain' termLt (out.map (fun e => e.term))) := by
  constructor
  · intro ws hne
    obtain ⟨-, hex, hmin, hcnt, -⟩ := outerSelect_char ws hne
    exact ⟨hex, hmin, hcnt, outerAdvance_char ws hne⟩
  · intro coll is flushFreq out hasc h
    simp only [merge] at h
    split at h
    · cases hw : buildWorkingFrom 0 none coll.candidates with
      | error err => rw [hw, exbind_error] at h; cases h
      | ok ws =>
          rw [hw, exbind_ok] at h
          split at h
          · cases h
            exact List.chain'_nil
          · rename_i hnemp
            have hne : ws ≠ [] := by
              intro hc
              rw [hc] at hnemp
              exact hnemp rfl
            have hval : wsValid ws := by
              intro t ht
              obtain ⟨⟨ts, hts, htne⟩, -, -, hlt, hget⟩ :=
                buildWorkingFrom_mem hw t ht
              have hmem : t.candidate ∈ coll.candidates := by
                rw [← hget]
                exact getD_mem_of_lt (by omega)
              have hch := hasc _ hmem ts hts
              rw [hts]
              exact ⟨htne, hch⟩
            exact (mergeLoop_sorted coll is (outerFuel ws) ws out hne
              hval h).1
    · rw [exthrow_bind] at h
      cases h

/-- C3 counterexample: 257 candidates tied at the same term make the
`uint8_t` tie counter wrap to 1, so that iteration advances only one of
them — 256 candidates are still at the term afterwards — refuting
"advances exactly the candidates that were at that term". -/
theorem claim_C3_counterexample :
    (outerSelect fixC3tieWS).cnt = 1 ∧
    (outerAdvance (outerSelect fixC3tieWS).buf (outerCnt fixC3tieWS)
        fixC3tieWS).isSome = true ∧
    ((outerAdvance (outerSelect fixC3tieWS).buf (outerCnt fixC3tieWS)
        fixC3tieWS).getD []).countP
      (fun t => (wcur t).1 == [97]) = 256 := by decide

theorem claim_C3_witness :
    fixC3ws ≠ [] ∧
    (∀ c ∈ fixC3coll.candidates, ∀ ts, c.terms = some ts →
      List.Chain' termLt (ts.map (fun p => p.1))) ∧
    merge fixC3coll fixC3is 0 = .ok fixC3out ∧
    (outerSelect fixC3ws).cnt =
      (outerTies fixC3ws (outerSelect fixC3ws).selected.1).length % 256 ∧
    List.Chain' termLt (fixC3out.map (fun e => e.term)) := by
  have hasc : ∀ c ∈ fixC3coll.candidates, ∀ ts, c.terms = some ts →
      List.Chain' termLt (ts.map (fun p => p.1)) := by
    intro c hc ts hts
    have hcands : fixC3coll.candidates = [fixC3candA, fixC3candB] := rfl
    rw [hcands] at hc
    simp only [List.mem_cons, List.not_mem_nil, or_false] at hc
    rcases hc with rfl | rfl
    · rw [show fixC3candA.terms =
          some [([97], ⟨1, 0⟩), ([99], ⟨1, 0⟩)] from rfl] at hts
      cases hts
      exact List.chain'_cons.2 ⟨by decide, List.chain'_singleton _⟩
    · rw [show fixC3candB.terms =
          some [([97], ⟨1, 0⟩), ([98], ⟨1, 0⟩)] from rfl] at hts
      cases hts
      exact List.chain'_cons.2 ⟨by decide, List.chain'_singleton _⟩
  have hmerge : merge fixC3coll fixC3is 0 = .ok fixC3out := rfl
  exact ⟨List.cons_ne_nil _ _, hasc, hmerge,
    (claim_C3_lex_order_of_output_terms.1 fixC3ws
      (List.cons_ne_nil _ _)).2.2.1,
    claim_C3_lex_order_of_output_terms.2 fixC3coll fixC3is 0 fixC3out
      hasc hmerge⟩

end Trinity
